import Mathlib

set_option maxRecDepth 1000000

/-!
Verification of the multi-frame XYZ trajectory parser
(`cp2k_tools/parser/xyz.py`).

The parser is built from two Python regular expressions compiled with
`re.MULTILINE | re.VERBOSE` — `POS_MATCH_REGEX` (one coordinate line) and
`FRAME_MATCH_REGEX` (one whole frame) — driven by `re.finditer`, plus a lazy
counting iterator (`BlockIterator`) that validates the declared atom count
while entries are pulled, and an eager wrapper (`XYZParser.parse`).

The embedding below reproduces:
* the two regexes as abstract syntax trees over named character classes,
  translated token by token from the VERBOSE pattern source (in particular the
  quirks of the source are kept: inside a character class VERBOSE mode does
  not strip whitespace, so `[E | e]` is the set {E, space, pipe, e} and
  `[\- | \+ ]` is {minus, space, pipe, plus}, and `[\-|\+]` contains a literal
  pipe);
* a continuation-passing backtracking matcher with Python's leftmost,
  greedy, left-alternative-first match semantics, `MULTILINE` line anchors and
  `finditer` scanning;
* both pattern compilations of the source: text mode (Unicode semantics for
  `\s`, `\d`) and bytes mode (`FRAME_MATCH_REGEX.encode('utf8')`, ASCII
  semantics), as two interpretations of the same class names;
* `float()` on the captured tokens (exact rational arithmetic in place of
  IEEE doubles; every concrete value appearing in the theorems below is
  exactly representable either way), `int()` on the `natoms` capture, and the
  UTF-8 decoding of the comment group in bytes mode;
* the `BlockIterator` state machine and the eager `parse`.
-/

/-- Named character classes occurring in the two regexes. -/
inductive CC where
  | spTab      -- [ \t]
  | ws         -- \s
  | dig        -- \d
  | d09        -- [0-9]
  | alpha      -- [A-Za-z]
  | alnum      -- [A-Za-z0-9]
  | dotAny     -- . (no DOTALL: anything but newline)
  | nlc        -- [\n]
  | dotCh      -- [\.]
  | hashC      -- \#
  | signPos    -- [\-|\+]      : {-, |, +}       (POS_MATCH_REGEX line 41-43)
  | signFrame  -- [\- | \+ ]   : {-, space, |, +} (FRAME_MATCH_REGEX line 60)
  | expC       -- [E | e]      : {E, space, |, e}
  | signExp    -- [+|-]        : {+, |, -}
deriving DecidableEq, Repr

/-- Text-mode (str pattern) interpretation of the classes over Unicode code
points, following CPython `re` semantics: `\s` is the Unicode whitespace set
(which on top of ASCII `[ \t\n\r\f\v]` also contains U+001C–U+001F, U+0085,
U+00A0, U+1680, U+2000–U+200A, U+2028, U+2029, U+202F, U+205F, U+3000), and
`\d` is the Unicode decimal-digit category (listed here are the ASCII digits
and the non-ASCII decimal ranges relevant to this development; the remaining
Nd ranges are immaterial: every theorem below confines its input to ASCII,
or exercises only the whitespace classes outside ASCII). -/
def charClass : CC → Nat → Bool
  | .spTab, n => n == 32 || n == 9
  | .ws, n => (9 ≤ n && n ≤ 13) || n == 32 || (28 ≤ n && n ≤ 31) || n == 133
      || n == 160 || n == 5760 || (8192 ≤ n && n ≤ 8202) || n == 8232
      || n == 8233 || n == 8239 || n == 8287 || n == 12288
  | .dig, n => (48 ≤ n && n ≤ 57) || (1632 ≤ n && n ≤ 1641)
      || (2406 ≤ n && n ≤ 2415)
  | .d09, n => 48 ≤ n && n ≤ 57
  | .alpha, n => (65 ≤ n && n ≤ 90) || (97 ≤ n && n ≤ 122)
  | .alnum, n => (65 ≤ n && n ≤ 90) || (97 ≤ n && n ≤ 122) || (48 ≤ n && n ≤ 57)
  | .dotAny, n => n != 10
  | .nlc, n => n == 10
  | .dotCh, n => n == 46
  | .hashC, n => n == 35
  | .signPos, n => n == 45 || n == 124 || n == 43
  | .signFrame, n => n == 45 || n == 32 || n == 124 || n == 43
  | .expC, n => n == 69 || n == 32 || n == 124 || n == 101
  | .signExp, n => n == 43 || n == 124 || n == 45

/-- Bytes-mode interpretation (the source compiles
`FRAME_MATCH_REGEX.encode('utf8')` when handed a byte-like object): `\s` and
`\d` fall back to their ASCII meaning, `.` is any byte other than 0x0A. -/
def byteClass : CC → Nat → Bool
  | .spTab, n => n == 32 || n == 9
  | .ws, n => (9 ≤ n && n ≤ 13) || n == 32
  | .dig, n => 48 ≤ n && n ≤ 57
  | .d09, n => 48 ≤ n && n ≤ 57
  | .alpha, n => (65 ≤ n && n ≤ 90) || (97 ≤ n && n ≤ 122)
  | .alnum, n => (65 ≤ n && n ≤ 90) || (97 ≤ n && n ≤ 122) || (48 ≤ n && n ≤ 57)
  | .dotAny, n => n != 10
  | .nlc, n => n == 10
  | .dotCh, n => n == 46
  | .hashC, n => n == 35
  | .signPos, n => n == 45 || n == 124 || n == 43
  | .signFrame, n => n == 45 || n == 32 || n == 124 || n == 43
  | .expC, n => n == 69 || n == 32 || n == 124 || n == 101
  | .signExp, n => n == 43 || n == 124 || n == 45

/-- Text-mode classes applied to a `Char`. -/
def charI (cc : CC) (c : Char) : Bool := charClass cc c.toNat

/-- Regular-expression abstract syntax: character class, concatenation,
alternation (left preferred), greedy star, greedy option, the MULTILINE `^`
anchor, and a numbered capture group.  The unnamed groups of the source that
are never read back are represented without a capture node (capturing has no
effect on what matches). -/
inductive RE where
  | cls (c : CC)
  | seq (a b : RE)
  | alt (a b : RE)
  | star (a : RE)
  | opt (a : RE)
  | bol
  | grp (i : Nat) (a : RE)
deriving DecidableEq, Repr

/-- `+` is one copy followed by a greedy star. -/
def plus (a : RE) : RE := .seq a (.star a)

/-- `{3}` is three copies in sequence. -/
def rep3 (a : RE) : RE := .seq a (.seq a a)

/-- Captured groups: most recent first, looked up by number. -/
abbrev Caps (α : Type) := List (Nat × List α)

/-- The greedy-star loop: try one more iteration of the item first (the item
matcher is passed in as `step`), fall back to the continuation `k` on
failure.  An iteration must consume at least one character (Python's engine
likewise stops repeating on an empty match), so a fuel equal to the length of
the current input can never run out — at fuel `0` the input is empty and no
iteration could consume anyway, which is what the base case says. -/
def starLoop {α ρ : Type}
    (step : Caps α → Option α → List α →
      (Caps α → Option α → List α → Option ρ) → Option ρ) :
    Nat → Caps α → Option α → List α →
      (Caps α → Option α → List α → Option ρ) → Option ρ
  | 0, cp, pv, l, k =>
    (step cp pv l (fun _ _ _ => none)).orElse (fun _ => k cp pv l)
  | n + 1, cp, pv, l, k =>
    (step cp pv l (fun cp2 pv2 l2 =>
      if l2.length < l.length then starLoop step n cp2 pv2 l2 k
      else none)).orElse (fun _ => k cp pv l)

/-- The backtracking matcher, in continuation-passing style, parameterised by
the class interpretation `I`.  `pv` is the character just before the current
position (for the MULTILINE `^` anchor), `cp` the captures recorded so far.
Alternation tries its left branch first; `star` and `opt` are greedy (longest
first). -/
def mre {α ρ : Type} (I : CC → α → Bool) : RE → Caps α → Option α → List α →
    (Caps α → Option α → List α → Option ρ) → Option ρ
  | .cls c, cp, _pv, l, k =>
    match l with
    | [] => none
    | x :: xs => if I c x then k cp (some x) xs else none
  | .seq a b, cp, pv, l, k =>
    mre I a cp pv l (fun cp2 pv2 l2 => mre I b cp2 pv2 l2 k)
  | .alt a b, cp, pv, l, k =>
    (mre I a cp pv l k).orElse (fun _ => mre I b cp pv l k)
  | .opt a, cp, pv, l, k => (mre I a cp pv l k).orElse (fun _ => k cp pv l)
  | .star a, cp, pv, l, k =>
    starLoop (fun cp2 pv2 l2 k2 => mre I a cp2 pv2 l2 k2) l.length cp pv l k
  | .bol, cp, pv, l, k =>
    if (match pv with | none => true | some c => I .nlc c) then k cp pv l
    else none
  | .grp i a, cp, pv, l, k =>
    mre I a cp pv l
      (fun cp2 pv2 l2 => k ((i, l.take (l.length - l2.length)) :: cp2) pv2 l2)

/-- One match attempt at the current position (what `pattern.match` would do
at this offset): returns the captures, the last character consumed and the
rest of the input. -/
def tryMatch {α : Type} (I : CC → α → Bool) (re : RE) (pv : Option α)
    (l : List α) : Option (Caps α × Option α × List α) :=
  mre I re [] pv l (fun cp pv2 l2 => some (cp, pv2, l2))

/-- `finditer`: scan left to right, at each failing offset advance one
character, after a successful (non-empty) match continue right behind it. -/
def fIter {α : Type} (I : CC → α → Bool) (re : RE) :
    Nat → Option α → List α → List (Caps α)
  | 0, _, _ => []
  | fu + 1, pv, l =>
    match tryMatch I re pv l with
    | some (cp, pv2, l2) =>
      if l2.length < l.length then cp :: fIter I re fu pv2 l2
      else
        match l with
        | [] => [cp]
        | x :: xs => cp :: fIter I re fu (some x) xs
    | none =>
      match l with
      | [] => []
      | x :: xs => fIter I re fu (some x) xs

/-- All matches of `re` in `l`, in document order. -/
def findIter {α : Type} (I : CC → α → Bool) (re : RE) (l : List α) :
    List (Caps α) :=
  fIter I re (l.length + 1) none l

/-- Look a capture group up (most recent entry wins, like a Python match
object). -/
def capsGet {α : Type} (cp : Caps α) (i : Nat) : Option (List α) :=
  match cp with
  | [] => none
  | (j, v) :: r => if j = i then some v else capsGet r i

/-- The symbol token `[A-Za-z]+[A-Za-z0-9]*` shared by both regexes. -/
def symRE : RE := .seq (plus (.cls .alpha)) (.star (.cls .alnum))

/-- Float body of `POS_MATCH_REGEX`: `( \d*[\.]\d+ | \d+[\.]?\d* )`. -/
def floatBody : RE :=
  .alt (.seq (.star (.cls .dig)) (.seq (.cls .dotCh) (plus (.cls .dig))))
       (.seq (plus (.cls .dig)) (.seq (.opt (.cls .dotCh)) (.star (.cls .dig))))

/-- Optional exponent `([E | e][+|-]?\d+)?`.  VERBOSE mode keeps whitespace
inside a character class, so the exponent marker class is {E, space, |, e}. -/
def expRE : RE :=
  .opt (.seq (.cls .expC) (.seq (.opt (.cls .signExp)) (plus (.cls .dig))))

/-- One captured coordinate of `POS_MATCH_REGEX`:
`[\-|\+]? ( \d*[\.]\d+ | \d+[\.]?\d* ) ([E | e][+|-]?\d+)?`. -/
def coordRE : RE := .seq (.opt (.cls .signPos)) (.seq floatBody expRE)

/-- `POS_MATCH_REGEX` (MULTILINE | VERBOSE), group numbers
0 = sym, 1 = x, 2 = y, 3 = z:
`^[ \t]*(?P<sym>[A-Za-z]+[A-Za-z0-9]*)\s+(?P<x>…)[ \t]+(?P<y>…)[ \t]+(?P<z>…)`. -/
def POS_MATCH_REGEX : RE :=
  .seq .bol (.seq (.star (.cls .spTab))
    (.seq (.grp 0 symRE) (.seq (plus (.cls .ws))
      (.seq (.grp 1 coordRE) (.seq (plus (.cls .spTab))
        (.seq (.grp 2 coordRE) (.seq (plus (.cls .spTab)) (.grp 3 coordRE))))))))

/-- The repeated float shape inside `FRAME_MATCH_REGEX` (lines 58–69 of the
source).  The alternation there binds the whole group, so the two branches
are `\s+[\- | \+ ]?(\d*[\.]\d+)` and `(\d+[\.]?\d*)([E | e][+|-]?\d+)?`. -/
def frameFloat : RE :=
  .alt (.seq (plus (.cls .ws)) (.seq (.opt (.cls .signFrame))
         (.seq (.star (.cls .dig)) (.seq (.cls .dotCh) (plus (.cls .dig))))))
       (.seq (plus (.cls .dig)) (.seq (.opt (.cls .dotCh))
         (.seq (.star (.cls .dig)) expRE)))

/-- One line of the positions block (lines 53–78 of the source):
`( \s* ( [A-Za-z]+[A-Za-z0-9]* (float){3} | \# ) .* | \s* ) [\n]`. -/
def posLineRE : RE :=
  .seq (.alt (.seq (.star (.cls .ws))
               (.seq (.alt (.seq symRE (rep3 frameFloat)) (.cls .hashC))
                     (.star (.cls .dotAny))))
             (.star (.cls .ws)))
       (.cls .nlc)

/-- `FRAME_MATCH_REGEX` (MULTILINE | VERBOSE), group numbers 0 = natoms,
1 = comment, 2 = positions:
`^[ \t]*(?P<natoms>[0-9]+)[ \t]*[\n](?P<comment>.*)[\n](?P<positions>(…)+)`. -/
def FRAME_MATCH_REGEX : RE :=
  .seq .bol (.seq (.star (.cls .spTab))
    (.seq (.grp 0 (plus (.cls .d09))) (.seq (.star (.cls .spTab))
      (.seq (.cls .nlc) (.seq (.grp 1 (.star (.cls .dotAny)))
        (.seq (.cls .nlc) (.grp 2 (plus posLineRE))))))))

/-- Errors a parse can surface: the two `TypeError` count mismatches of
`BlockIterator.__next__` (carrying the number of entries found and the number
of atoms declared, in that order, as in the messages of the source), a
`float()` failure, and a comment `.decode('utf8')` failure in bytes mode. -/
inductive PErr where
  | smaller (found declared : Nat)
  | larger (found declared : Nat)
  | valueError
  | decodeError
deriving DecidableEq, Repr

/-- The four captures of one position-line match. -/
structure PosTok (α : Type) where
  sym : List α
  x : List α
  y : List α
  z : List α
deriving DecidableEq, Repr

/-- The three captures of one frame match, `natoms` already through `int()`. -/
structure FrameT (α : Type) where
  natoms : Nat
  comment : List α
  positions : List α
deriving DecidableEq, Repr

/-- `int()` on a captured all-digit token. -/
def digitsToNat {α : Type} (dval : α → Nat) (l : List α) : Nat :=
  l.foldl (fun a c => 10 * a + dval c) 0

/-- Digit value of a character. -/
def charDval (c : Char) : Nat := c.toNat - 48

/-- Digit value of a byte. -/
def byteDval (b : Nat) : Nat := b - 48

/-- All frame matches of the input, in document order
(`frame_match.finditer(content)` with the groups extracted). -/
def framesOf {α : Type} (I : CC → α → Bool) (dval : α → Nat) (l : List α) :
    List (FrameT α) :=
  (findIter I FRAME_MATCH_REGEX l).map fun cp =>
    ⟨digitsToNat dval ((capsGet cp 0).getD []),
     (capsGet cp 1).getD [], (capsGet cp 2).getD []⟩

/-- All position-line matches of a positions block, in document order
(`pos_match.finditer(block.group('positions'))`). -/
def posToksOf {α : Type} (I : CC → α → Bool) (block : List α) :
    List (PosTok α) :=
  (findIter I POS_MATCH_REGEX block).map fun cp =>
    ⟨(capsGet cp 0).getD [], (capsGet cp 1).getD [],
     (capsGet cp 2).getD [], (capsGet cp 3).getD []⟩

/-- ASCII decimal digit. -/
def pyDigit (c : Char) : Bool := 48 ≤ c.toNat && c.toNat ≤ 57

/-- Numeric value of an ASCII digit string. -/
def digitsVal (l : List Char) : Nat :=
  l.foldl (fun a c => 10 * a + (c.toNat - 48)) 0

/-- Strip leading and trailing whitespace, as `float()` does. -/
def stripWs (s : List Char) : List Char :=
  ((s.dropWhile fun c => charClass .ws c.toNat).reverse.dropWhile
    fun c => charClass .ws c.toNat).reverse

/-- Model of Python `float()` on the token strings reachable from these
regexes (optional sign, decimal digits with an optional point, optional
`e`/`E` exponent), returning the exact rational value, or `none` where
`float()` raises `ValueError`.  The tokens the regexes can capture never take
the `inf`/`nan`/underscore forms, and every theorem below confines them to
ASCII digits. -/
def pyFloat (s : List Char) : Option ℚ :=
  let t0 := stripWs s
  let sg : ℚ := match t0 with
    | '-' :: _ => -1
    | _ => 1
  let t1 : List Char := match t0 with
    | '+' :: r => r
    | '-' :: r => r
    | r => r
  let ip := t1.takeWhile pyDigit
  let t2 := t1.dropWhile pyDigit
  let t3 : List Char := match t2 with
    | '.' :: r => r.dropWhile pyDigit
    | r => r
  let fp : List Char := match t2 with
    | '.' :: r => r.takeWhile pyDigit
    | _ => []
  if ip.isEmpty && fp.isEmpty then none
  else
    let mant : ℚ := (digitsVal ip : ℚ) + (digitsVal fp : ℚ) / (10 : ℚ) ^ fp.length
    match t3 with
    | [] => some (sg * mant)
    | e :: r =>
      if e = 'e' ∨ e = 'E' then
        let es : ℤ := match r with
          | '-' :: _ => -1
          | _ => 1
        let r1 : List Char := match r with
          | '+' :: q => q
          | '-' :: q => q
          | q => q
        let ed := r1.takeWhile pyDigit
        if ed.isEmpty || !(r1.dropWhile pyDigit).isEmpty then none
        else some (sg * mant * (10 : ℚ) ^ (es * (digitsVal ed : ℤ)))
      else none

/-- `float()` on a bytes token (Python accepts ASCII byte strings). -/
def pyFloatB (bs : List Nat) : Option ℚ := pyFloat (bs.map Char.ofNat)

/-- One parsed atom entry `(symbol, (x, y, z))`. -/
structure Atom (α : Type) where
  sym : List α
  x : ℚ
  y : ℚ
  z : ℚ
deriving DecidableEq, Repr

/-- The state of a `BlockIterator`: the remaining underlying position-line
matches, the declared atom count, and the running counter `_catom`. -/
structure BlockIterator (α : Type) where
  it : List (PosTok α)
  natoms : Nat
  catom : Nat
deriving DecidableEq, Repr

/-- Outcome of one `__next__` call: normal exhaustion (`StopIteration`), a
count-mismatch `TypeError`, a `float()` `ValueError`, or a yielded atom.  The
successor state is carried along where the Python iterator remains advanced
(on a `TypeError`/`ValueError` the underlying match was already consumed and
`_catom` already incremented before the exception is raised). -/
inductive NextRes (α : Type) where
  | stopIteration
  | typeError (e : PErr) (s : BlockIterator α)
  | valueError (s : BlockIterator α)
  | yielded (a : Atom α) (s : BlockIterator α)
deriving DecidableEq, Repr

/-- `BlockIterator.__next__`, lines 140–167 of the source: on exhaustion
compare `_catom` with `_natoms` (equal: `StopIteration`; fewer: `TypeError`
"smaller"); otherwise consume the match, increment, fail with `TypeError`
"larger" if the counter passed `_natoms` (the entry is not yielded), and only
then parse the three floats. -/
def bnext {α : Type} (pf : List α → Option ℚ) (b : BlockIterator α) :
    NextRes α :=
  match b.it with
  | [] =>
    if b.catom = b.natoms then .stopIteration
    else .typeError (.smaller b.catom b.natoms) b
  | m :: rest =>
    let c := b.catom + 1
    if b.natoms < c then .typeError (.larger c b.natoms) ⟨rest, b.natoms, c⟩
    else
      match pf m.x, pf m.y, pf m.z with
      | some x, some y, some z => .yielded ⟨m.sym, x, y, z⟩ ⟨rest, b.natoms, c⟩
      | _, _, _ => .valueError ⟨rest, b.natoms, c⟩

/-- The iterator state after one `__next__` call (unchanged on
`StopIteration`). -/
def advance {α : Type} (pf : List α → Option ℚ) (b : BlockIterator α) :
    BlockIterator α :=
  match bnext pf b with
  | .stopIteration => b
  | .typeError _ s => s
  | .valueError s => s
  | .yielded _ s => s

/-- Fully consuming the iterator (`list(atomiter)`): stops at the first
exception, which propagates.  Structured over the remaining matches; each
step is exactly one `bnext` outcome (see `drainGo_cons`/`drainGo_nil`). -/
def drainGo {α : Type} (pf : List α → Option ℚ) :
    List (PosTok α) → Nat → Nat → Except PErr (List (Atom α))
  | [], n, c => if c = n then .ok [] else .error (.smaller c n)
  | m :: rest, n, c =>
    if n < c + 1 then .error (.larger (c + 1) n)
    else
      match pf m.x, pf m.y, pf m.z with
      | some x, some y, some z =>
        match drainGo pf rest n (c + 1) with
        | .ok r => .ok (⟨m.sym, x, y, z⟩ :: r)
        | .error e => .error e
      | _, _, _ => .error .valueError

/-- `list(atomiter)` from a given iterator state. -/
def drain {α : Type} (pf : List α → Option ℚ) (b : BlockIterator α) :
    Except PErr (List (Atom α)) :=
  drainGo pf b.it b.natoms b.catom

/-- Pulling exactly `k` entries and then stopping (a consumer that abandons
the iterator early): the error of an unsuccessful pull propagates, entries
pulled so far are kept by the consumer. -/
def pulls {α : Type} (pf : List α → Option ℚ) :
    Nat → BlockIterator α → Except PErr (List (Atom α))
  | 0, _ => .ok []
  | k + 1, b =>
    match bnext pf b with
    | .stopIteration => .ok []
    | .typeError e _ => .error e
    | .valueError _ => .error .valueError
    | .yielded a s =>
      match pulls pf k s with
      | .ok r => .ok (a :: r)
      | .error e => .error e

/-- One fully materialised frame record of the eager `parse`:
`{'natoms': …, 'comment': …, 'atoms': […]}`.  In bytes mode the comment has
been decoded (the source decodes only the comment; atom symbols stay raw). -/
structure Record (α : Type) where
  natoms : Nat
  comment : List Char
  atoms : List (Atom α)
deriving DecidableEq, Repr

/-- The eager wrapper over the frame sequence: for each frame decode the
comment (text mode: identity), then fully consume its atom iterator; the
first exception aborts the whole call. -/
def parseFrames {α : Type} (I : CC → α → Bool)
    (decC : List α → Option (List Char)) (pf : List α → Option ℚ) :
    List (FrameT α) → Except PErr (List (Record α))
  | [] => .ok []
  | fr :: rest =>
    match decC fr.comment with
    | none => .error .decodeError
    | some cm =>
      match drainGo pf (posToksOf I fr.positions) fr.natoms 0 with
      | .error e => .error e
      | .ok atoms =>
        match parseFrames I decC pf rest with
        | .error e => .error e
        | .ok rs => .ok (⟨fr.natoms, cm, atoms⟩ :: rs)

/-- `XYZParser.parse` on a text string. -/
def parse (s : String) : Except PErr (List (Record Char)) :=
  parseFrames charI (fun l => some l) pyFloat (framesOf charI charDval s.data)

/-- UTF-8 encoding of one character. -/
def utf8EncodeChar (c : Char) : List Nat :=
  let n := c.toNat
  if n < 128 then [n]
  else if n < 2048 then [192 + n / 64, 128 + n % 64]
  else if n < 65536 then [224 + n / 4096, 128 + (n / 64) % 64, 128 + n % 64]
  else [240 + n / 262144, 128 + (n / 4096) % 64, 128 + (n / 64) % 64,
        128 + n % 64]

/-- UTF-8 encoding of a string as a byte list. -/
def utf8Encode (l : List Char) : List Nat := (l.map utf8EncodeChar).flatten

/-- Decode one UTF-8 code point from the front of a byte list (strict:
`none` on malformed input), returning the character and the remaining
bytes. -/
def utf8DecodeOne : List Nat → Option (Char × List Nat)
  | [] => none
  | b :: rest =>
    if b < 128 then some (Char.ofNat b, rest)
    else if 194 ≤ b && b ≤ 223 then
      match rest with
      | b2 :: r2 =>
        if 128 ≤ b2 && b2 < 192 then
          some (Char.ofNat ((b - 192) * 64 + (b2 - 128)), r2)
        else none
      | [] => none
    else if 224 ≤ b && b ≤ 239 then
      match rest with
      | b2 :: b3 :: r3 =>
        if 128 ≤ b2 && b2 < 192 && 128 ≤ b3 && b3 < 192 then
          let n := (b - 224) * 4096 + (b2 - 128) * 64 + (b3 - 128)
          if 2048 ≤ n && (n < 55296 || 57343 < n) then some (Char.ofNat n, r3)
          else none
        else none
      | _ => none
    else if 240 ≤ b && b ≤ 244 then
      match rest with
      | b2 :: b3 :: b4 :: r4 =>
        if 128 ≤ b2 && b2 < 192 && 128 ≤ b3 && b3 < 192 && 128 ≤ b4 && b4 < 192
        then
          let n := (b - 240) * 262144 + (b2 - 128) * 4096 + (b3 - 128) * 64
            + (b4 - 128)
          if 65536 ≤ n && n ≤ 1114111 then some (Char.ofNat n, r4)
          else none
        else none
      | _ => none
    else none

/-- Decoding loop; one step per code point, each step consumes at least one
byte, so fuel equal to the byte count never runs out. -/
def utf8DecGo : Nat → List Nat → Option (List Char)
  | _, [] => some []
  | 0, _ :: _ => none
  | fu + 1, b :: rest =>
    match utf8DecodeOne (b :: rest) with
    | none => none
    | some (c, r) => (utf8DecGo fu r).map (c :: ·)

/-- Strict UTF-8 decoding (`bytes.decode('utf8')`), `none` on malformed
input. -/
def utf8Dec (bs : List Nat) : Option (List Char) := utf8DecGo bs.length bs

/-- `XYZParser.parse` on a byte buffer: same grammar compiled over bytes, the
comment decoded from UTF-8 at yield time, atom symbols left as bytes, floats
parsed from ASCII bytes. -/
def parseBytes (bs : List Nat) : Except PErr (List (Record Nat)) :=
  parseFrames byteClass utf8Dec pyFloatB (framesOf byteClass byteDval bs)

/-- Well-parsed tokens: every matched entry's three coordinate captures are
accepted by `float()`. -/
def toksOk {α : Type} (pf : List α → Option ℚ) (ms : List (PosTok α)) : Bool :=
  ms.all fun m => (pf m.x).isSome && (pf m.y).isSome && (pf m.z).isSome

/-- The atom a well-parsed token yields. -/
def atomFromTok {α : Type} (pf : List α → Option ℚ) (m : PosTok α) : Atom α :=
  ⟨m.sym, (pf m.x).getD 0, (pf m.y).getD 0, (pf m.z).getD 0⟩

/-- Input of the concrete scenario of C1. -/
def c1input : String := "3\nframe one\nC 0.0 0.0 0.0\nH 1.0 0.0 0.0\nH 0.0 1.0 0.0\n"

/-- The single record the concrete scenario of C1 must produce. -/
def c1rec : Record Char :=
  ⟨3, "frame one".data, [⟨['C'], 0, 0, 0⟩, ⟨['H'], 1, 0, 0⟩, ⟨['H'], 0, 1, 0⟩]⟩

/-- Failing input of C8. -/
def c8input : String := "1\nc\nC 1.0 2.0 3.0 42\n"

/-- Characters on which the text-mode and bytes-mode character classes agree
(ASCII except U+001C–U+001F, which text-mode `\s` counts as whitespace but
bytes-mode `\s` does not). -/
def safeChar (c : Char) : Bool := c.toNat < 128 && !(28 ≤ c.toNat && c.toNat ≤ 31)

/-- Push the encoding of safe characters through capture lists. -/
def capsMap (cp : Caps Char) : Caps Nat :=
  cp.map fun p => (p.1, p.2.map Char.toNat)

/-- The previous-character slot only ever holds characters satisfying `P`. -/
def pvOk {α : Type} (P : α → Bool) (pv : Option α) : Prop :=
  ∀ c, pv = some c → P c = true

/-- Every recorded capture consists of characters satisfying `P`. -/
def capsOk {α : Type} (P : α → Bool) (cp : Caps α) : Prop :=
  ∀ p ∈ cp, p.2.all P = true

/-- Push the byte encoding through a frame's captures. -/
def frameMapB (fr : FrameT Char) : FrameT Nat :=
  ⟨fr.natoms, fr.comment.map Char.toNat, fr.positions.map Char.toNat⟩

/-- Push the byte encoding through a position-line match. -/
def tokMapB (m : PosTok Char) : PosTok Nat :=
  ⟨m.sym.map Char.toNat, m.x.map Char.toNat, m.y.map Char.toNat,
   m.z.map Char.toNat⟩

/-- The bytes-mode image of a text-mode atom: same coordinates, the symbol as
its UTF-8 bytes (the source decodes only the comment, never the symbol). -/
def atomMapB (a : Atom Char) : Atom Nat := ⟨a.sym.map Char.toNat, a.x, a.y, a.z⟩

/-- The bytes-mode image of a text-mode record: equal `natoms`, the comment as
equal text (bytes mode decodes it), every atom with equal coordinates and the
symbol as its UTF-8 bytes. -/
def recordMapB (r : Record Char) : Record Nat :=
  ⟨r.natoms, r.comment, r.atoms.map atomMapB⟩

/-- `XYZParser.parse` on text content given as a character list
(`parse s = parseContent s.data`). -/
def parseContent (l : List Char) : Except PErr (List (Record Char)) :=
  parseFrames charI (fun m => some m) pyFloat (framesOf charI charDval l)

/-- The C6 counterexample content: a frame whose coordinate line separates the
symbol from the first float with U+00A0 (no-break space). -/
def c6cex : List Char := "1\nt\nC".data ++ [Char.ofNat 160] ++ "1.0 2.0 3.0\n".data

/-- The character preceding the position after consuming `pre` (the original
`pv` when `pre` is empty, else the last character of `pre`). -/
def lastPv {α : Type} (pv : Option α) : List α → Option α
  | [] => pv
  | x :: xs => lastPv (some x) xs

/-- All the ways a greedy single-class star can leave off, in backtracking
order: consume all of `pre` first, on failure retreat one character at a
time, finally consume nothing. -/
def tryFwd {α ρ : Type} (k : Caps α → Option α → List α → Option ρ)
    (cp : Caps α) : Option α → List α → List α → Option ρ
  | pv, [], suf => k cp pv suf
  | pv, x :: xs, suf =>
    (tryFwd k cp (some x) xs suf).orElse (fun _ => k cp pv (x :: (xs ++ suf)))

/-- Nonempty all-digit token. -/
def isDigits (l : List Char) : Bool := !l.isEmpty && l.all fun c => charI .d09 c

/-- Nonempty all-letter token. -/
def isAlphas (l : List Char) : Bool := !l.isEmpty && l.all fun c => charI .alpha c

/-- Spaces and tabs only (possibly empty). -/
def isSpTabs (l : List Char) : Bool := l.all fun c => charI .spTab c

/-- No newline characters. -/
def noNl (l : List Char) : Bool := l.all fun c => !(charI .nlc c)

/-- One line of a positions block in the families quantified over below: a
coordinate line (optional space/tab lead, a symbol, then three tab-separated
decimals `d.e`), a blank line (spaces/tabs only), or a `#` comment line. -/
inductive XLine where
  | coord (lead sym d1 e1 d2 e2 d3 e3 : List Char)
  | blank (ws : List Char)
  | hash (lead txt : List Char)
deriving DecidableEq, Repr

/-- Family constraints on a line. -/
def XLine.ok : XLine → Bool
  | .coord lead sym d1 e1 d2 e2 d3 e3 =>
    isSpTabs lead && isAlphas sym && isDigits d1 && isDigits e1 &&
    isDigits d2 && isDigits e2 && isDigits d3 && isDigits e3
  | .blank ws => isSpTabs ws
  | .hash lead txt => isSpTabs lead && noNl txt

def XLine.isBlank : XLine → Bool
  | .blank _ => true
  | _ => false

def XLine.isCoord : XLine → Bool
  | .coord _ _ _ _ _ _ _ _ => true
  | _ => false

/-- The text of one line (newline-terminated). -/
def XLine.render : XLine → List Char
  | .coord lead sym d1 e1 d2 e2 d3 e3 =>
    lead ++ sym ++ '\t' :: (d1 ++ '.' :: (e1 ++ '\t' :: (d2 ++ '.' ::
      (e2 ++ '\t' :: (d3 ++ '.' :: (e3 ++ ['\n']))))))
  | .blank ws => ws ++ ['\n']
  | .hash lead txt => lead ++ '#' :: (txt ++ ['\n'])

/-- The text of a positions block. -/
def renderLines (ls : List XLine) : List Char := (ls.map XLine.render).flatten

/-- The position-line match a coordinate line produces (and blank/comment
lines produce none). -/
def XLine.tok : XLine → Option (PosTok Char)
  | .coord _ sym d1 e1 d2 e2 d3 e3 =>
    some ⟨sym, d1 ++ '.' :: e1, d2 ++ '.' :: e2, d3 ++ '.' :: e3⟩
  | _ => none

/-- The position-line matches of a block, in order. -/
def toksOfLines (ls : List XLine) : List (PosTok Char) := ls.filterMap XLine.tok

/-- The first alternative of a positions-block line:
`\s* ( [A-Za-z]+[A-Za-z0-9]* (float){3} | \# ) .*`. -/
def posLineA : RE :=
  .seq (.star (.cls .ws))
    (.seq (.alt (.seq symRE (rep3 frameFloat)) (.cls .hashC))
      (.star (.cls .dotAny)))

/-- The text of a coordinate line after its leading whitespace, without the
final newline. -/
def coordContent (sym d1 e1 d2 e2 d3 e3 : List Char) : List Char :=
  sym ++ '\t' :: (d1 ++ '.' :: (e1 ++ '\t' :: (d2 ++ '.' ::
    (e2 ++ '\t' :: (d3 ++ '.' :: e3)))))

/-- No iteration of the positions-line pattern can start at this input. -/
def PosLineBlocked (rest : List Char) : Prop :=
  ∀ (ρ : Type) (cp : Caps Char) (pv : Option Char)
    (k : Caps Char → Option Char → List Char → Option ρ),
    mre charI posLineRE cp pv rest k = none

/-- What may follow a rendered positions block in the families below: the end
of the input, or the digit-led count line of the next frame. -/
def RestDigit (rest : List Char) : Prop :=
  rest = [] ∨ ∃ dh dt, rest = dh :: dt ∧ charI .d09 dh = true

/-- What must hold of the text right after a positions block so that the
block's `(…)+` loop stops there: no further line iteration can start
(`PosLineBlocked`), the first character is not whitespace, and the non-blank
line alternative followed by its closing `[\n]` fails even with a preceding
whitespace run. -/
def RestBlocked (rest : List Char) : Prop :=
  PosLineBlocked rest ∧
  (match rest with | [] => True | c :: _ => charI .ws c = false) ∧
  ∀ (ρ : Type) (run : List Char), (∀ c ∈ run, charI .ws c = true) →
    ∀ (cp : Caps Char) (pv : Option Char)
      (k : Caps Char → Option Char → List Char → Option ρ),
      mre charI posLineA cp pv (run ++ rest)
        (fun cp2 pv2 l2 => mre charI (.cls .nlc) cp2 pv2 l2 k) = none

/-- Every line of a block satisfies its family constraints. -/
def linesOk (ls : List XLine) : Bool := ls.all XLine.ok

/-- The captures a coordinate line leaves in the position pattern, most
recent group first. -/
def coordCaps (sym d1 e1 d2 e2 d3 e3 : List Char) : Caps Char :=
  [(3, d3 ++ '.' :: e3), (2, d2 ++ '.' :: e2), (1, d1 ++ '.' :: e1), (0, sym)]

/-- The captures each line leaves in the position scan. -/
def XLine.caps : XLine → Option (Caps Char)
  | .coord _ sym d1 e1 d2 e2 d3 e3 => some (coordCaps sym d1 e1 d2 e2 d3 e3)
  | _ => none

def capsOfLines (ls : List XLine) : List (Caps Char) :=
  ls.filterMap XLine.caps

/-- A frame of the family: a digit count line, a newline-free comment line
and a block of lines. -/
structure XFrame where
  nat : List Char
  com : List Char
  lines : List XLine
deriving DecidableEq, Repr

/-- Family constraints on a frame: the count line is a nonempty digit string,
the comment contains no newline, every block line is well formed and the
block is nonempty. -/
def XFrame.ok (f : XFrame) : Bool :=
  isDigits f.nat && noNl f.com && linesOk f.lines && !f.lines.isEmpty

/-- The text of one frame. -/
def XFrame.render (f : XFrame) : List Char :=
  f.nat ++ '\n' :: (f.com ++ '\n' :: renderLines f.lines)

/-- The frame-match captures a frame of the family produces. -/
def XFrame.caps (f : XFrame) : Caps Char :=
  [(2, renderLines f.lines), (1, f.com), (0, f.nat)]

/-- The extracted `FrameT` of a frame of the family. -/
def XFrame.frameT (f : XFrame) : FrameT Char :=
  ⟨digitsToNat charDval f.nat, f.com, renderLines f.lines⟩

/-- A document item: either a junk line (digits directly followed by
letters, matching nothing) or a frame. -/
inductive XItem where
  | junk (dg al : List Char)
  | frame (f : XFrame)
deriving DecidableEq, Repr

def XItem.ok : XItem → Bool
  | .junk dg al => isDigits dg && isAlphas al
  | .frame f => f.ok

def XItem.render : XItem → List Char
  | .junk dg al => dg ++ (al ++ ['\n'])
  | .frame f => f.render

def renderItems (is : List XItem) : List Char := (is.map XItem.render).flatten

def itemsOk (is : List XItem) : Bool := is.all XItem.ok

/-- The frames among the items, in order. -/
def itemsFrames (is : List XItem) : List XFrame :=
  is.filterMap fun i => match i with | .frame f => some f | _ => none

/-- The record the eager parse produces for one frame of the family. -/
def XFrame.record (f : XFrame) : Record Char :=
  ⟨digitsToNat charDval f.nat, f.com,
   (toksOfLines f.lines).map (atomFromTok pyFloat)⟩

/-- A document that is a plain sequence of frames. -/
def renderFrames (fs : List XFrame) : List Char :=
  renderItems (fs.map XItem.frame)

/-- The concrete C9 witness family: one frame declaring 2 atoms whose block
interleaves a blank line, a `#` comment line and a trailing blank line with
its two coordinate lines. -/
def c9fs : List XFrame := [⟨['2'], ['t'],
  [.blank [' '], .coord [] ['C'] ['1'] ['5'] ['2'] ['0'] ['3'] ['0'],
   .hash [] [' ', 'x'], .coord [' '] ['H'] ['1'] ['0'] ['1'] ['0'] ['1'] ['0'],
   .blank []]⟩]

/-- The concrete C7 witness document: a junk line, a one-atom frame, and a
trailing junk line. -/
def c7is : List XItem := [.junk ['1', '2'] ['x', 'y'],
  .frame ⟨['1'], ['c'], [.coord [] ['C'] ['1'] ['0'] ['2'] ['0'] ['3'] ['0']]⟩,
  .junk ['3'] ['z']]

/-- The concrete C10 witness: one complete frame followed by a frame whose
last coordinate line is unterminated. -/
def c10fs : List XFrame :=
  [⟨['1'], ['a'], [.coord [] ['C'] ['1'] ['0'] ['2'] ['0'] ['3'] ['0']]⟩]

theorem drainGo_too_few {α : Type} (pf : List α → Option ℚ)
    (ms : List (PosTok α)) (n c : Nat) (hok : toksOk pf ms = true)
    (hlt : c + ms.length < n) :
    drainGo pf ms n c = .error (.smaller (c + ms.length) n) := by
  induction ms generalizing c with
  | nil =>
    have hne : c ≠ n := by simpa using Nat.ne_of_lt hlt
    simp [drainGo, hne]
  | cons m rest ih =>
    simp only [toksOk, List.all_cons, Bool.and_eq_true] at hok
    obtain ⟨⟨⟨hx, hy⟩, hz⟩, hrest⟩ := hok
    obtain ⟨x, hx⟩ := Option.isSome_iff_exists.mp hx
    obtain ⟨y, hy⟩ := Option.isSome_iff_exists.mp hy
    obtain ⟨z, hz⟩ := Option.isSome_iff_exists.mp hz
    have hnlt : ¬ n < c + 1 := by simp at hlt ⊢; omega
    have := ih (c := c + 1) hrest (by simp at hlt ⊢; omega)
    simp [drainGo, hnlt, hx, hy, hz, this]
    omega

theorem drainGo_ok_length {α : Type} (pf : List α → Option ℚ)
    (ms : List (PosTok α)) (n c : Nat) (l : List (Atom α))
    (h : drainGo pf ms n c = .ok l) : c + l.length = n := by
  induction ms generalizing c l with
  | nil =>
    by_cases hc : c = n
    · simp [drainGo, hc] at h
      subst hc
      simp [← h]
    · simp [drainGo, hc] at h
  | cons m rest ih =>
    by_cases hn : n < c + 1
    · simp [drainGo, hn] at h
    · simp only [drainGo, if_neg hn] at h
      cases hx : pf m.x with
      | none => simp [hx] at h
      | some x =>
        cases hy : pf m.y with
        | none => simp [hx, hy] at h
        | some y =>
          cases hz : pf m.z with
          | none => simp [hx, hy, hz] at h
          | some z =>
            simp only [hx, hy, hz] at h
            cases hrec : drainGo pf rest n (c + 1) with
            | error e => simp [hrec] at h
            | ok r =>
              simp only [hrec] at h
              cases h
              have := ih (c := c + 1) (l := r) hrec
              simp
              omega

theorem advance_iterate {α : Type} (pf : List α → Option ℚ) (k : Nat) :
    ∀ (ms : List (PosTok α)) (n c : Nat), c + k ≤ n → k ≤ ms.length →
    (advance pf)^[k] ⟨ms, n, c⟩ = ⟨ms.drop k, n, c + k⟩ := by
  induction k with
  | zero => intro ms n c _ _; simp
  | succ k ih =>
    intro ms n c hn hk
    cases ms with
    | nil => simp at hk
    | cons m rest =>
      have hstep : advance pf ⟨m :: rest, n, c⟩ = ⟨rest, n, c + 1⟩ := by
        have hnlt : ¬ n < c + 1 := by omega
        unfold advance bnext
        simp only [hnlt, if_false]
        cases hx : pf m.x <;> cases hy : pf m.y <;> cases hz : pf m.z <;> simp
      rw [Function.iterate_succ_apply, hstep,
        ih rest n (c + 1) (by omega) (by simpa using hk)]
      simp
      omega

theorem pulls_ok {α : Type} (pf : List α → Option ℚ) (k : Nat) :
    ∀ (ms : List (PosTok α)) (n c : Nat), toksOk pf ms = true →
    k ≤ ms.length → c + k ≤ n →
    pulls pf k ⟨ms, n, c⟩ = .ok ((ms.take k).map (atomFromTok pf)) := by
  induction k with
  | zero => intro ms n c _ _ _; simp [pulls]
  | succ k ih =>
    intro ms n c hok hk hn
    cases ms with
    | nil => simp at hk
    | cons m rest =>
      simp only [toksOk, List.all_cons, Bool.and_eq_true] at hok
      obtain ⟨⟨⟨hx, hy⟩, hz⟩, hrest⟩ := hok
      obtain ⟨x, hx⟩ := Option.isSome_iff_exists.mp hx
      obtain ⟨y, hy⟩ := Option.isSome_iff_exists.mp hy
      obtain ⟨z, hz⟩ := Option.isSome_iff_exists.mp hz
      have hnlt : ¬ n < c + 1 := by omega
      have hnext : bnext pf ⟨m :: rest, n, c⟩ =
          .yielded ⟨m.sym, x, y, z⟩ ⟨rest, n, c + 1⟩ := by
        unfold bnext
        simp [hnlt, hx, hy, hz]
      have := ih rest n (c + 1) hrest (by simpa using hk) (by omega)
      simp [pulls, hnext, this, atomFromTok, hx, hy, hz]

theorem parseFrames_ok_shape {α : Type} (I : CC → α → Bool)
    (decC : List α → Option (List Char)) (pf : List α → Option ℚ)
    (fs : List (FrameT α)) (rs : List (Record α))
    (h : parseFrames I decC pf fs = .ok rs) :
    rs.length = fs.length ∧
    (∀ i (h1 : i < rs.length) (h2 : i < fs.length),
      (rs.get ⟨i, h1⟩).natoms = (fs.get ⟨i, h2⟩).natoms ∧
      decC (fs.get ⟨i, h2⟩).comment = some (rs.get ⟨i, h1⟩).comment) ∧
    (∀ r ∈ rs, r.atoms.length = r.natoms) := by
  induction fs generalizing rs with
  | nil =>
    simp only [parseFrames] at h
    cases h
    refine ⟨rfl, ?_, ?_⟩ <;> simp
  | cons fr rest ih =>
    simp only [parseFrames] at h
    cases hd : decC fr.comment with
    | none => simp [hd] at h
    | some cm =>
      simp only [hd] at h
      cases hdr : drainGo pf (posToksOf I fr.positions) fr.natoms 0 with
      | error e => simp [hdr] at h
      | ok atoms =>
        simp only [hdr] at h
        cases hrec : parseFrames I decC pf rest with
        | error e => simp [hrec] at h
        | ok rs2 =>
          simp only [hrec] at h
          cases h
          obtain ⟨hlen, hcorr, hatoms⟩ := ih rs2 hrec
          refine ⟨by simp [hlen], ?_, ?_⟩
          · intro i h1 h2
            cases i with
            | zero => simpa using hd
            | succ j =>
              have := hcorr j (by simpa using h1) (by simpa using h2)
              simpa using this
          · intro r hr
            rcases List.mem_cons.mp hr with hr | hr
            · subst hr
              simpa using drainGo_ok_length pf _ _ _ _ hdr
            · exact hatoms r hr

theorem parseFrames_aborts {α : Type} (I : CC → α → Bool)
    (decC : List α → Option (List Char)) (pf : List α → Option ℚ)
    (fs1 : List (FrameT α)) (f : FrameT α) (fs2 : List (FrameT α))
    (rs1 : List (Record α)) (cm : List Char) (e : PErr)
    (h1 : parseFrames I decC pf fs1 = .ok rs1)
    (h2 : decC f.comment = some cm)
    (h3 : drainGo pf (posToksOf I f.positions) f.natoms 0 = .error e) :
    parseFrames I decC pf (fs1 ++ f :: fs2) = .error e := by
  induction fs1 generalizing rs1 with
  | nil => simp [parseFrames, h2, h3]
  | cons fr rest ih =>
    simp only [parseFrames] at h1 ⊢
    cases hd : decC fr.comment with
    | none => simp [hd] at h1
    | some cm2 =>
      simp only [hd] at h1
      cases hdr : drainGo pf (posToksOf I fr.positions) fr.natoms 0 with
      | error e2 => simp [hdr] at h1
      | ok atoms =>
        simp only [hdr] at h1
        cases hrec : parseFrames I decC pf rest with
        | error e2 => simp [hrec] at h1
        | ok rs2 => simp [ih rs2 hrec]

/-- C1: for every input the eager `parse` accepts, the result has exactly one
record per frame match, in document order (pointwise equal `natoms` and
comment), and every record's `atoms` list has exactly `natoms` entries. -/
theorem c1_one_record_per_frame (s : String) (rs : List (Record Char))
    (h : parse s = .ok rs) :
    rs.length = (framesOf charI charDval s.data).length ∧
    (∀ i (h1 : i < rs.length)
      (h2 : i < (framesOf charI charDval s.data).length),
      (rs.get ⟨i, h1⟩).natoms =
        ((framesOf charI charDval s.data).get ⟨i, h2⟩).natoms ∧
      (rs.get ⟨i, h1⟩).comment =
        ((framesOf charI charDval s.data).get ⟨i, h2⟩).comment) ∧
    (∀ r ∈ rs, r.atoms.length = r.natoms) := by
  obtain ⟨hlen, hcorr, hatoms⟩ :=
    parseFrames_ok_shape charI (fun l => some l) pyFloat _ rs h
  refine ⟨hlen, ?_, hatoms⟩
  intro i h1 h2
  obtain ⟨hn, hc⟩ := hcorr i h1 h2
  exact ⟨hn, by simpa using hc.symm⟩

/-- C1 witness: the concrete three-atom input parses to exactly the record
`natoms = 3`, comment "frame one", atoms C(0,0,0), H(1,0,0), H(0,1,0), and
the general theorem applies to it. -/
theorem c1_one_record_per_frame_witness :
    parse c1input = .ok [c1rec] ∧
    [c1rec].length = (framesOf charI charDval c1input.data).length ∧
    c1rec.atoms.length = c1rec.natoms := by
  have hp : parse c1input = .ok [c1rec] := by with_unfolding_all rfl
  refine ⟨hp, (c1_one_record_per_frame c1input [c1rec] hp).1, ?_⟩
  exact (c1_one_record_per_frame c1input [c1rec] hp).2.2 c1rec (by simp)

/-- C2 counterexample: the claim fails as stated.  The frame
`"2\nbad\nC |1.0 2.0 3.0\n"` declares 2 atoms and its positions block has
exactly one position-line match (the class `[\-|\+]?` of the source accepts a
literal pipe as a sign, so the line matches with `x = "|1.0"`); fully
consuming the atoms sequence raises `float()`'s `ValueError` — not a
count-mismatch error. -/
theorem c2_cex_value_error_preempts :
    parse "2\nbad\nC |1.0 2.0 3.0\n" = .error .valueError ∧
    (posToksOf charI
      ((framesOf charI charDval "2\nbad\nC |1.0 2.0 3.0\n".data).headD
        ⟨0, [], []⟩).positions).length = 1 ∧
    PErr.valueError ≠ PErr.smaller 1 2 := by
  refine ⟨?_, ?_, by decide⟩ <;> with_unfolding_all rfl

/-- C2 (amended): for a frame whose positions block has `m < n` position-line
matches all of whose coordinate tokens are accepted by `float()`, fully
consuming the atoms sequence raises the count mismatch naming the `m` entries
found and the `n` atoms declared. -/
theorem c2_too_few_mismatch (block : List Char) (n m : Nat)
    (hm : (posToksOf charI block).length = m)
    (hok : toksOk pyFloat (posToksOf charI block) = true)
    (hlt : m < n) :
    drain pyFloat ⟨posToksOf charI block, n, 0⟩ = .error (.smaller m n) := by
  subst hm
  simpa [drain] using
    drainGo_too_few pyFloat (posToksOf charI block) n 0 hok (by omega)

/-- C2 witness: the concrete scenario — the frame of `"2\nbad\nC 0.0 0.0 0.0\n"`
(whose positions capture is exactly its one coordinate line) declares 2 and
supplies 1; consuming raises the mismatch naming 1 found and 2 declared, via
the theorem with every hypothesis discharged by evaluation. -/
theorem c2_too_few_mismatch_witness :
    framesOf charI charDval "2\nbad\nC 0.0 0.0 0.0\n".data =
      [⟨2, "bad".data, "C 0.0 0.0 0.0\n".data⟩] ∧
    drain pyFloat ⟨posToksOf charI "C 0.0 0.0 0.0\n".data, 2, 0⟩ =
      .error (.smaller 1 2) ∧
    parse "2\nbad\nC 0.0 0.0 0.0\n" = .error (.smaller 1 2) := by
  refine ⟨by with_unfolding_all rfl,
    c2_too_few_mismatch "C 0.0 0.0 0.0\n".data 2 1
      (by with_unfolding_all rfl) (by with_unfolding_all rfl) (by decide),
    by with_unfolding_all rfl⟩

/-- C3: for a block with more than `n` position-line matches, after `n` calls
to `__next__` the iterator stands at `⟨drop n, n, n⟩`, and the `(n+1)`-th call
returns the "larger" count mismatch naming `n+1` found and `n` declared — not
a yielded entry (the consumed match is dropped, the counter advanced). -/
theorem c3_too_many_mismatch {α : Type} (pf : List α → Option ℚ)
    (ms : List (PosTok α)) (n : Nat) (h : n < ms.length) :
    (advance pf)^[n] ⟨ms, n, 0⟩ = ⟨ms.drop n, n, n⟩ ∧
    bnext pf ⟨ms.drop n, n, n⟩ =
      .typeError (.larger (n + 1) n) ⟨ms.drop (n + 1), n, n + 1⟩ := by
  refine ⟨by simpa using advance_iterate pf n ms n 0 (by omega) (le_of_lt h), ?_⟩
  rw [List.drop_eq_getElem_cons h]
  unfold bnext
  simp

/-- C3 witness: a frame declaring 1 atom over a two-line block — the second
call to `__next__` raises the "larger" mismatch naming 2 found, 1 declared,
and yields nothing. -/
theorem c3_too_many_mismatch_witness :
    1 < (posToksOf charI "H 1.0 1.0 1.0\nO 2.0 2.0 2.0\n".data).length ∧
    bnext pyFloat
      ⟨(posToksOf charI "H 1.0 1.0 1.0\nO 2.0 2.0 2.0\n".data).drop 1, 1, 1⟩ =
      .typeError (.larger 2 1)
        ⟨(posToksOf charI "H 1.0 1.0 1.0\nO 2.0 2.0 2.0\n".data).drop 2, 1, 2⟩ := by
  have hl : (posToksOf charI "H 1.0 1.0 1.0\nO 2.0 2.0 2.0\n".data).length = 2 := by
    with_unfolding_all rfl
  have h1 : 1 < (posToksOf charI "H 1.0 1.0 1.0\nO 2.0 2.0 2.0\n".data).length := by
    omega
  exact ⟨h1,
    (c3_too_many_mismatch pyFloat
      (posToksOf charI "H 1.0 1.0 1.0\nO 2.0 2.0 2.0\n".data) 1 h1).2⟩

/-- C4 counterexample: the claim fails as stated.  The frame
`"5\nc\nC 0.0 0.0 0.0\n"` declares 5 atoms over one entry; pulling only
2 < 5 = natoms entries and stopping already raises the "smaller" count
mismatch (it is detected as soon as the underlying matches are exhausted, on
pull `found + 1`, not only after `natoms` pulls). -/
theorem c4_cex_early_detection :
    (2 : Nat) < 5 ∧
    pulls pyFloat 2
      ⟨posToksOf charI ((framesOf charI charDval "5\nc\nC 0.0 0.0 0.0\n".data).headD
        ⟨0, [], []⟩).positions, 5, 0⟩ = .error (.smaller 1 5) := by
  exact ⟨by decide, by with_unfolding_all rfl⟩

/-- C4 (amended): count-mismatch validation is lazy per pulled element — for
a frame whose positions block disagrees with its declared count and whose
matched coordinate tokens all parse, pulling at most
`min (entries found) natoms` entries (strictly fewer than the pull that
detects the discrepancy) and stopping raises no error; the entries pulled are
simply yielded. -/
theorem c4_lazy_validation {α : Type} (pf : List α → Option ℚ)
    (ms : List (PosTok α)) (n k : Nat) (_hmis : ms.length ≠ n)
    (hok : toksOk pf ms = true) (hk : k ≤ ms.length) (hn : k ≤ n) :
    pulls pf k ⟨ms, n, 0⟩ = .ok ((ms.take k).map (atomFromTok pf)) :=
  pulls_ok pf k ms n 0 hok hk (by omega)

/-- C4 witness: the mismatched frame of `"5\nc\nC 0.0 0.0 0.0\n"` (1 entry,
5 declared): pulling 1 entry and stopping yields it without error. -/
theorem c4_lazy_validation_witness :
    pulls pyFloat 1
      ⟨posToksOf charI "C 0.0 0.0 0.0\n".data, 5, 0⟩ =
      .ok [⟨['C'], 0, 0, 0⟩] := by
  have hl : (posToksOf charI "C 0.0 0.0 0.0\n".data).length = 1 := by
    with_unfolding_all rfl
  have h := c4_lazy_validation pyFloat
    (posToksOf charI "C 0.0 0.0 0.0\n".data) 5 1
    (by omega) (by with_unfolding_all rfl) (by omega) (by decide)
  refine h.trans ?_
  with_unfolding_all rfl

/-- C5: when every frame before some frame `f` drains cleanly and `f`'s atom
count check fails with error `e`, the eager parse returns exactly
`.error e` — the failure propagates and no partial list of the earlier
records is returned. -/
theorem c5_error_propagates_no_partial_result (s : String) (fs1 : List (FrameT Char))
    (f : FrameT Char) (fs2 : List (FrameT Char)) (rs1 : List (Record Char))
    (e : PErr)
    (hsplit : framesOf charI charDval s.data = fs1 ++ f :: fs2)
    (h1 : parseFrames charI (fun l => some l) pyFloat fs1 = .ok rs1)
    (h3 : drainGo pyFloat (posToksOf charI f.positions) f.natoms 0 = .error e) :
    parse s = .error e := by
  unfold parse
  rw [hsplit]
  exact parseFrames_aborts charI (fun l => some l) pyFloat fs1 f fs2 rs1
    f.comment e h1 rfl h3

/-- C5 witness: a good 1-atom frame followed by a mismatched frame — the
whole call returns the mismatch error, not the list containing the first
frame's record. -/
theorem c5_error_propagates_no_partial_witness :
    parse "1\na\nC 0.0 0.0 0.0\n2\nb\nH 1.0 1.0 1.0\n" =
      .error (.smaller 1 2) ∧
    (Except.error (.smaller 1 2) :
      Except PErr (List (Record Char))) ≠ .ok [⟨1, ['a'], [⟨['C'], 0, 0, 0⟩]⟩] := by
  refine ⟨c5_error_propagates_no_partial_result
    "1\na\nC 0.0 0.0 0.0\n2\nb\nH 1.0 1.0 1.0\n"
    [⟨1, "a".data, "C 0.0 0.0 0.0\n".data⟩]
    ⟨2, "b".data, "H 1.0 1.0 1.0\n".data⟩ [] [⟨1, ['a'], [⟨['C'], 0, 0, 0⟩]⟩]
    (.smaller 1 2) (by with_unfolding_all rfl) (by with_unfolding_all rfl)
    (by with_unfolding_all rfl), fun h => Except.noConfusion h⟩

/-- C8 (code bug): the spec says trailing content after the third float of a
position line is ignored, and the source's own comment documents the
exponent as "optional exponents E+03, e-05"; but in VERBOSE mode the class
`[E | e]` also contains the space, so on `"C 1.0 2.0 3.0 42"` the z capture
greedily swallows `" 42"` as a bogus exponent, `float("3.0 42")` raises
`ValueError`, and the parse fails instead of yielding C(1,2,3). -/
theorem c8_trailing_content_not_ignored :
    (posToksOf charI
      ((framesOf charI charDval c8input.data).headD ⟨0, [], []⟩).positions).map
        (fun m => m.z) = ["3.0 42".data] ∧
    parse c8input = .error .valueError := by
  constructor <;> with_unfolding_all rfl

theorem class_agree (cc : CC) (c : Char) (h : safeChar c = true) :
    byteClass cc c.toNat = charClass cc c.toNat := by
  simp only [safeChar, Bool.and_eq_true, Bool.not_eq_true', Bool.and_eq_false_iff,
    decide_eq_true_eq, decide_eq_false_iff_not, not_le] at h
  cases cc <;> simp only [byteClass, charClass]
  all_goals
    (apply Bool.eq_iff_iff.mpr;
     simp only [Bool.or_eq_true, Bool.and_eq_true, decide_eq_true_eq,
       beq_iff_eq];
     omega)

theorem optMap_orElse {ρ1 ρ2 : Type} (G : ρ1 → ρ2) (x : Option ρ1)
    (y : Unit → Option ρ1) :
    Option.map G (x.orElse y) = (Option.map G x).orElse
      (fun u => Option.map G (y u)) := by
  cases x <;> rfl

theorem capsGet_capsMap (cp : Caps Char) (i : Nat) :
    capsGet (capsMap cp) i = (capsGet cp i).map (List.map Char.toNat) := by
  induction cp with
  | nil => rfl
  | cons p rest ih =>
    by_cases h : p.1 = i
    · simp [capsMap, capsGet, h]
    · simp only [capsMap, capsGet, List.map_cons, h, if_false]
      simpa [capsMap] using ih

theorem starLoop_map {ρ1 ρ2 : Type} (G : ρ1 → ρ2)
    (step1 : Caps Char → Option Char → List Char →
      (Caps Char → Option Char → List Char → Option ρ1) → Option ρ1)
    (step2 : Caps Nat → Option Nat → List Nat →
      (Caps Nat → Option Nat → List Nat → Option ρ2) → Option ρ2)
    (hstep : ∀ cp pv l k1 k2, l.all safeChar = true →
      (∀ c, pv = some c → safeChar c = true) →
      (∀ cp2 pv2 l2, l2.all safeChar = true →
        (∀ c, pv2 = some c → safeChar c = true) →
        k2 (capsMap cp2) (pv2.map Char.toNat) (l2.map Char.toNat) =
          (k1 cp2 pv2 l2).map G) →
      step2 (capsMap cp) (pv.map Char.toNat) (l.map Char.toNat) k2 =
        (step1 cp pv l k1).map G) (n : Nat) :
    ∀ (cp : Caps Char) (pv : Option Char) (l : List Char)
      (k1 : Caps Char → Option Char → List Char → Option ρ1)
      (k2 : Caps Nat → Option Nat → List Nat → Option ρ2),
      l.all safeChar = true → (∀ c, pv = some c → safeChar c = true) →
      (∀ cp2 pv2 l2, l2.all safeChar = true →
        (∀ c, pv2 = some c → safeChar c = true) →
        k2 (capsMap cp2) (pv2.map Char.toNat) (l2.map Char.toNat) =
          (k1 cp2 pv2 l2).map G) →
      starLoop step2 n (capsMap cp) (pv.map Char.toNat) (l.map Char.toNat) k2 =
        (starLoop step1 n cp pv l k1).map G := by
  induction n with
  | zero =>
    intro cp pv l k1 k2 hl hpv hk
    simp only [starLoop]
    rw [optMap_orElse]
    congr 1
    · exact hstep cp pv l _ _ hl hpv (fun cp2 pv2 l2 _ _ => rfl)
    · funext u
      exact hk cp pv l hl hpv
  | succ n ih =>
    intro cp pv l k1 k2 hl hpv hk
    simp only [starLoop]
    rw [optMap_orElse]
    congr 1
    · refine hstep cp pv l _ _ hl hpv ?_
      intro cp2 pv2 l2 hl2 hpv2
      simp only [List.length_map]
      by_cases hlen : l2.length < l.length
      · simp only [hlen, if_true]
        exact ih cp2 pv2 l2 k1 k2 hl2 hpv2 hk
      · simp [hlen]
    · funext u
      exact hk cp pv l hl hpv

theorem mre_map {ρ1 ρ2 : Type} (G : ρ1 → ρ2) (re : RE) :
    ∀ (cp : Caps Char) (pv : Option Char) (l : List Char)
      (k1 : Caps Char → Option Char → List Char → Option ρ1)
      (k2 : Caps Nat → Option Nat → List Nat → Option ρ2),
      l.all safeChar = true → (∀ c, pv = some c → safeChar c = true) →
      (∀ cp2 pv2 l2, l2.all safeChar = true →
        (∀ c, pv2 = some c → safeChar c = true) →
        k2 (capsMap cp2) (pv2.map Char.toNat) (l2.map Char.toNat) =
          (k1 cp2 pv2 l2).map G) →
      mre byteClass re (capsMap cp) (pv.map Char.toNat) (l.map Char.toNat) k2 =
        (mre charI re cp pv l k1).map G := by
  induction re with
  | cls c =>
    intro cp pv l k1 k2 hl hpv hk
    cases l with
    | nil => rfl
    | cons x xs =>
      simp only [List.all_cons, Bool.and_eq_true] at hl
      simp only [mre, List.map_cons]
      rw [class_agree c x hl.1, charI]
      by_cases hc : charClass c x.toNat = true
      · simp only [hc, if_true]
        exact hk cp (some x) xs hl.2 (fun c2 h => by cases h; exact hl.1)
      · simp only [Bool.not_eq_true] at hc
        simp [hc]
  | seq a b iha ihb =>
    intro cp pv l k1 k2 hl hpv hk
    simp only [mre]
    exact iha cp pv l _ _ hl hpv
      (fun cp2 pv2 l2 hl2 hpv2 => ihb cp2 pv2 l2 _ _ hl2 hpv2 hk)
  | alt a b iha ihb =>
    intro cp pv l k1 k2 hl hpv hk
    simp only [mre]
    rw [optMap_orElse, iha cp pv l k1 k2 hl hpv hk]
    congr 1
    funext u
    exact ihb cp pv l k1 k2 hl hpv hk
  | opt a iha =>
    intro cp pv l k1 k2 hl hpv hk
    simp only [mre]
    rw [optMap_orElse, iha cp pv l k1 k2 hl hpv hk]
    congr 1
    funext u
    exact hk cp pv l hl hpv
  | star a iha =>
    intro cp pv l k1 k2 hl hpv hk
    simp only [mre, List.length_map]
    exact starLoop_map G _ _
      (fun cp2 pv2 l2 k1a k2a hl2 hpv2 hka => iha cp2 pv2 l2 k1a k2a hl2 hpv2 hka)
      l.length cp pv l k1 k2 hl hpv hk
  | bol =>
    intro cp pv l k1 k2 hl hpv hk
    cases pv with
    | none => simpa [mre] using hk cp none l hl (by simp)
    | some c =>
      have hs : safeChar c = true := hpv c rfl
      have hm : Option.map Char.toNat (some c) = some c.toNat := rfl
      simp only [mre, hm]
      rw [show byteClass CC.nlc c.toNat = charI CC.nlc c from class_agree _ c hs]
      by_cases hnl : charI CC.nlc c = true
      · simp only [hnl, if_true]
        exact hk cp (some c) l hl hpv
      · simp only [Bool.not_eq_true] at hnl
        simp [hnl]
  | grp i a iha =>
    intro cp pv l k1 k2 hl hpv hk
    simp only [mre]
    refine iha cp pv l _ _ hl hpv ?_
    intro cp2 pv2 l2 hl2 hpv2
    have htake : (l.map Char.toNat).take ((l.map Char.toNat).length -
        (l2.map Char.toNat).length) =
        (l.take (l.length - l2.length)).map Char.toNat := by
      simp [List.map_take]
    rw [htake]
    exact hk ((i, l.take (l.length - l2.length)) :: cp2) pv2 l2 hl2 hpv2

theorem orElse_eq_some {ρ : Type} (x : Option ρ) (y : Unit → Option ρ) (r : ρ)
    (h : x.orElse y = some r) : x = some r ∨ (x = none ∧ y () = some r) := by
  cases x with
  | none => exact Or.inr ⟨rfl, h⟩
  | some v => exact Or.inl h

theorem starLoop_safe {α ρ : Type} (P : α → Bool) (W : ρ → Prop)
    (step : Caps α → Option α → List α →
      (Caps α → Option α → List α → Option ρ) → Option ρ)
    (hstep : ∀ cp pv l k r, l.all P = true → pvOk P pv → capsOk P cp →
      (∀ cp2 pv2 l2 r2, l2.all P = true → pvOk P pv2 → capsOk P cp2 →
        k cp2 pv2 l2 = some r2 → W r2) →
      step cp pv l k = some r → W r) (n : Nat) :
    ∀ cp pv l k r, l.all P = true → pvOk P pv → capsOk P cp →
      (∀ cp2 pv2 l2 r2, l2.all P = true → pvOk P pv2 → capsOk P cp2 →
        k cp2 pv2 l2 = some r2 → W r2) →
      starLoop step n cp pv l k = some r → W r := by
  induction n with
  | zero =>
    intro cp pv l k r hl hpv hcp hk h
    rcases orElse_eq_some _ _ _ h with h1 | ⟨_, h2⟩
    · exact hstep cp pv l _ r hl hpv hcp (fun _ _ _ _ _ _ _ hr => by cases hr) h1
    · exact hk cp pv l r hl hpv hcp h2
  | succ n ih =>
    intro cp pv l k r hl hpv hcp hk h
    rcases orElse_eq_some _ _ _ h with h1 | ⟨_, h2⟩
    · refine hstep cp pv l _ r hl hpv hcp ?_ h1
      intro cp2 pv2 l2 r2 hl2 hpv2 hcp2 hr
      by_cases hlen : l2.length < l.length
      · simp only [hlen, if_true] at hr
        exact ih cp2 pv2 l2 k r2 hl2 hpv2 hcp2 hk hr
      · simp [hlen] at hr
    · exact hk cp pv l r hl hpv hcp h2

theorem mre_safe {α ρ : Type} (I : CC → α → Bool) (P : α → Bool) (W : ρ → Prop)
    (re : RE) :
    ∀ (cp : Caps α) (pv : Option α) (l : List α)
      (k : Caps α → Option α → List α → Option ρ) (r : ρ),
      l.all P = true → pvOk P pv → capsOk P cp →
      (∀ cp2 pv2 l2 r2, l2.all P = true → pvOk P pv2 → capsOk P cp2 →
        k cp2 pv2 l2 = some r2 → W r2) →
      mre I re cp pv l k = some r → W r := by
  induction re with
  | cls c =>
    intro cp pv l k r hl hpv hcp hk h
    cases l with
    | nil => cases h
    | cons x xs =>
      simp only [mre] at h
      simp only [List.all_cons, Bool.and_eq_true] at hl
      by_cases hc : I c x = true
      · simp only [hc, if_true] at h
        exact hk cp (some x) xs r hl.2 (fun c2 hc2 => by cases hc2; exact hl.1)
          hcp h
      · simp [hc] at h
  | seq a b iha ihb =>
    intro cp pv l k r hl hpv hcp hk h
    simp only [mre] at h
    refine iha cp pv l _ r hl hpv hcp ?_ h
    intro cp2 pv2 l2 r2 hl2 hpv2 hcp2 hr
    exact ihb cp2 pv2 l2 k r2 hl2 hpv2 hcp2 hk hr
  | alt a b iha ihb =>
    intro cp pv l k r hl hpv hcp hk h
    simp only [mre] at h
    rcases orElse_eq_some _ _ _ h with h1 | ⟨_, h2⟩
    · exact iha cp pv l k r hl hpv hcp hk h1
    · exact ihb cp pv l k r hl hpv hcp hk h2
  | opt a iha =>
    intro cp pv l k r hl hpv hcp hk h
    simp only [mre] at h
    rcases orElse_eq_some _ _ _ h with h1 | ⟨_, h2⟩
    · exact iha cp pv l k r hl hpv hcp hk h1
    · exact hk cp pv l r hl hpv hcp h2
  | star a iha =>
    intro cp pv l k r hl hpv hcp hk h
    simp only [mre] at h
    exact starLoop_safe P W _
      (fun cp2 pv2 l2 k2 r2 hl2 hpv2 hcp2 hk2 hr =>
        iha cp2 pv2 l2 k2 r2 hl2 hpv2 hcp2 hk2 hr)
      l.length cp pv l k r hl hpv hcp hk h
  | bol =>
    intro cp pv l k r hl hpv hcp hk h
    cases pv with
    | none =>
      simp only [mre, if_true] at h
      exact hk cp none l r hl hpv hcp h
    | some c =>
      simp only [mre] at h
      by_cases hb : I CC.nlc c = true
      · simp only [hb, if_true] at h
        exact hk cp (some c) l r hl hpv hcp h
      · simp [hb] at h
  | grp i a iha =>
    intro cp pv l k r hl hpv hcp hk h
    simp only [mre] at h
    refine iha cp pv l _ r hl hpv hcp ?_ h
    intro cp2 pv2 l2 r2 hl2 hpv2 hcp2 hr
    refine hk _ pv2 l2 r2 hl2 hpv2 ?_ hr
    intro p hp
    rcases List.mem_cons.mp hp with hp | hp
    · subst hp
      simp only [List.all_eq_true]
      intro c hc
      exact (List.all_eq_true.mp hl) c (List.take_subset _ _ hc)
    · exact hcp2 p hp

theorem tryMatch_map (re : RE) (pv : Option Char) (l : List Char)
    (hl : l.all safeChar = true) (hpv : pvOk safeChar pv) :
    tryMatch byteClass re (pv.map Char.toNat) (l.map Char.toNat) =
      (tryMatch charI re pv l).map
        (fun r => (capsMap r.1, r.2.1.map Char.toNat, r.2.2.map Char.toNat)) := by
  unfold tryMatch
  exact mre_map _ re [] pv l _ _ hl hpv (fun cp2 pv2 l2 _ _ => rfl)

theorem tryMatch_safe {α : Type} (I : CC → α → Bool) (P : α → Bool) (re : RE)
    (pv : Option α) (l : List α) (cp : Caps α) (pv2 : Option α) (l2 : List α)
    (hl : l.all P = true) (hpv : pvOk P pv)
    (h : tryMatch I re pv l = some (cp, pv2, l2)) :
    capsOk P cp ∧ pvOk P pv2 ∧ l2.all P = true := by
  refine mre_safe I P
    (fun r => capsOk P r.1 ∧ pvOk P r.2.1 ∧ r.2.2.all P = true) re [] pv l _
    (cp, pv2, l2) hl hpv (by intro p hp; cases hp) ?_ h
  intro cp3 pv3 l3 r3 hl3 hpv3 hcp3 hr
  cases hr
  exact ⟨hcp3, hpv3, hl3⟩

theorem fIter_map (re : RE) (fu : Nat) :
    ∀ (pv : Option Char) (l : List Char), l.all safeChar = true →
      pvOk safeChar pv →
      fIter byteClass re fu (pv.map Char.toNat) (l.map Char.toNat) =
        (fIter charI re fu pv l).map capsMap := by
  induction fu with
  | zero => intro pv l _ _; rfl
  | succ fu ih =>
    intro pv l hl hpv
    simp only [fIter]
    rw [tryMatch_map re pv l hl hpv]
    cases hm : tryMatch charI re pv l with
    | none =>
      simp only [Option.map_none]
      cases l with
      | nil => rfl
      | cons x xs =>
        simp only [List.all_cons, Bool.and_eq_true] at hl
        simp only [List.map_cons]
        exact ih (some x) xs hl.2 (fun c hc => by cases hc; exact hl.1)
    | some r =>
      obtain ⟨cp, pv2, l2⟩ := r
      obtain ⟨hcp, hpv2, hl2⟩ := tryMatch_safe charI safeChar re pv l cp pv2 l2
        hl hpv hm
      have hms : Option.map
          (fun r => (capsMap r.1, Option.map Char.toNat r.2.1,
            List.map Char.toNat r.2.2)) (some (cp, pv2, l2)) =
          some (capsMap cp, Option.map Char.toNat pv2, List.map Char.toNat l2) :=
        rfl
      rw [hms]
      simp only [List.length_map]
      by_cases hlen : l2.length < l.length
      · simp only [hlen, if_true, List.map_cons]
        rw [ih pv2 l2 hl2 hpv2]
      · simp only [hlen, if_false]
        cases l with
        | nil => rfl
        | cons x xs =>
          simp only [List.all_cons, Bool.and_eq_true] at hl
          simp only [List.map_cons]
          rw [show (some x.toNat) = Option.map Char.toNat (some x) from rfl,
            ih (some x) xs hl.2 (fun c hc => by cases hc; exact hl.1)]

theorem fIter_caps_safe {α : Type} (I : CC → α → Bool) (P : α → Bool) (re : RE)
    (fu : Nat) :
    ∀ (pv : Option α) (l : List α), l.all P = true → pvOk P pv →
      ∀ cp ∈ fIter I re fu pv l, capsOk P cp := by
  induction fu with
  | zero => intro pv l _ _ cp hcp; cases hcp
  | succ fu ih =>
    intro pv l hl hpv cp hcp
    simp only [fIter] at hcp
    cases hm : tryMatch I re pv l with
    | none =>
      rw [hm] at hcp
      cases l with
      | nil => cases hcp
      | cons x xs =>
        simp only [List.all_cons, Bool.and_eq_true] at hl
        exact ih (some x) xs hl.2 (fun c hc => by cases hc; exact hl.1) cp hcp
    | some r =>
      obtain ⟨cp2, pv2, l2⟩ := r
      obtain ⟨hcp2, hpv2, hl2⟩ := tryMatch_safe I P re pv l cp2 pv2 l2 hl hpv hm
      rw [hm] at hcp
      by_cases hlen : l2.length < l.length
      · simp only [hlen, if_true, List.mem_cons] at hcp
        rcases hcp with hcp | hcp
        · subst hcp; exact hcp2
        · exact ih pv2 l2 hl2 hpv2 cp hcp
      · simp only [hlen, if_false] at hcp
        cases l with
        | nil =>
          simp only [List.mem_singleton] at hcp
          subst hcp; exact hcp2
        | cons x xs =>
          simp only [List.all_cons, Bool.and_eq_true] at hl
          simp only [List.mem_cons] at hcp
          rcases hcp with hcp | hcp
          · subst hcp; exact hcp2
          · exact ih (some x) xs hl.2 (fun c hc => by cases hc; exact hl.1) cp hcp

theorem digitsToNat_map (l : List Char) :
    digitsToNat byteDval (l.map Char.toNat) = digitsToNat charDval l := by
  unfold digitsToNat
  rw [List.foldl_map]
  rfl

theorem pyFloatB_map (t : List Char) : pyFloatB (t.map Char.toNat) = pyFloat t := by
  simp [pyFloatB, List.map_map, Function.comp_def, Char.ofNat_toNat]

theorem utf8Encode_safe (l : List Char) (h : l.all safeChar = true) :
    utf8Encode l = l.map Char.toNat := by
  induction l with
  | nil => rfl
  | cons c rest ih =>
    simp only [List.all_cons, Bool.and_eq_true] at h
    have hc : c.toNat < 128 := by
      have := h.1
      simp only [safeChar, Bool.and_eq_true, decide_eq_true_eq] at this
      exact this.1
    simp only [utf8Encode, List.map_cons, List.flatten_cons] at ih ⊢
    rw [show utf8EncodeChar c = [c.toNat] from by simp [utf8EncodeChar, hc],
      ih h.2]
    rfl

theorem utf8DecGo_map (fu : Nat) :
    ∀ (l : List Char), l.length ≤ fu → l.all safeChar = true →
      utf8DecGo fu (l.map Char.toNat) = some l := by
  induction fu with
  | zero =>
    intro l hlen _
    cases l with
    | nil => rfl
    | cons c rest => simp at hlen
  | succ fu ih =>
    intro l hlen h
    cases l with
    | nil => rfl
    | cons c rest =>
      simp only [List.all_cons, Bool.and_eq_true] at h
      have hc : c.toNat < 128 := by
        have := h.1
        simp only [safeChar, Bool.and_eq_true, decide_eq_true_eq] at this
        exact this.1
      simp only [List.map_cons, utf8DecGo]
      rw [show utf8DecodeOne (c.toNat :: List.map Char.toNat rest) =
          some (Char.ofNat c.toNat, List.map Char.toNat rest) from by
        simp [utf8DecodeOne, hc]]
      simp only [Option.map]
      rw [ih rest (by simpa using hlen) h.2]
      simp [Char.ofNat_toNat]

theorem utf8Dec_map (l : List Char) (h : l.all safeChar = true) :
    utf8Dec (l.map Char.toNat) = some l := by
  unfold utf8Dec
  rw [List.length_map]
  exact utf8DecGo_map l.length l le_rfl h

theorem getD_mapped {β : Type} (f : List Char → β) (dflt : β)
    (o : Option (List Char)) (hd : f [] = dflt) :
    (o.map f).getD dflt = f (o.getD []) := by
  cases o with
  | none => simpa using hd.symm
  | some v => rfl

theorem framesOf_map (l : List Char) (hl : l.all safeChar = true) :
    framesOf byteClass byteDval (l.map Char.toNat) =
      (framesOf charI charDval l).map frameMapB := by
  unfold framesOf findIter
  rw [List.length_map,
    show (none : Option Nat) = Option.map Char.toNat none from rfl,
    fIter_map FRAME_MATCH_REGEX (l.length + 1) none l hl (by intro c hc; cases hc),
    List.map_map, List.map_map]
  refine List.map_congr_left ?_
  intro cp _
  simp only [Function.comp_apply, frameMapB]
  rw [capsGet_capsMap, capsGet_capsMap, capsGet_capsMap,
    getD_mapped (List.map Char.toNat) [] (capsGet cp 0) rfl,
    getD_mapped (List.map Char.toNat) [] (capsGet cp 1) rfl,
    getD_mapped (List.map Char.toNat) [] (capsGet cp 2) rfl,
    digitsToNat_map]

theorem posToksOf_map (block : List Char) (hl : block.all safeChar = true) :
    posToksOf byteClass (block.map Char.toNat) =
      (posToksOf charI block).map tokMapB := by
  unfold posToksOf findIter
  rw [List.length_map,
    show (none : Option Nat) = Option.map Char.toNat none from rfl,
    fIter_map POS_MATCH_REGEX (block.length + 1) none block hl
      (by intro c hc; cases hc),
    List.map_map, List.map_map]
  refine List.map_congr_left ?_
  intro cp _
  simp only [Function.comp_apply, tokMapB]
  rw [capsGet_capsMap, capsGet_capsMap, capsGet_capsMap, capsGet_capsMap,
    getD_mapped (List.map Char.toNat) [] (capsGet cp 0) rfl,
    getD_mapped (List.map Char.toNat) [] (capsGet cp 1) rfl,
    getD_mapped (List.map Char.toNat) [] (capsGet cp 2) rfl,
    getD_mapped (List.map Char.toNat) [] (capsGet cp 3) rfl]

theorem capsGet_safe {α : Type} (P : α → Bool) (cp : Caps α) (i : Nat)
    (h : capsOk P cp) : ((capsGet cp i).getD []).all P = true := by
  induction cp with
  | nil => rfl
  | cons p rest ih =>
    by_cases hi : p.1 = i
    · simpa [capsGet, hi] using h p (by simp)
    · simp only [capsGet, hi, if_false]
      exact ih (fun q hq => h q (List.mem_cons_of_mem p hq))

theorem framesOf_safe (l : List Char) (hl : l.all safeChar = true) :
    ∀ fr ∈ framesOf charI charDval l,
      fr.comment.all safeChar = true ∧ fr.positions.all safeChar = true := by
  intro fr hfr
  unfold framesOf findIter at hfr
  obtain ⟨cp, hcp, hext⟩ := List.mem_map.mp hfr
  have hsafe := fIter_caps_safe charI safeChar FRAME_MATCH_REGEX (l.length + 1)
    none l hl (by intro c hc; cases hc) cp hcp
  subst hext
  exact ⟨capsGet_safe safeChar cp 1 hsafe, capsGet_safe safeChar cp 2 hsafe⟩

theorem drainGo_map (ms : List (PosTok Char)) (n : Nat) :
    ∀ c, drainGo pyFloatB (ms.map tokMapB) n c =
      Except.map (List.map atomMapB) (drainGo pyFloat ms n c) := by
  induction ms with
  | nil =>
    intro c
    by_cases hc : c = n <;> simp [drainGo, hc, Except.map]
  | cons m rest ih =>
    intro c
    by_cases hn : n < c + 1
    · simp [drainGo, hn, Except.map]
    · simp only [List.map_cons, drainGo, hn, if_false, tokMapB,
        pyFloatB_map]
      cases hx : pyFloat m.x with
      | none => simp [Except.map]
      | some x =>
        cases hy : pyFloat m.y with
        | none => simp [Except.map]
        | some y =>
          cases hz : pyFloat m.z with
          | none => simp [Except.map]
          | some z =>
            simp only []
            rw [ih (c + 1)]
            cases hrec : drainGo pyFloat rest n (c + 1) with
            | error e => simp [Except.map]
            | ok r => simp [Except.map, atomMapB]

theorem parseFrames_map (fs : List (FrameT Char))
    (hsafe : ∀ fr ∈ fs,
      fr.comment.all safeChar = true ∧ fr.positions.all safeChar = true) :
    parseFrames byteClass utf8Dec pyFloatB (fs.map frameMapB) =
      Except.map (List.map recordMapB)
        (parseFrames charI (fun m => some m) pyFloat fs) := by
  induction fs with
  | nil => rfl
  | cons fr rest ih =>
    obtain ⟨hcm, hpos⟩ := hsafe fr (by simp)
    simp only [List.map_cons, parseFrames, frameMapB]
    rw [utf8Dec_map fr.comment hcm, posToksOf_map fr.positions hpos,
      drainGo_map]
    cases hdr : drainGo pyFloat (posToksOf charI fr.positions) fr.natoms 0 with
    | error e => simp [Except.map]
    | ok atoms =>
      simp only [Except.map]
      rw [ih (fun q hq => hsafe q (List.mem_cons_of_mem fr hq))]
      cases hrec : parseFrames charI (fun m => some m) pyFloat rest with
      | error e => simp [Except.map]
      | ok rs => simp [Except.map, recordMapB]

theorem parse_eq_parseContent (s : String) : parse s = parseContent s.data := rfl

/-- C6 counterexample: the claim fails as stated.  Text-mode `\s` is the
Unicode whitespace set, so the no-break space separates symbol and float and
the frame parses to one record; in bytes mode U+00A0 encodes as 0xC2 0xA0,
neither byte matches `\s` or `\d`, the frame regex rejects the line, and the
byte parse yields no record at all — the two structured results differ. -/
theorem c6_cex_nbsp_diverges :
    parseContent c6cex = .ok [⟨1, ['t'], [⟨['C'], 1, 2, 3⟩]⟩] ∧
    parseBytes (utf8Encode c6cex) = .ok [] ∧
    (Except.ok [] : Except PErr (List (Record Nat))) ≠
      Except.map (List.map recordMapB)
        (Except.ok [(⟨1, ['t'], [⟨['C'], 1, 2, 3⟩]⟩ : Record Char)]) := by
  refine ⟨by with_unfolding_all rfl, by with_unfolding_all rfl, ?_⟩
  intro h
  rw [show Except.map (List.map recordMapB)
      (Except.ok [(⟨1, ['t'], [⟨['C'], 1, 2, 3⟩]⟩ : Record Char)]) =
      Except.ok [recordMapB ⟨1, ['t'], [⟨['C'], 1, 2, 3⟩]⟩] from rfl] at h
  injection h with h2
  cases h2

/-- C6 (amended): for every content whose characters are ASCII other than
U+001C–U+001F (on which text-mode and bytes-mode `\s` disagree), parsing the
text and parsing its UTF-8 byte encoding yield identical structured results:
frame for frame the same `natoms`, the same comment text (bytes mode decodes
the comment), equal float coordinates, and each atom symbol equal as text —
in bytes mode the source leaves the symbol as its UTF-8 bytes (it decodes
only the comment), which is what `recordMapB` records. -/
theorem c6_text_bytes_equivalence (l : List Char) (h : l.all safeChar = true) :
    parseBytes (utf8Encode l) =
      Except.map (List.map recordMapB) (parseContent l) := by
  unfold parseBytes parseContent
  rw [utf8Encode_safe l h, framesOf_map l h]
  exact parseFrames_map (framesOf charI charDval l) (framesOf_safe l h)

/-- C6 witness: a concrete ASCII frame, parsed both ways through the theorem;
the text result is the one record and the byte result is its image. -/
theorem c6_text_bytes_equivalence_witness :
    ("1\nt\nC 1.0 2.0 3.0\n".data.all safeChar = true) ∧
    parseBytes (utf8Encode "1\nt\nC 1.0 2.0 3.0\n".data) =
      Except.map (List.map recordMapB) (parseContent "1\nt\nC 1.0 2.0 3.0\n".data) ∧
    parseContent "1\nt\nC 1.0 2.0 3.0\n".data =
      .ok [⟨1, ['t'], [⟨['C'], 1, 2, 3⟩]⟩] := by
  have hs : "1\nt\nC 1.0 2.0 3.0\n".data.all safeChar = true := by
    with_unfolding_all rfl
  exact ⟨hs, c6_text_bytes_equivalence "1\nt\nC 1.0 2.0 3.0\n".data hs,
    by with_unfolding_all rfl⟩

theorem none_orElse {ρ : Type} (f : Unit → Option ρ) :
    (none : Option ρ).orElse f = f () := rfl

theorem some_orElse {ρ : Type} (r : ρ) (f : Unit → Option ρ) :
    (some r).orElse f = some r := rfl

theorem mre_cls_cons {α ρ : Type} (I : CC → α → Bool) (q : CC) (cp : Caps α)
    (pv : Option α) (x : α) (l : List α)
    (k : Caps α → Option α → List α → Option ρ) (hx : I q x = true) :
    mre I (.cls q) cp pv (x :: l) k = k cp (some x) l := by
  simp [mre, hx]

theorem mre_cls_stop {α ρ : Type} (I : CC → α → Bool) (q : CC) (cp : Caps α)
    (pv : Option α) (l : List α)
    (k : Caps α → Option α → List α → Option ρ)
    (hstop : match l with | [] => True | r :: _ => I q r = false) :
    mre I (.cls q) cp pv l k = none := by
  cases l with
  | nil => rfl
  | cons r rs => simp only at hstop; simp [mre, hstop]

theorem starLoop_cls_eq {α ρ : Type} (I : CC → α → Bool) (q : CC)
    (k : Caps α → Option α → List α → Option ρ) :
    ∀ (pre : List α) (n : Nat) (rest : List α) (cp : Caps α) (pv : Option α),
      (pre ++ rest).length ≤ n →
      (∀ x ∈ pre, I q x = true) →
      (match rest with | [] => True | r :: _ => I q r = false) →
      starLoop (fun cp2 pv2 l2 k2 => mre I (.cls q) cp2 pv2 l2 k2) n cp pv
        (pre ++ rest) k = tryFwd k cp pv pre rest := by
  intro pre
  induction pre with
  | nil =>
    intro n rest cp pv hn hpre hstop
    cases rest with
    | nil => cases n <;> simp [starLoop, mre, tryFwd]
    | cons r rs =>
      simp only at hstop
      cases n <;> simp [starLoop, mre, hstop, tryFwd]
  | cons x xs ih =>
    intro n rest cp pv hn hpre hstop
    cases n with
    | zero => simp at hn
    | succ m =>
      have hx : I q x = true := hpre x (by simp)
      have hlt : (xs ++ rest).length < (x :: (xs ++ rest)).length := by simp
      have hm : (xs ++ rest).length ≤ m := by simpa using hn
      simp only [List.cons_append, starLoop]
      rw [mre_cls_cons I q cp pv x (xs ++ rest) _ hx]
      simp only [hlt, if_true]
      rw [ih m rest cp (some x) hm (fun y hy => hpre y (by simp [hy])) hstop]
      rfl

theorem star_cls_eq {α ρ : Type} (I : CC → α → Bool) (q : CC)
    (k : Caps α → Option α → List α → Option ρ) (pre rest : List α)
    (cp : Caps α) (pv : Option α)
    (hpre : ∀ x ∈ pre, I q x = true)
    (hstop : match rest with | [] => True | r :: _ => I q r = false) :
    mre I (.star (.cls q)) cp pv (pre ++ rest) k = tryFwd k cp pv pre rest := by
  simp only [mre]
  exact starLoop_cls_eq I q k pre (pre ++ rest).length rest cp pv le_rfl
    hpre hstop

theorem plus_cls_eq {α ρ : Type} (I : CC → α → Bool) (q : CC)
    (k : Caps α → Option α → List α → Option ρ) (x : α) (pre rest : List α)
    (cp : Caps α) (pv : Option α) (hx : I q x = true)
    (hpre : ∀ y ∈ pre, I q y = true)
    (hstop : match rest with | [] => True | r :: _ => I q r = false) :
    mre I (plus (.cls q)) cp pv (x :: (pre ++ rest)) k =
      tryFwd k cp (some x) pre rest := by
  simp only [plus, mre, hx, if_true]
  exact star_cls_eq I q k pre rest cp (some x) hpre hstop

theorem tryFwd_full {α ρ : Type} (k : Caps α → Option α → List α → Option ρ)
    (cp : Caps α) (r : ρ) :
    ∀ (pre : List α) (pv : Option α) (suf : List α),
      k cp (lastPv pv pre) suf = some r → tryFwd k cp pv pre suf = some r := by
  intro pre
  induction pre with
  | nil => intro pv suf h; simpa [tryFwd, lastPv] using h
  | cons x xs ih =>
    intro pv suf h
    simp only [lastPv] at h
    simp only [tryFwd, ih (some x) suf h, some_orElse]

theorem tryFwd_none_of {α ρ : Type} (k : Caps α → Option α → List α → Option ρ)
    (cp : Caps α) :
    ∀ (pre : List α) (pv : Option α) (suf : List α),
      k cp pv (pre ++ suf) = none →
      (∀ (x : α) (b : List α), (∃ a, pre = a ++ x :: b) →
        k cp (some x) (b ++ suf) = none) →
      tryFwd k cp pv pre suf = none := by
  intro pre
  induction pre with
  | nil => intro pv suf h0 _; simpa [tryFwd] using h0
  | cons x xs ih =>
    intro pv suf h0 hstep
    have hin : tryFwd k cp (some x) xs suf = none := by
      refine ih (some x) suf (hstep x xs ⟨[], rfl⟩) ?_
      intro y b ⟨a, ha⟩
      exact hstep y b ⟨x :: a, by rw [ha]; rfl⟩
    simp only [tryFwd, hin, none_orElse]
    simpa using h0

theorem tryFwd_last {α ρ : Type} (k : Caps α → Option α → List α → Option ρ)
    (cp : Caps α) (r : ρ) (pre : List α) (pv : Option α) (suf : List α)
    (hdeep : ∀ (x : α) (b : List α), (∃ a, pre = a ++ x :: b) →
      k cp (some x) (b ++ suf) = none)
    (hbase : k cp pv (pre ++ suf) = some r) :
    tryFwd k cp pv pre suf = some r := by
  cases pre with
  | nil => simpa [tryFwd] using hbase
  | cons x xs =>
    have hin : tryFwd k cp (some x) xs suf = none := by
      refine tryFwd_none_of k cp xs (some x) suf (hdeep x xs ⟨[], rfl⟩) ?_
      intro y b ⟨a, ha⟩
      exact hdeep y b ⟨x :: a, by rw [ha]; rfl⟩
    simp only [tryFwd, hin, none_orElse]
    simpa using hbase

theorem tryFwd_break {α ρ : Type} (k : Caps α → Option α → List α → Option ρ)
    (cp : Caps α) (r : ρ) :
    ∀ (p1 : List α) (x : α) (p2 : List α) (pv : Option α) (suf : List α),
      (∀ (y : α) (b : List α), (∃ a, p2 = a ++ y :: b) →
        k cp (some y) (b ++ suf) = none) →
      k cp (some x) (p2 ++ suf) = some r →
      tryFwd k cp pv (p1 ++ x :: p2) suf = some r := by
  intro p1
  induction p1 with
  | nil =>
    intro x p2 pv suf hdeep hend
    simp only [List.nil_append, tryFwd]
    rw [tryFwd_last k cp r p2 (some x) suf hdeep hend]
    rfl
  | cons y p1 ih =>
    intro x p2 pv suf hdeep hend
    simp only [List.cons_append, tryFwd, List.append_eq]
    rw [ih x p2 (some y) suf hdeep hend]
    rfl

theorem starLoop_safe2 {α ρ : Type} (P : α → Bool) (W : ρ → Prop)
    (step : Caps α → Option α → List α →
      (Caps α → Option α → List α → Option ρ) → Option ρ)
    (hstep : ∀ cp pv l k r, l.all P = true →
      (∀ cp2 pv2 l2 r2, l2.all P = true → k cp2 pv2 l2 = some r2 → W r2) →
      step cp pv l k = some r → W r) (n : Nat) :
    ∀ cp pv l k r, l.all P = true →
      (∀ cp2 pv2 l2 r2, l2.all P = true → k cp2 pv2 l2 = some r2 → W r2) →
      starLoop step n cp pv l k = some r → W r := by
  induction n with
  | zero =>
    intro cp pv l k r hl hk h
    rcases orElse_eq_some _ _ _ h with h1 | ⟨_, h2⟩
    · exact hstep cp pv l _ r hl (fun _ _ _ _ _ hr => by cases hr) h1
    · exact hk cp pv l r hl h2
  | succ n ih =>
    intro cp pv l k r hl hk h
    rcases orElse_eq_some _ _ _ h with h1 | ⟨_, h2⟩
    · refine hstep cp pv l _ r hl ?_ h1
      intro cp2 pv2 l2 r2 hl2 hr
      by_cases hlen : l2.length < l.length
      · simp only [hlen, if_true] at hr
        exact ih cp2 pv2 l2 k r2 hl2 hk hr
      · simp [hlen] at hr
    · exact hk cp pv l r hl h2

theorem mre_safe2 {α ρ : Type} (I : CC → α → Bool) (P : α → Bool) (W : ρ → Prop)
    (re : RE) :
    ∀ (cp : Caps α) (pv : Option α) (l : List α)
      (k : Caps α → Option α → List α → Option ρ) (r : ρ),
      l.all P = true →
      (∀ cp2 pv2 l2 r2, l2.all P = true → k cp2 pv2 l2 = some r2 → W r2) →
      mre I re cp pv l k = some r → W r := by
  induction re with
  | cls c =>
    intro cp pv l k r hl hk h
    cases l with
    | nil => cases h
    | cons x xs =>
      simp only [mre] at h
      simp only [List.all_cons, Bool.and_eq_true] at hl
      by_cases hc : I c x = true
      · simp only [hc, if_true] at h
        exact hk cp (some x) xs r hl.2 h
      · simp [hc] at h
  | seq a b iha ihb =>
    intro cp pv l k r hl hk h
    simp only [mre] at h
    refine iha cp pv l _ r hl ?_ h
    intro cp2 pv2 l2 r2 hl2 hr
    exact ihb cp2 pv2 l2 k r2 hl2 hk hr
  | alt a b iha ihb =>
    intro cp pv l k r hl hk h
    simp only [mre] at h
    rcases orElse_eq_some _ _ _ h with h1 | ⟨_, h2⟩
    · exact iha cp pv l k r hl hk h1
    · exact ihb cp pv l k r hl hk h2
  | opt a iha =>
    intro cp pv l k r hl hk h
    simp only [mre] at h
    rcases orElse_eq_some _ _ _ h with h1 | ⟨_, h2⟩
    · exact iha cp pv l k r hl hk h1
    · exact hk cp pv l r hl h2
  | star a iha =>
    intro cp pv l k r hl hk h
    simp only [mre] at h
    exact starLoop_safe2 P W _
      (fun cp2 pv2 l2 k2 r2 hl2 hk2 hr => iha cp2 pv2 l2 k2 r2 hl2 hk2 hr)
      l.length cp pv l k r hl hk h
  | bol =>
    intro cp pv l k r hl hk h
    cases pv with
    | none =>
      simp only [mre, if_true] at h
      exact hk cp none l r hl h
    | some c =>
      simp only [mre] at h
      by_cases hb : I CC.nlc c = true
      · simp only [hb, if_true] at h
        exact hk cp (some c) l r hl h
      · simp [hb] at h
  | grp i a iha =>
    intro cp pv l k r hl hk h
    simp only [mre] at h
    refine iha cp pv l _ r hl ?_ h
    intro cp2 pv2 l2 r2 hl2 hr
    exact hk _ pv2 l2 r2 hl2 hr

theorem spTab_ws {c : Char} (h : charI .spTab c = true) : charI .ws c = true := by
  simp only [charI, charClass, Bool.or_eq_true, beq_iff_eq, Bool.and_eq_true,
    decide_eq_true_eq] at h ⊢
  omega

theorem alpha_not_ws {c : Char} (h : charI .alpha c = true) :
    charI .ws c = false := by
  simp only [charI, charClass, Bool.or_eq_true, beq_iff_eq, Bool.and_eq_true,
    decide_eq_true_eq] at h
  simp only [charI, charClass]
  apply Bool.eq_false_iff.mpr
  simp only [ne_eq, Bool.or_eq_true, beq_iff_eq, Bool.and_eq_true,
    decide_eq_true_eq]
  omega

theorem alpha_not_spTab {c : Char} (h : charI .alpha c = true) :
    charI .spTab c = false := by
  simp only [charI, charClass, Bool.or_eq_true, beq_iff_eq, Bool.and_eq_true,
    decide_eq_true_eq] at h
  simp only [charI, charClass]
  apply Bool.eq_false_iff.mpr
  simp only [ne_eq, Bool.or_eq_true, beq_iff_eq]
  omega

theorem alpha_not_d09 {c : Char} (h : charI .alpha c = true) :
    charI .d09 c = false := by
  simp only [charI, charClass, Bool.or_eq_true, beq_iff_eq, Bool.and_eq_true,
    decide_eq_true_eq] at h
  simp only [charI, charClass]
  apply Bool.eq_false_iff.mpr
  simp only [ne_eq, Bool.and_eq_true, decide_eq_true_eq]
  omega

theorem alpha_alnum {c : Char} (h : charI .alpha c = true) :
    charI .alnum c = true := by
  simp only [charI, charClass, Bool.or_eq_true, Bool.and_eq_true,
    decide_eq_true_eq] at h ⊢
  tauto

theorem alpha_not_hash {c : Char} (h : charI .alpha c = true) :
    charI .hashC c = false := by
  simp only [charI, charClass, Bool.or_eq_true, beq_iff_eq, Bool.and_eq_true,
    decide_eq_true_eq] at h
  simp only [charI, charClass]
  apply Bool.eq_false_iff.mpr
  simp only [ne_eq, beq_iff_eq]
  omega

theorem alpha_not_nlc {c : Char} (h : charI .alpha c = true) :
    charI .nlc c = false := by
  simp only [charI, charClass, Bool.or_eq_true, beq_iff_eq, Bool.and_eq_true,
    decide_eq_true_eq] at h
  simp only [charI, charClass]
  apply Bool.eq_false_iff.mpr
  simp only [ne_eq, beq_iff_eq]
  omega

theorem d09_dig {c : Char} (h : charI .d09 c = true) : charI .dig c = true := by
  simp only [charI, charClass, Bool.or_eq_true, Bool.and_eq_true,
    decide_eq_true_eq] at h ⊢
  tauto

theorem d09_not_ws {c : Char} (h : charI .d09 c = true) :
    charI .ws c = false := by
  simp only [charI, charClass, Bool.and_eq_true, decide_eq_true_eq] at h
  simp only [charI, charClass]
  apply Bool.eq_false_iff.mpr
  simp only [ne_eq, Bool.or_eq_true, beq_iff_eq, Bool.and_eq_true,
    decide_eq_true_eq]
  omega

theorem d09_not_spTab {c : Char} (h : charI .d09 c = true) :
    charI .spTab c = false := by
  simp only [charI, charClass, Bool.and_eq_true, decide_eq_true_eq] at h
  simp only [charI, charClass]
  apply Bool.eq_false_iff.mpr
  simp only [ne_eq, Bool.or_eq_true, beq_iff_eq]
  omega

theorem d09_not_dig_false {c : Char} (h : charI .d09 c = true) :
    charI .dig c = false → False := by
  intro h2
  rw [d09_dig h] at h2
  cases h2

theorem d09_not_dotCh {c : Char} (h : charI .d09 c = true) :
    charI .dotCh c = false := by
  simp only [charI, charClass, Bool.and_eq_true, decide_eq_true_eq] at h
  simp only [charI, charClass]
  apply Bool.eq_false_iff.mpr
  simp only [ne_eq, beq_iff_eq]
  omega

theorem d09_not_alpha {c : Char} (h : charI .d09 c = true) :
    charI .alpha c = false := by
  simp only [charI, charClass, Bool.and_eq_true, decide_eq_true_eq] at h
  simp only [charI, charClass]
  apply Bool.eq_false_iff.mpr
  simp only [ne_eq, Bool.or_eq_true, Bool.and_eq_true, decide_eq_true_eq]
  omega

theorem d09_not_hash {c : Char} (h : charI .d09 c = true) :
    charI .hashC c = false := by
  simp only [charI, charClass, Bool.and_eq_true, decide_eq_true_eq] at h
  simp only [charI, charClass]
  apply Bool.eq_false_iff.mpr
  simp only [ne_eq, beq_iff_eq]
  omega

theorem d09_not_nlc {c : Char} (h : charI .d09 c = true) :
    charI .nlc c = false := by
  simp only [charI, charClass, Bool.and_eq_true, decide_eq_true_eq] at h
  simp only [charI, charClass]
  apply Bool.eq_false_iff.mpr
  simp only [ne_eq, beq_iff_eq]
  omega

theorem d09_not_signFrame {c : Char} (h : charI .d09 c = true) :
    charI .signFrame c = false := by
  simp only [charI, charClass, Bool.and_eq_true, decide_eq_true_eq] at h
  simp only [charI, charClass]
  apply Bool.eq_false_iff.mpr
  simp only [ne_eq, Bool.or_eq_true, beq_iff_eq]
  omega

theorem d09_not_signPos {c : Char} (h : charI .d09 c = true) :
    charI .signPos c = false := by
  simp only [charI, charClass, Bool.and_eq_true, decide_eq_true_eq] at h
  simp only [charI, charClass]
  apply Bool.eq_false_iff.mpr
  simp only [ne_eq, Bool.or_eq_true, beq_iff_eq]
  omega

theorem d09_not_signExp {c : Char} (h : charI .d09 c = true) :
    charI .signExp c = false := by
  simp only [charI, charClass, Bool.and_eq_true, decide_eq_true_eq] at h
  simp only [charI, charClass]
  apply Bool.eq_false_iff.mpr
  simp only [ne_eq, Bool.or_eq_true, beq_iff_eq]
  omega

theorem d09_alnum {c : Char} (h : charI .d09 c = true) :
    charI .alnum c = true := by
  simp only [charI, charClass, Bool.and_eq_true, decide_eq_true_eq] at h
  simp only [charI, charClass, Bool.or_eq_true, Bool.and_eq_true,
    decide_eq_true_eq]
  omega

theorem renderLines_nil : renderLines [] = [] := rfl

theorem renderLines_cons (x : XLine) (ls : List XLine) :
    renderLines (x :: ls) = x.render ++ renderLines ls := by
  simp [renderLines]

theorem opt_none_skip {α ρ : Type} (I : CC → α → Bool) (a : RE) (cp : Caps α)
    (pv : Option α) (l : List α) (k : Caps α → Option α → List α → Option ρ)
    (h : mre I a cp pv l k = none) : mre I (.opt a) cp pv l k = k cp pv l := by
  simp [mre, h, none_orElse]

theorem alt_left {α ρ : Type} (I : CC → α → Bool) (a b : RE) (cp : Caps α)
    (pv : Option α) (l : List α) (k : Caps α → Option α → List α → Option ρ)
    (r : ρ) (h : mre I a cp pv l k = some r) :
    mre I (.alt a b) cp pv l k = some r := by
  simp [mre, h, some_orElse]

theorem alt_right {α ρ : Type} (I : CC → α → Bool) (a b : RE) (cp : Caps α)
    (pv : Option α) (l : List α) (k : Caps α → Option α → List α → Option ρ)
    (h : mre I a cp pv l k = none) :
    mre I (.alt a b) cp pv l k = mre I b cp pv l k := by
  simp [mre, h, none_orElse]

theorem alnum_false_alpha {c : Char} (h : charI .alnum c = false) :
    charI .alpha c = false := by
  cases ha : charI .alpha c with
  | false => rfl
  | true => rw [alpha_alnum ha] at h; cases h

theorem mre_seq {α ρ : Type} (I : CC → α → Bool) (a b : RE) (cp : Caps α)
    (pv : Option α) (l : List α)
    (k : Caps α → Option α → List α → Option ρ) :
    mre I (.seq a b) cp pv l k =
      mre I a cp pv l (fun cp2 pv2 l2 => mre I b cp2 pv2 l2 k) := rfl

theorem mre_grp {α ρ : Type} (I : CC → α → Bool) (i : Nat) (a : RE)
    (cp : Caps α) (pv : Option α) (l : List α)
    (k : Caps α → Option α → List α → Option ρ) :
    mre I (.grp i a) cp pv l k =
      mre I a cp pv l
        (fun cp2 pv2 l2 =>
          k ((i, l.take (l.length - l2.length)) :: cp2) pv2 l2) := rfl

theorem mre_bol_start {α ρ : Type} (I : CC → α → Bool) (cp : Caps α)
    (l : List α) (k : Caps α → Option α → List α → Option ρ) :
    mre I .bol cp none l k = k cp none l := rfl

theorem mre_bol_nl {α ρ : Type} (I : CC → α → Bool) (cp : Caps α) (c : α)
    (l : List α) (k : Caps α → Option α → List α → Option ρ)
    (hc : I .nlc c = true) :
    mre I .bol cp (some c) l k = k cp (some c) l := by
  simp [mre, hc]

theorem mre_bol_mid {α ρ : Type} (I : CC → α → Bool) (cp : Caps α) (c : α)
    (l : List α) (k : Caps α → Option α → List α → Option ρ)
    (hc : I .nlc c = false) :
    mre I .bol cp (some c) l k = none := by
  simp [mre, hc]

theorem symRE_full {ρ : Type} (s rest : List Char) (cp : Caps Char)
    (pv : Option Char) (k : Caps Char → Option Char → List Char → Option ρ)
    (r : ρ) (hs : isAlphas s = true)
    (hstop : match rest with | [] => True | c :: _ => charI .alnum c = false)
    (hk : k cp (lastPv pv s) rest = some r) :
    mre charI symRE cp pv (s ++ rest) k = some r := by
  cases s with
  | nil => simp [isAlphas] at hs
  | cons c cs =>
    simp only [isAlphas, List.all_cons, Bool.and_eq_true] at hs
    unfold symRE
    rw [mre_seq, List.cons_append,
      plus_cls_eq charI .alpha _ c cs rest cp pv hs.2.1
        (fun y hy => (List.all_eq_true.mp hs.2.2) y hy)
        (by cases rest with
          | nil => exact trivial
          | cons rh rt => exact alnum_false_alpha hstop)]
    refine tryFwd_full _ cp r cs (some c) rest ?_
    show mre charI (.star (.cls .alnum)) cp (lastPv (some c) cs) rest k = some r
    rw [show rest = ([] : List Char) ++ rest from rfl,
      star_cls_eq charI .alnum k [] rest cp (lastPv (some c) cs)
        (by intro x hx; cases hx)
        (by cases rest with
          | nil => exact trivial
          | cons rh rt => exact hstop)]
    simpa [tryFwd, lastPv] using hk

theorem star_cls_zero {α ρ : Type} (I : CC → α → Bool) (q : CC) (cp : Caps α)
    (pv : Option α) (l : List α) (k : Caps α → Option α → List α → Option ρ)
    (hstop : match l with | [] => True | c :: _ => I q c = false) :
    mre I (.star (.cls q)) cp pv l k = k cp pv l := by
  rw [show l = ([] : List α) ++ l from rfl,
    star_cls_eq I q k [] l cp pv (by intro x hx; cases hx)
      (by cases l with
        | nil => exact trivial
        | cons c cs => exact hstop)]
  rfl

theorem star_cls_full {α ρ : Type} (I : CC → α → Bool) (q : CC) (cp : Caps α)
    (pv : Option α) (pre rest : List α)
    (k : Caps α → Option α → List α → Option ρ) (r : ρ)
    (hpre : ∀ x ∈ pre, I q x = true)
    (hstop : match rest with | [] => True | c :: _ => I q c = false)
    (hk : k cp (lastPv pv pre) rest = some r) :
    mre I (.star (.cls q)) cp pv (pre ++ rest) k = some r := by
  rw [star_cls_eq I q k pre rest cp pv hpre
    (by cases rest with
      | nil => exact trivial
      | cons c cs => exact hstop)]
  exact tryFwd_full k cp r pre pv rest hk

theorem plus_cls_one {α ρ : Type} (I : CC → α → Bool) (q : CC) (cp : Caps α)
    (pv : Option α) (x : α) (rest : List α)
    (k : Caps α → Option α → List α → Option ρ) (hx : I q x = true)
    (hstop : match rest with | [] => True | c :: _ => I q c = false) :
    mre I (plus (.cls q)) cp pv (x :: rest) k = k cp (some x) rest := by
  have h := plus_cls_eq I q k x [] rest cp pv hx (by intro y hy; cases hy)
    (by cases rest with
      | nil => exact trivial
      | cons c cs => exact hstop)
  simpa [tryFwd] using h

theorem plus_cls_full {α ρ : Type} (I : CC → α → Bool) (q : CC) (cp : Caps α)
    (pv : Option α) (x : α) (pre rest : List α)
    (k : Caps α → Option α → List α → Option ρ) (r : ρ) (hx : I q x = true)
    (hpre : ∀ y ∈ pre, I q y = true)
    (hstop : match rest with | [] => True | c :: _ => I q c = false)
    (hk : k cp (lastPv (some x) pre) rest = some r) :
    mre I (plus (.cls q)) cp pv (x :: (pre ++ rest)) k = some r := by
  rw [plus_cls_eq I q k x pre rest cp pv hx hpre
    (by cases rest with
      | nil => exact trivial
      | cons c cs => exact hstop)]
  exact tryFwd_full k cp r pre (some x) rest hk

theorem digits_all_dig {d : List Char} (hd : isDigits d = true) :
    ∀ x ∈ d, charI .dig x = true := by
  simp only [isDigits, Bool.and_eq_true, List.all_eq_true] at hd
  exact fun x hx => d09_dig (hd.2 x hx)

theorem digits_head_not_ws {d : List Char} (hd : isDigits d = true) :
    match d with | [] => True | c :: _ => charI .ws c = false := by
  cases d with
  | nil => exact trivial
  | cons c cs =>
    simp only [isDigits, Bool.and_eq_true, List.all_cons] at hd
    exact d09_not_ws hd.2.1

/-- One frame-regex float group on a tab-separated decimal: the first branch
`\s+[\- | \+ ]?(\d*[\.]\d+)` consumes the tab, the integer digits, the dot
and the fraction digits, and hands over right behind the fraction. -/
theorem frameFloat_tab {ρ : Type} (d e rest2 : List Char) (cp : Caps Char)
    (pv : Option Char) (k : Caps Char → Option Char → List Char → Option ρ)
    (r : ρ) (hd : isDigits d = true) (he : isDigits e = true)
    (hstop : match rest2 with | [] => True | c :: _ => charI .dig c = false)
    (hk : k cp (lastPv (some '.') e) rest2 = some r) :
    mre charI frameFloat cp pv ('\t' :: (d ++ '.' :: (e ++ rest2))) k =
      some r := by
  unfold frameFloat
  apply alt_left
  rw [mre_seq]
  rw [plus_cls_one charI .ws cp pv '\t' (d ++ '.' :: (e ++ rest2)) _ (by decide)
    (by cases d with
      | nil => exact (by decide : charI .ws '.' = false)
      | cons c cs =>
        simp only [isDigits, Bool.and_eq_true, List.all_cons] at hd
        exact d09_not_ws hd.2.1)]
  show mre charI (.seq (.opt (.cls .signFrame)) _) cp (some '\t')
    (d ++ '.' :: (e ++ rest2)) k = some r
  rw [mre_seq]
  rw [opt_none_skip charI (.cls .signFrame) cp (some '\t') _ _
    (by apply mre_cls_stop
        cases d with
        | nil => exact (by decide : charI .signFrame '.' = false)
        | cons c cs =>
          simp only [isDigits, Bool.and_eq_true, List.all_cons] at hd
          exact d09_not_signFrame hd.2.1)]
  show mre charI (.seq (.star (.cls .dig)) _) cp (some '\t')
    (d ++ '.' :: (e ++ rest2)) k = some r
  rw [mre_seq]
  refine star_cls_full charI .dig cp (some '\t') d ('.' :: (e ++ rest2)) _ r
    (digits_all_dig hd) ((by decide : charI CC.dig '.' = false)) ?_
  show mre charI (.seq (.cls .dotCh) (plus (.cls .dig))) cp _
    ('.' :: (e ++ rest2)) k = some r
  rw [mre_seq, mre_cls_cons charI .dotCh _ _ '.' _ _ (by decide)]
  cases e with
  | nil => simp [isDigits] at he
  | cons eh et =>
    simp only [isDigits, Bool.and_eq_true, List.all_cons] at he
    rw [List.cons_append]
    refine plus_cls_full charI .dig cp (some '.') eh et rest2 k r
      (d09_dig he.2.1) (fun y hy => d09_dig ((List.all_eq_true.mp he.2.2) y hy))
      (by cases rest2 with
        | nil => exact trivial
        | cons c cs => exact hstop) ?_
    simpa [lastPv] using hk

/-- One `POS_MATCH_REGEX` coordinate token on a tab-separated decimal: sign
skipped, the first float-body branch takes `d . e`, and the bogus exponent
never fires because neither a tab nor a newline is in the `[E | e]` class. -/
theorem coordRE_tab {ρ : Type} (d e rest2 : List Char) (cp : Caps Char)
    (pv : Option Char) (k : Caps Char → Option Char → List Char → Option ρ)
    (r : ρ) (hd : isDigits d = true) (he : isDigits e = true)
    (hstop : match rest2 with
      | [] => True
      | c :: _ => charI .dig c = false ∧ charI .expC c = false)
    (hk : k cp (lastPv (some '.') e) rest2 = some r) :
    mre charI coordRE cp pv (d ++ '.' :: (e ++ rest2)) k = some r := by
  unfold coordRE
  rw [mre_seq]
  rw [opt_none_skip charI (.cls .signPos) cp pv _ _
    (by apply mre_cls_stop
        cases d with
        | nil => simp [isDigits] at hd
        | cons c cs =>
          simp only [isDigits, Bool.and_eq_true, List.all_cons] at hd
          exact d09_not_signPos hd.2.1)]
  show mre charI (.seq floatBody expRE) cp pv (d ++ '.' :: (e ++ rest2)) k =
    some r
  rw [mre_seq]
  unfold floatBody
  apply alt_left
  rw [mre_seq]
  refine star_cls_full charI .dig cp pv d ('.' :: (e ++ rest2)) _ r
    (digits_all_dig hd) ((by decide : charI CC.dig '.' = false)) ?_
  show mre charI (.seq (.cls .dotCh) (plus (.cls .dig))) cp _
    ('.' :: (e ++ rest2)) _ = some r
  rw [mre_seq, mre_cls_cons charI .dotCh _ _ '.' _ _ (by decide)]
  cases e with
  | nil => simp [isDigits] at he
  | cons eh et =>
    simp only [isDigits, Bool.and_eq_true, List.all_cons] at he
    rw [List.cons_append]
    refine plus_cls_full charI .dig cp (some '.') eh et rest2 _ r
      (d09_dig he.2.1) (fun y hy => d09_dig ((List.all_eq_true.mp he.2.2) y hy))
      (by cases rest2 with
        | nil => exact trivial
        | cons c cs => exact hstop.1) ?_
    show mre charI expRE cp (lastPv (some eh) et) rest2 k = some r
    unfold expRE
    rw [opt_none_skip charI _ _ _ _ _
      (by rw [mre_seq]
          apply mre_cls_stop
          cases rest2 with
          | nil => exact trivial
          | cons c cs => exact hstop.2)]
    simpa [lastPv] using hk

theorem posLineRE_eq :
    posLineRE = .seq (.alt posLineA (.star (.cls .ws))) (.cls .nlc) := rfl

theorem not_nlc_dotAny {c : Char} (h : charI .nlc c = false) :
    charI .dotAny c = true := by
  simp only [charI, charClass, beq_iff_eq] at h
  simp only [charI, charClass, bne_iff_ne, ne_eq]
  intro h2
  rw [h2] at h
  cases h

theorem symRE_none_head {ρ : Type} (l : List Char) (cp : Caps Char)
    (pv : Option Char) (k : Caps Char → Option Char → List Char → Option ρ)
    (hstop : match l with | [] => True | c :: _ => charI .alpha c = false) :
    mre charI symRE cp pv l k = none := by
  unfold symRE
  rw [mre_seq]
  unfold plus
  rw [mre_seq]
  apply mre_cls_stop
  cases l with
  | nil => exact trivial
  | cons c cs => exact hstop

/-- The element-or-hash alternative with everything after it fails when the
head is neither a letter nor `#` (or the input is empty). -/
theorem posBody_none {ρ : Type} (l : List Char) (cp : Caps Char)
    (pv : Option Char) (k : Caps Char → Option Char → List Char → Option ρ)
    (hstop : match l with
      | [] => True
      | c :: _ => charI .alpha c = false ∧ charI .hashC c = false) :
    mre charI (.seq (.alt (.seq symRE (rep3 frameFloat)) (.cls .hashC))
      (.star (.cls .dotAny))) cp pv l k = none := by
  rw [mre_seq]
  rw [alt_right charI _ _ cp pv l _
    (by rw [mre_seq]
        apply symRE_none_head
        cases l with
        | nil => exact trivial
        | cons c cs => exact hstop.1)]
  apply mre_cls_stop
  cases l with
  | nil => exact trivial
  | cons c cs => exact hstop.2

theorem coordContent_append (sym d1 e1 d2 e2 d3 e3 X : List Char) :
    coordContent sym d1 e1 d2 e2 d3 e3 ++ X =
      sym ++ '\t' :: (d1 ++ '.' :: (e1 ++ '\t' :: (d2 ++ '.' ::
        (e2 ++ '\t' :: (d3 ++ '.' :: (e3 ++ X)))))) := by
  simp [coordContent]

theorem posLineA_coord {ρ : Type} (wsAll sym d1 e1 d2 e2 d3 e3 tail : List Char)
    (cp : Caps Char) (pv : Option Char)
    (k : Caps Char → Option Char → List Char → Option ρ) (r : ρ)
    (hws : ∀ c ∈ wsAll, charI .ws c = true)
    (hsym : isAlphas sym = true) (h1 : isDigits d1 = true)
    (h2 : isDigits e1 = true) (h3 : isDigits d2 = true)
    (h4 : isDigits e2 = true) (h5 : isDigits d3 = true)
    (h6 : isDigits e3 = true)
    (hk : k cp (lastPv (some '.') e3) ('\n' :: tail) = some r) :
    mre charI posLineA cp pv
      (wsAll ++ (coordContent sym d1 e1 d2 e2 d3 e3 ++ '\n' :: tail)) k =
      some r := by
  unfold posLineA
  rw [mre_seq]
  refine star_cls_full charI .ws cp pv wsAll
    (coordContent sym d1 e1 d2 e2 d3 e3 ++ '\n' :: tail) _ r hws ?_ ?_
  · cases sym with
    | nil => simp [isAlphas] at hsym
    | cons sh st =>
      simp only [isAlphas, List.all_cons, Bool.and_eq_true] at hsym
      rw [coordContent_append]
      simp only [List.cons_append]
      exact alpha_not_ws hsym.2.1
  · show mre charI (.seq (.alt (.seq symRE (rep3 frameFloat)) (.cls .hashC))
      (.star (.cls .dotAny))) cp _ _ k = some r
    rw [mre_seq]
    apply alt_left
    rw [mre_seq, coordContent_append]
    refine symRE_full sym _ cp _ _ r hsym
      ((by decide : charI CC.alnum '\t' = false)) ?_
    show mre charI (rep3 frameFloat) cp _ _ _ = some r
    unfold rep3
    rw [mre_seq]
    refine frameFloat_tab d1 e1 _ cp _ _ r h1 h2
      ((by decide : charI CC.dig '\t' = false)) ?_
    show mre charI (.seq frameFloat frameFloat) cp _ _ _ = some r
    rw [mre_seq]
    refine frameFloat_tab d2 e2 _ cp _ _ r h3 h4
      ((by decide : charI CC.dig '\t' = false)) ?_
    refine frameFloat_tab d3 e3 _ cp _ _ r h5 h6
      ((by decide : charI CC.dig '\n' = false)) ?_
    show mre charI (.star (.cls .dotAny)) cp _ ('\n' :: tail) k = some r
    rw [star_cls_zero charI .dotAny cp _ ('\n' :: tail) k
      ((by decide : charI CC.dotAny '\n' = false))]
    exact hk

theorem posLineA_hash {ρ : Type} (wsAll txt tail : List Char) (cp : Caps Char)
    (pv : Option Char) (k : Caps Char → Option Char → List Char → Option ρ)
    (r : ρ) (hws : ∀ c ∈ wsAll, charI .ws c = true) (htxt : noNl txt = true)
    (hk : k cp (lastPv (some '#') txt) ('\n' :: tail) = some r) :
    mre charI posLineA cp pv (wsAll ++ ('#' :: (txt ++ '\n' :: tail))) k =
      some r := by
  unfold posLineA
  rw [mre_seq]
  refine star_cls_full charI .ws cp pv wsAll ('#' :: (txt ++ '\n' :: tail)) _ r
    hws ((by decide : charI CC.ws '#' = false)) ?_
  show mre charI (.seq (.alt (.seq symRE (rep3 frameFloat)) (.cls .hashC))
    (.star (.cls .dotAny))) cp _ _ k = some r
  rw [mre_seq]
  rw [alt_right charI _ _ cp _ _ _
    (by rw [mre_seq]
        exact symRE_none_head _ cp _ _
          ((by decide : charI CC.alpha '#' = false)))]
  rw [mre_cls_cons charI .hashC _ _ '#' _ _ (by decide)]
  refine star_cls_full charI .dotAny cp (some '#') txt ('\n' :: tail) _ r
    (fun c hc => not_nlc_dotAny (by
      simp only [noNl, List.all_eq_true] at htxt
      simpa using htxt c hc))
    ((by decide : charI CC.dotAny '\n' = false)) ?_
  exact hk

theorem ws_not_alpha {c : Char} (h : charI .ws c = true) :
    charI .alpha c = false := by
  cases ha : charI .alpha c with
  | false => rfl
  | true => rw [alpha_not_ws ha] at h; cases h

theorem ws_not_hash {c : Char} (h : charI .ws c = true) :
    charI .hashC c = false := by
  simp only [charI, charClass, Bool.or_eq_true, beq_iff_eq, Bool.and_eq_true,
    decide_eq_true_eq] at h
  simp only [charI, charClass]
  apply Bool.eq_false_iff.mpr
  simp only [ne_eq, beq_iff_eq]
  omega

theorem renderLines_append (a b : List XLine) :
    renderLines (a ++ b) = renderLines a ++ renderLines b := by
  simp [renderLines]

theorem blanks_render_ws (ls : List XLine)
    (hb : ∀ x ∈ ls, x.isBlank = true ∧ x.ok = true) :
    ∀ c ∈ renderLines ls, charI .ws c = true := by
  induction ls with
  | nil => intro c hc; cases hc
  | cons x tl ih =>
    intro c hc
    rw [renderLines_cons] at hc
    rcases List.mem_append.mp hc with hc | hc
    · obtain ⟨hbx, hox⟩ := hb x (by simp)
      cases x with
      | coord lead sym d1 e1 d2 e2 d3 e3 => simp [XLine.isBlank] at hbx
      | hash lead txt => simp [XLine.isBlank] at hbx
      | blank ws =>
        simp only [XLine.ok, isSpTabs, List.all_eq_true] at hox
        simp only [XLine.render] at hc
        rcases List.mem_append.mp hc with hc | hc
        · exact spTab_ws (by simpa using hox c hc)
        · simp only [List.mem_singleton] at hc
          subst hc
          decide
    · exact ih (fun y hy => hb y (List.mem_cons_of_mem x hy)) c hc

theorem blanks_render_split (ls : List XLine) (hne : ls ≠ [])
    (hb : ∀ x ∈ ls, x.isBlank = true ∧ x.ok = true) :
    ∃ front, renderLines ls = front ++ ['\n'] := by
  induction ls with
  | nil => cases hne rfl
  | cons x tl ih =>
    cases tl with
    | nil =>
      obtain ⟨hbx, _⟩ := hb x (by simp)
      cases x with
      | coord lead sym d1 e1 d2 e2 d3 e3 => simp [XLine.isBlank] at hbx
      | hash lead txt => simp [XLine.isBlank] at hbx
      | blank ws =>
        exact ⟨ws, by simp [renderLines, XLine.render]⟩
    | cons y tl2 =>
      obtain ⟨front, hf⟩ := ih (by simp)
        (fun z hz => hb z (List.mem_cons_of_mem x hz))
      exact ⟨x.render ++ front, by rw [renderLines_cons, hf, List.append_assoc]⟩

theorem posLineA_none_ws {ρ : Type} (run rest : List Char) (cp : Caps Char)
    (pv : Option Char) (k : Caps Char → Option Char → List Char → Option ρ)
    (hrun : ∀ c ∈ run, charI .ws c = true)
    (hrest : rest = [] ∨ ∃ dh dt, rest = dh :: dt ∧ charI .d09 dh = true) :
    mre charI posLineA cp pv (run ++ rest) k = none := by
  have hstoprest : ∀ (l2 : List Char), l2 = rest →
      (match l2 with
        | [] => True
        | c :: _ => charI .alpha c = false ∧ charI .hashC c = false) := by
    intro l2 hl2
    subst hl2
    rcases hrest with h | ⟨dh, dt, hr, hd⟩
    · subst h; exact trivial
    · subst hr; exact ⟨d09_not_alpha hd, d09_not_hash hd⟩
  have hstop2 : match rest with
      | [] => True
      | c :: _ => charI .ws c = false := by
    rcases hrest with h | ⟨dh, dt, hr, hd⟩
    · subst h; exact trivial
    · subst hr; exact d09_not_ws hd
  unfold posLineA
  rw [mre_seq]
  rw [star_cls_eq charI .ws _ run rest cp pv hrun
    (by cases rest with
      | nil => exact trivial
      | cons c cs => exact hstop2)]
  refine tryFwd_none_of _ cp run pv rest ?_ ?_
  · apply posBody_none
    cases hrr : run ++ rest with
    | nil => exact trivial
    | cons c cs =>
      cases run with
      | nil =>
        simp only [List.nil_append] at hrr
        have := hstoprest (c :: cs) hrr.symm
        simpa using this
      | cons rh rt =>
        simp only [List.cons_append, List.cons.injEq] at hrr
        have hw : charI .ws c = true := hrr.1 ▸ hrun rh (by simp)
        exact ⟨ws_not_alpha hw, ws_not_hash hw⟩
  · intro x b hab
    apply posBody_none
    cases b with
    | nil =>
      have := hstoprest rest rfl
      cases rest with
      | nil => exact trivial
      | cons c cs => simpa using this
    | cons bh bt =>
      obtain ⟨a, ha⟩ := hab
      have hw : charI .ws bh = true := by
        refine hrun bh ?_
        rw [ha]
        simp
      exact ⟨ws_not_alpha hw, ws_not_hash hw⟩

/-- A blank run followed by one coordinate or comment line forms one greedy
`posLineRE` iteration: the leading `\s*` of the first alternative spans the
blank lines and the line's lead, and the iteration ends at the line's
newline. -/
theorem posLine_chunk_line {ρ : Type} (blanks : List XLine)
    (hb : ∀ y ∈ blanks, y.isBlank = true ∧ y.ok = true) (x : XLine)
    (hxok : x.ok = true) (hxnb : x.isBlank = false) (tail : List Char)
    (cp : Caps Char) (pv : Option Char)
    (k : Caps Char → Option Char → List Char → Option ρ) (r : ρ)
    (hk : k cp (some '\n') tail = some r) :
    mre charI posLineRE cp pv (renderLines blanks ++ (x.render ++ tail)) k =
      some r := by
  rw [posLineRE_eq, mre_seq]
  apply alt_left
  cases x with
  | blank ws => simp [XLine.isBlank] at hxnb
  | coord lead sym d1 e1 d2 e2 d3 e3 =>
    simp only [XLine.ok, Bool.and_eq_true] at hxok
    obtain ⟨⟨⟨⟨⟨⟨⟨hlead, hsym⟩, h1⟩, h2⟩, h3⟩, h4⟩, h5⟩, h6⟩ := hxok
    have hrender : renderLines blanks ++ (XLine.render
        (.coord lead sym d1 e1 d2 e2 d3 e3) ++ tail) =
        (renderLines blanks ++ lead) ++
          (coordContent sym d1 e1 d2 e2 d3 e3 ++ '\n' :: tail) := by
      simp [XLine.render, coordContent, List.append_assoc]
    rw [hrender]
    refine posLineA_coord (renderLines blanks ++ lead) sym d1 e1 d2 e2 d3 e3
      tail cp pv _ r ?_ hsym h1 h2 h3 h4 h5 h6 ?_
    · intro c hc
      rcases List.mem_append.mp hc with hc | hc
      · exact blanks_render_ws blanks hb c hc
      · simp only [isSpTabs, List.all_eq_true] at hlead
        exact spTab_ws (by simpa using hlead c hc)
    · show mre charI (.cls .nlc) cp _ ('\n' :: tail) k = some r
      rw [mre_cls_cons charI .nlc _ _ '\n' _ _ (by decide)]
      exact hk
  | hash lead txt =>
    simp only [XLine.ok, Bool.and_eq_true] at hxok
    obtain ⟨hlead, htxt⟩ := hxok
    have hrender : renderLines blanks ++ (XLine.render (.hash lead txt) ++ tail)
        = (renderLines blanks ++ lead) ++ ('#' :: (txt ++ '\n' :: tail)) := by
      simp [XLine.render, List.append_assoc]
    rw [hrender]
    refine posLineA_hash (renderLines blanks ++ lead) txt tail cp pv _ r ?_
      htxt ?_
    · intro c hc
      rcases List.mem_append.mp hc with hc | hc
      · exact blanks_render_ws blanks hb c hc
      · simp only [isSpTabs, List.all_eq_true] at hlead
        exact spTab_ws (by simpa using hlead c hc)
    · show mre charI (.cls .nlc) cp _ ('\n' :: tail) k = some r
      rw [mre_cls_cons charI .nlc _ _ '\n' _ _ (by decide)]
      exact hk

theorem restDigit_blocked (rest : List Char) (h : RestDigit rest) :
    PosLineBlocked rest := by
  intro ρ cp pv k
  have hstopr : match rest with
      | [] => True
      | c :: _ => charI .ws c = false := by
    rcases h with h0 | ⟨dh, dt, hr, hd⟩
    · subst h0; exact trivial
    · subst hr; exact d09_not_ws hd
  have hstopn : match rest with
      | [] => True
      | c :: _ => charI .nlc c = false := by
    rcases h with h0 | ⟨dh, dt, hr, hd⟩
    · subst h0; exact trivial
    · subst hr; exact d09_not_nlc hd
  rw [posLineRE_eq, mre_seq]
  rw [alt_right charI posLineA (.star (.cls .ws)) cp pv rest _
    (posLineA_none_ws [] rest cp pv _ (by intro c hc; cases hc) h)]
  have hst := star_cls_eq charI .ws
    (fun cp2 pv2 l2 => mre charI (.cls .nlc) cp2 pv2 l2 k) [] rest cp pv
    (by intro x hx; cases hx)
    (by cases rest with
      | nil => exact trivial
      | cons c cs => exact hstopr)
  simp only [List.nil_append] at hst
  rw [hst]
  show mre charI (.cls .nlc) cp pv rest k = none
  apply mre_cls_stop
  cases rest with
  | nil => exact trivial
  | cons c cs => exact hstopn

theorem orElse_eq_none {ρ : Type} (a : Option ρ) (f : Unit → Option ρ)
    (h1 : a = none) (h2 : f () = none) : a.orElse f = none := by
  subst h1
  simpa using h2

theorem starLoop_none2 {α ρ : Type} (P : α → Bool)
    (step : Caps α → Option α → List α →
      (Caps α → Option α → List α → Option ρ) → Option ρ)
    (hstep : ∀ cp pv l k, l.all P = true →
      (∀ cp2 pv2 l2, l2.all P = true → k cp2 pv2 l2 = none) →
      step cp pv l k = none) (n : Nat) :
    ∀ cp pv l k, l.all P = true →
      (∀ cp2 pv2 l2, l2.all P = true → k cp2 pv2 l2 = none) →
      starLoop step n cp pv l k = none := by
  induction n with
  | zero =>
    intro cp pv l k hl hk
    refine orElse_eq_none _ _ ?_ (hk cp pv l hl)
    exact hstep cp pv l _ hl (fun _ _ _ _ => rfl)
  | succ n ih =>
    intro cp pv l k hl hk
    refine orElse_eq_none _ _ ?_ (hk cp pv l hl)
    refine hstep cp pv l _ hl ?_
    intro cp2 pv2 l2 hl2
    by_cases hlen : l2.length < l.length
    · simp only [hlen, if_true]
      exact ih cp2 pv2 l2 k hl2 hk
    · simp [hlen]

/-- If the continuation fails on every input whose characters all satisfy
`P`, then so does the whole match on such an input (a match can only hand a
suffix of its input to its continuation). -/
theorem mre_none2 {α ρ : Type} (I : CC → α → Bool) (P : α → Bool) (re : RE) :
    ∀ (cp : Caps α) (pv : Option α) (l : List α)
      (k : Caps α → Option α → List α → Option ρ),
      l.all P = true →
      (∀ cp2 pv2 l2, l2.all P = true → k cp2 pv2 l2 = none) →
      mre I re cp pv l k = none := by
  induction re with
  | cls c =>
    intro cp pv l k hl hk
    cases l with
    | nil => rfl
    | cons x xs =>
      simp only [List.all_cons, Bool.and_eq_true] at hl
      simp only [mre]
      by_cases hc : I c x = true
      · simp only [hc, if_true]
        exact hk cp (some x) xs hl.2
      · simp [hc]
  | seq a b iha ihb =>
    intro cp pv l k hl hk
    simp only [mre]
    refine iha cp pv l _ hl ?_
    intro cp2 pv2 l2 hl2
    exact ihb cp2 pv2 l2 k hl2 hk
  | alt a b iha ihb =>
    intro cp pv l k hl hk
    simp only [mre]
    exact orElse_eq_none _ _ (iha cp pv l k hl hk)
      (ihb cp pv l k hl hk)
  | opt a iha =>
    intro cp pv l k hl hk
    simp only [mre]
    exact orElse_eq_none _ _ (iha cp pv l k hl hk) (hk cp pv l hl)
  | star a iha =>
    intro cp pv l k hl hk
    simp only [mre]
    exact starLoop_none2 P _
      (fun cp2 pv2 l2 k2 hl2 hk2 => iha cp2 pv2 l2 k2 hl2 hk2)
      l.length cp pv l k hl hk
  | bol =>
    intro cp pv l k hl hk
    cases pv with
    | none =>
      simp only [mre, if_true]
      exact hk cp none l hl
    | some c =>
      simp only [mre]
      by_cases hb : I CC.nlc c = true
      · simp only [hb, if_true]
        exact hk cp (some c) l hl
      · simp [hb]
  | grp i a iha =>
    intro cp pv l k hl hk
    simp only [mre]
    refine iha cp pv l _ hl ?_
    intro cp2 pv2 l2 hl2
    exact hk _ pv2 l2 hl2

theorem restDigit_restBlocked (rest : List Char) (h : RestDigit rest) :
    RestBlocked rest := by
  refine ⟨restDigit_blocked rest h, ?_, ?_⟩
  · rcases h with h0 | ⟨dh, dt, hr, hd⟩
    · subst h0; exact trivial
    · subst hr; exact d09_not_ws hd
  · intro ρ run hrun cp pv k
    exact posLineA_none_ws run rest cp pv _ hrun h

theorem nlc_ws {c : Char} (h : charI .nlc c = true) : charI .ws c = true := by
  simp only [charI, charClass, beq_iff_eq] at h
  simp only [charI, charClass]
  rw [h]
  decide

theorem not_ws_not_nlc {c : Char} (h : charI .ws c = false) :
    charI .nlc c = false := by
  cases hn : charI .nlc c with
  | false => rfl
  | true => rw [nlc_ws hn] at h; cases h

/-- A final blank run (followed by the end of the input or a digit-led line)
forms one `posLineRE` iteration: the first alternative cannot reach a symbol
or `#`, and the pure-whitespace alternative backtracks to place `[\n]` on the
run's last newline. -/
theorem posLine_chunk_term {ρ : Type} (blanks : List XLine) (hne : blanks ≠ [])
    (hb : ∀ y ∈ blanks, y.isBlank = true ∧ y.ok = true) (rest : List Char)
    (hrest : RestBlocked rest)
    (cp : Caps Char) (pv : Option Char)
    (k : Caps Char → Option Char → List Char → Option ρ) (r : ρ)
    (hk : k cp (some '\n') rest = some r) :
    mre charI posLineRE cp pv (renderLines blanks ++ rest) k = some r := by
  obtain ⟨hA, hB, hC⟩ := hrest
  have hruns := blanks_render_ws blanks hb
  obtain ⟨front, hfront⟩ := blanks_render_split blanks hne hb
  have hcontfail : ∀ (cp2 : Caps Char) (pv2 : Option Char),
      mre charI (.cls .nlc) cp2 pv2 rest k = none := by
    intro cp2 pv2
    apply mre_cls_stop
    cases rest with
    | nil => exact trivial
    | cons c cs => exact not_ws_not_nlc hB
  have hstopr : match rest with
      | [] => True
      | c :: _ => charI .ws c = false := by
    cases rest with
    | nil => exact trivial
    | cons c cs => exact hB
  rw [posLineRE_eq, mre_seq]
  rw [alt_right charI _ _ cp pv _ _ (hC ρ (renderLines blanks) hruns cp pv k)]
  rw [hfront]
  rw [star_cls_eq charI .ws _ (front ++ ['\n']) rest cp pv
    (fun c hc => hruns c (by rw [hfront]; exact hc))
    (by cases rest with
      | nil => exact trivial
      | cons c cs => exact hstopr)]
  cases front with
  | nil =>
    refine tryFwd_last _ cp r ['\n'] pv rest ?_ ?_
    · intro y b ⟨a, ha⟩
      rcases a with _ | ⟨z, zs⟩
      · simp only [List.nil_append, List.cons.injEq] at ha
        obtain ⟨hy, hbnil⟩ := ha
        subst hy hbnil
        simpa using hcontfail cp (some '\n')
      · simp only [List.cons_append, List.cons.injEq] at ha
        exact absurd ha.2 (by simp)
    · show mre charI (.cls .nlc) cp pv ('\n' :: rest) k = some r
      rw [mre_cls_cons charI .nlc _ _ '\n' _ _ (by decide)]
      exact hk
  | cons f fs =>
    have hsplit : (f :: fs) ++ ['\n'] =
        (f :: fs).dropLast ++ ((f :: fs).getLast (by simp)) :: ['\n'] := by
      conv_lhs => rw [← List.dropLast_append_getLast (l := f :: fs) (by simp)]
      simp [List.append_assoc]
    rw [hsplit]
    refine tryFwd_break _ cp r _ _ ['\n'] pv rest ?_ ?_
    · intro y b ⟨a, ha⟩
      rcases a with _ | ⟨z, zs⟩
      · simp only [List.nil_append, List.cons.injEq] at ha
        obtain ⟨hy, hbnil⟩ := ha
        subst hy hbnil
        simpa using hcontfail cp (some '\n')
      · simp only [List.cons_append, List.cons.injEq] at ha
        exact absurd ha.2 (by simp)
    · show mre charI (.cls .nlc) cp _ ('\n' :: rest) k = some r
      rw [mre_cls_cons charI .nlc _ _ '\n' _ _ (by decide)]
      exact hk

theorem render_ne_nil (x : XLine) : x.render ≠ [] := by
  cases x <;> simp [XLine.render]

theorem renderLines_ne_nil (ls : List XLine) (hne : ls ≠ []) :
    renderLines ls ≠ [] := by
  cases ls with
  | nil => cases hne rfl
  | cons x tl =>
    rw [renderLines_cons]
    intro h
    exact render_ne_nil x (List.append_eq_nil.mp h).1

/-- The head of a nonempty `dropWhile` residue falsifies the predicate. -/
theorem dropWhile_head_false (p : XLine → Bool) :
    ∀ (l : List XLine) (x : XLine) (xs : List XLine),
      l.dropWhile p = x :: xs → p x = false := by
  intro l
  induction l with
  | nil => intro x xs h; cases h
  | cons y ys ih =>
    intro x xs h
    cases hy : p y with
    | true =>
      rw [List.dropWhile_cons_of_pos hy] at h
      exact ih x xs h
    | false =>
      rw [List.dropWhile_cons_of_neg (by simp [hy])] at h
      cases h
      exact hy

theorem starLoop_succ_step {α ρ : Type}
    (step : Caps α → Option α → List α →
      (Caps α → Option α → List α → Option ρ) → Option ρ)
    (n : Nat) (cp : Caps α) (pv : Option α) (l : List α)
    (k : Caps α → Option α → List α → Option ρ) (r : ρ)
    (h : step cp pv l (fun cp2 pv2 l2 =>
      if l2.length < l.length then starLoop step n cp2 pv2 l2 k
      else none) = some r) :
    starLoop step (n + 1) cp pv l k = some r := by
  simp only [starLoop, h, some_orElse]

/-- The greedy `(…)+` loop over position lines consumes a rendered block
chunk by chunk and hands the remainder to the continuation, with the block's
final newline as previous character. -/
theorem posStar_aux {ρ : Type} :
    ∀ (n : Nat) (ls : List XLine) (rest : List Char),
      (renderLines ls ++ rest).length ≤ n →
      linesOk ls = true → RestBlocked rest →
      ∀ (cp : Caps Char) (k : Caps Char → Option Char → List Char → Option ρ)
        (r : ρ), k cp (some '\n') rest = some r →
      starLoop (fun cp2 pv2 l2 k2 => mre charI posLineRE cp2 pv2 l2 k2) n cp
        (some '\n') (renderLines ls ++ rest) k = some r := by
  intro n
  induction n with
  | zero =>
    intro ls rest hn hok hrest cp k r hk
    have hnil : renderLines ls ++ rest = [] :=
      List.eq_nil_of_length_eq_zero (Nat.le_zero.mp hn)
    obtain ⟨h1, h2⟩ := List.append_eq_nil.mp hnil
    rw [hnil]
    have hb := restDigit_blocked [] (Or.inl rfl) ρ cp (some '\n')
      (fun _ _ _ => none)
    simp only [starLoop, hb, none_orElse]
    exact h2 ▸ hk
  | succ m ih =>
    intro ls rest hn hok hrest cp k r hk
    cases ls with
    | nil =>
      simp only [renderLines_nil, List.nil_append] at hn hk ⊢
      simp only [starLoop]
      rw [hrest.1 ρ cp (some '\n')]
      simp only [none_orElse]
      exact hk
    | cons z zs =>
      have hok2 : ∀ y ∈ z :: zs, XLine.ok y = true := by
        simp only [linesOk, List.all_eq_true] at hok
        exact hok
      have hblmem : ∀ y ∈ (z :: zs).takeWhile XLine.isBlank,
          XLine.isBlank y = true :=
        fun y hy => List.mem_takeWhile_imp hy
      cases hdw : (z :: zs).dropWhile XLine.isBlank with
      | nil =>
        have hall : ∀ y ∈ z :: zs, XLine.isBlank y = true :=
          List.dropWhile_eq_nil_iff.mp hdw
        have hb2 : ∀ y ∈ z :: zs, y.isBlank = true ∧ y.ok = true :=
          fun y hy => ⟨hall y hy, hok2 y hy⟩
        have hrlen : 0 < (renderLines (z :: zs)).length :=
          List.length_pos.mpr (renderLines_ne_nil (z :: zs) (by simp))
        have hlt : rest.length < (renderLines (z :: zs) ++ rest).length := by
          simp only [List.length_append]; omega
        have hrec : starLoop
            (fun cp2 pv2 l2 k2 => mre charI posLineRE cp2 pv2 l2 k2) m cp
            (some '\n') rest k = some r := by
          have hm : (renderLines ([] : List XLine) ++ rest).length ≤ m := by
            simp only [renderLines_nil, List.nil_append]
            simp only [List.length_append] at hn
            omega
          have := ih [] rest hm (by rfl) hrest cp k r hk
          simpa [renderLines_nil] using this
        refine starLoop_succ_step _ m cp (some '\n') _ k r ?_
        exact posLine_chunk_term (z :: zs) (by simp) hb2 rest hrest cp
          (some '\n') _ r
          (by
            show (if rest.length < (renderLines (z :: zs) ++ rest).length then
                starLoop
                  (fun cp2 pv2 l2 k2 => mre charI posLineRE cp2 pv2 l2 k2) m
                  cp (some '\n') rest k
              else none) = some r
            rw [if_pos hlt]
            exact hrec)
      | cons x ls2 =>
        have hxnb : XLine.isBlank x = false := dropWhile_head_false _ _ x ls2 hdw
        have hsplit : z :: zs = (z :: zs).takeWhile XLine.isBlank ++ x :: ls2 := by
          have h0 := List.takeWhile_append_dropWhile
            (p := XLine.isBlank) (l := z :: zs)
          rw [hdw] at h0
          exact h0.symm
        have hb2 : ∀ y ∈ (z :: zs).takeWhile XLine.isBlank,
            y.isBlank = true ∧ y.ok = true := by
          intro y hy
          refine ⟨hblmem y hy, hok2 y ?_⟩
          rw [hsplit]
          exact List.mem_append_left _ hy
        have hxok : XLine.ok x = true := by
          refine hok2 x ?_
          rw [hsplit]
          exact List.mem_append_right _ (by simp)
        have hok3 : linesOk ls2 = true := by
          simp only [linesOk, List.all_eq_true]
          intro y hy
          refine hok2 y ?_
          rw [hsplit]
          exact List.mem_append_right _ (by simp [hy])
        have hrender : renderLines (z :: zs) ++ rest =
            renderLines ((z :: zs).takeWhile XLine.isBlank) ++
              (x.render ++ (renderLines ls2 ++ rest)) := by
          conv_lhs => rw [hsplit]
          rw [renderLines_append, renderLines_cons]
          simp [List.append_assoc]
        have hxlen : 0 < x.render.length :=
          List.length_pos.mpr (render_ne_nil x)
        have hlt2 : (renderLines ls2 ++ rest).length <
            (renderLines ((z :: zs).takeWhile XLine.isBlank) ++
              (x.render ++ (renderLines ls2 ++ rest))).length := by
          simp only [List.length_append]; omega
        have hm2 : (renderLines ls2 ++ rest).length ≤ m := by
          rw [hrender] at hn
          simp only [List.length_append] at hn ⊢
          omega
        have hrec := ih ls2 rest
          (by simpa using hm2) hok3 hrest cp k r hk
        refine starLoop_succ_step _ m cp (some '\n') _ k r ?_
        rw [hrender]
        exact posLine_chunk_line ((z :: zs).takeWhile XLine.isBlank) hb2 x
          hxok hxnb (renderLines ls2 ++ rest) cp (some '\n') _ r
          (by
            show (if (renderLines ls2 ++ rest).length <
                (renderLines ((z :: zs).takeWhile XLine.isBlank) ++
                  (x.render ++ (renderLines ls2 ++ rest))).length then
                starLoop
                  (fun cp2 pv2 l2 k2 => mre charI posLineRE cp2 pv2 l2 k2) m
                  cp (some '\n') (renderLines ls2 ++ rest) k
              else none) = some r
            rw [if_pos hlt2]
            exact hrec)

theorem mre_star_eq {α ρ : Type} (I : CC → α → Bool) (a : RE) (cp : Caps α)
    (pv : Option α) (l : List α) (k : Caps α → Option α → List α → Option ρ) :
    mre I (.star a) cp pv l k =
      starLoop (fun cp2 pv2 l2 k2 => mre I a cp2 pv2 l2 k2) l.length cp pv l
        k := rfl

/-- The whole positions block `(…)+` of the frame pattern: a nonempty
rendered block is consumed in full and the continuation resumes at `rest`
right after the block's final newline. -/
theorem posBlock_full {ρ : Type} (ls : List XLine) (hne : ls ≠ [])
    (hok : linesOk ls = true) (rest : List Char) (hrest : RestBlocked rest)
    (cp : Caps Char) (pv : Option Char)
    (k : Caps Char → Option Char → List Char → Option ρ) (r : ρ)
    (hk : k cp (some '\n') rest = some r) :
    mre charI (plus posLineRE) cp pv (renderLines ls ++ rest) k = some r := by
  unfold plus
  rw [mre_seq]
  cases ls with
  | nil => cases hne rfl
  | cons z zs =>
    have hok2 : ∀ y ∈ z :: zs, XLine.ok y = true := by
      simp only [linesOk, List.all_eq_true] at hok
      exact hok
    have hblmem : ∀ y ∈ (z :: zs).takeWhile XLine.isBlank,
        XLine.isBlank y = true :=
      fun y hy => List.mem_takeWhile_imp hy
    cases hdw : (z :: zs).dropWhile XLine.isBlank with
    | nil =>
      have hall : ∀ y ∈ z :: zs, XLine.isBlank y = true :=
        List.dropWhile_eq_nil_iff.mp hdw
      have hb2 : ∀ y ∈ z :: zs, y.isBlank = true ∧ y.ok = true :=
        fun y hy => ⟨hall y hy, hok2 y hy⟩
      refine posLine_chunk_term (z :: zs) (by simp) hb2 rest hrest cp pv _ r ?_
      show mre charI (.star posLineRE) cp (some '\n') rest k = some r
      rw [mre_star_eq]
      have := posStar_aux rest.length [] rest
        (by simp [renderLines_nil]) (by rfl) hrest cp k r hk
      simpa [renderLines_nil] using this
    | cons x ls2 =>
      have hxnb : XLine.isBlank x = false := dropWhile_head_false _ _ x ls2 hdw
      have hsplit : z :: zs = (z :: zs).takeWhile XLine.isBlank ++ x :: ls2 := by
        have h0 := List.takeWhile_append_dropWhile
          (p := XLine.isBlank) (l := z :: zs)
        rw [hdw] at h0
        exact h0.symm
      have hb2 : ∀ y ∈ (z :: zs).takeWhile XLine.isBlank,
          y.isBlank = true ∧ y.ok = true := by
        intro y hy
        refine ⟨hblmem y hy, hok2 y ?_⟩
        rw [hsplit]
        exact List.mem_append_left _ hy
      have hxok : XLine.ok x = true := by
        refine hok2 x ?_
        rw [hsplit]
        exact List.mem_append_right _ (by simp)
      have hok3 : linesOk ls2 = true := by
        simp only [linesOk, List.all_eq_true]
        intro y hy
        refine hok2 y ?_
        rw [hsplit]
        exact List.mem_append_right _ (by simp [hy])
      have hrender : renderLines (z :: zs) ++ rest =
          renderLines ((z :: zs).takeWhile XLine.isBlank) ++
            (x.render ++ (renderLines ls2 ++ rest)) := by
        conv_lhs => rw [hsplit]
        rw [renderLines_append, renderLines_cons]
        simp [List.append_assoc]
      rw [hrender]
      refine posLine_chunk_line ((z :: zs).takeWhile XLine.isBlank) hb2 x
        hxok hxnb (renderLines ls2 ++ rest) cp pv _ r ?_
      show mre charI (.star posLineRE) cp (some '\n')
        (renderLines ls2 ++ rest) k = some r
      rw [mre_star_eq]
      exact posStar_aux (renderLines ls2 ++ rest).length ls2 rest le_rfl hok3
        hrest cp k r hk

theorem spTab_not_alpha {c : Char} (h : charI .spTab c = true) :
    charI .alpha c = false := by
  cases ha : charI .alpha c with
  | false => rfl
  | true => rw [alpha_not_spTab ha] at h; cases h

theorem spTab_not_nlc {c : Char} (h : charI .spTab c = true) :
    charI .nlc c = false := by
  simp only [charI, charClass, Bool.or_eq_true, beq_iff_eq] at h
  simp only [charI, charClass]
  apply Bool.eq_false_iff.mpr
  simp only [ne_eq, beq_iff_eq]
  omega

/-- The scan result does not depend on the fuel once it exceeds the input
length (every step drops at least one character or ends the scan). -/
theorem fIter_fuel_eq {α : Type} (I : CC → α → Bool) (re : RE) :
    ∀ (L : Nat) (l : List α), l.length ≤ L → ∀ (n m : Nat) (pv : Option α),
      l.length < n → l.length < m →
      fIter I re n pv l = fIter I re m pv l := by
  intro L
  induction L with
  | zero =>
    intro l hl n m pv hn hm
    have hnil : l = [] := List.eq_nil_of_length_eq_zero (Nat.le_zero.mp hl)
    subst hnil
    cases n with
    | zero => simp at hn
    | succ n2 =>
      cases m with
      | zero => simp at hm
      | succ m2 =>
        cases htm : tryMatch I re pv [] with
        | none => simp [fIter, htm]
        | some t =>
          obtain ⟨cp, pv2, l2⟩ := t
          simp [fIter, htm]
  | succ L ihL =>
    intro l hl n m pv hn hm
    cases n with
    | zero => simp at hn
    | succ n2 =>
      cases m with
      | zero => simp at hm
      | succ m2 =>
        cases htm : tryMatch I re pv l with
        | none =>
          cases l with
          | nil => simp [fIter, htm]
          | cons x xs =>
            simp only [fIter, htm]
            exact ihL xs (by simp at hl; omega) n2 m2 (some x)
              (by simp at hn; omega) (by simp at hm; omega)
        | some t =>
          obtain ⟨cp, pv2, l2⟩ := t
          by_cases hlt : l2.length < l.length
          · simp only [fIter, htm, hlt, if_true]
            rw [ihL l2 (by omega) n2 m2 pv2 (by omega) (by omega)]
          · simp only [fIter, htm, hlt, if_false]
            cases l with
            | nil => rfl
            | cons x xs =>
              show cp :: fIter I re n2 (some x) xs =
                cp :: fIter I re m2 (some x) xs
              rw [ihL xs (by simp at hl; omega) n2 m2 (some x)
                (by simp at hn; omega) (by simp at hm; omega)]

/-- No position-line match can start in the middle of a line: the `^` anchor
fails whenever the previous character is not a newline. -/
theorem posMatch_none_mid (c : Char) (hc : charI .nlc c = false)
    (l : List Char) :
    tryMatch charI POS_MATCH_REGEX (some c) l = none := by
  unfold tryMatch POS_MATCH_REGEX
  rw [mre_seq]
  exact mre_bol_mid charI [] c l _ hc

theorem spTab_sym_none {ρ : Type} (b : RE) (run rest : List Char)
    (cp : Caps Char) (pv : Option Char)
    (k : Caps Char → Option Char → List Char → Option ρ)
    (hrun : ∀ x ∈ run, charI .spTab x = true)
    (hstop : match rest with
      | [] => True
      | c :: _ => charI .alpha c = false ∧ charI .spTab c = false) :
    mre charI (.seq (.star (.cls .spTab)) (.seq (.grp 0 symRE) b)) cp pv
      (run ++ rest) k = none := by
  rw [mre_seq]
  rw [star_cls_eq charI .spTab _ run rest cp pv hrun
    (by cases rest with
      | nil => exact trivial
      | cons c cs => exact hstop.2)]
  refine tryFwd_none_of _ cp run pv rest ?_ ?_
  · show mre charI (.seq (.grp 0 symRE) b) cp pv (run ++ rest) k = none
    rw [mre_seq, mre_grp]
    apply symRE_none_head
    cases hrr : run ++ rest with
    | nil => exact trivial
    | cons c cs =>
      cases run with
      | nil =>
        simp only [List.nil_append] at hrr
        rw [hrr] at hstop
        exact hstop.1
      | cons rh rt =>
        simp only [List.cons_append, List.cons.injEq] at hrr
        exact spTab_not_alpha (hrr.1 ▸ hrun rh (by simp))
  · intro x b2 hab
    show mre charI (.seq (.grp 0 symRE) b) cp (some x) (b2 ++ rest) k = none
    rw [mre_seq, mre_grp]
    apply symRE_none_head
    cases b2 with
    | nil =>
      cases rest with
      | nil => exact trivial
      | cons c cs => exact hstop.1
    | cons bh bt =>
      obtain ⟨a, ha⟩ := hab
      exact spTab_not_alpha (hrun bh (by rw [ha]; simp))

/-- The position-line pattern fails at a line start whose first
non-space-or-tab character is not a letter. -/
theorem posMatch_none_linestart (run rest : List Char) (pv : Option Char)
    (hrun : ∀ x ∈ run, charI .spTab x = true)
    (hstop : match rest with
      | [] => True
      | c :: _ => charI .alpha c = false ∧ charI .spTab c = false) :
    tryMatch charI POS_MATCH_REGEX pv (run ++ rest) = none := by
  unfold tryMatch POS_MATCH_REGEX
  rw [mre_seq]
  cases pv with
  | none =>
    rw [mre_bol_start]
    exact spTab_sym_none _ run rest [] none _ hrun hstop
  | some c =>
    cases hc : charI .nlc c with
    | false => exact mre_bol_mid charI [] c _ _ hc
    | true =>
      rw [mre_bol_nl charI [] c _ _ hc]
      exact spTab_sym_none _ run rest [] (some c) _ hrun hstop

/-- Walking over the interior of a line on which no match can start: every
attempt fails on the `^` anchor until the newline is crossed. -/
theorem fIter_mid_run :
    ∀ (run : List Char), (∀ c ∈ run, charI .nlc c = false) →
    ∀ (suffix : List Char) (c0 : Char), charI .nlc c0 = false →
    ∀ (n : Nat), (run ++ '\n' :: suffix).length < n →
      fIter charI POS_MATCH_REGEX n (some c0) (run ++ '\n' :: suffix) =
        fIter charI POS_MATCH_REGEX (suffix.length + 1) (some '\n') suffix := by
  intro run
  induction run with
  | nil =>
    intro hrun suffix c0 hc0 n hn
    cases n with
    | zero => simp at hn
    | succ n2 =>
      have htm := posMatch_none_mid c0 hc0 ('\n' :: suffix)
      simp only [List.nil_append, fIter, htm]
      exact fIter_fuel_eq charI POS_MATCH_REGEX suffix.length suffix le_rfl n2
        (suffix.length + 1) (some '\n') (by simp at hn; omega) (by omega)
  | cons d ds ih =>
    intro hrun suffix c0 hc0 n hn
    cases n with
    | zero => simp at hn
    | succ n2 =>
      have htm := posMatch_none_mid c0 hc0 (d :: (ds ++ '\n' :: suffix))
      simp only [List.cons_append, fIter, htm]
      exact ih (fun c hc => hrun c (by simp [hc])) suffix d
        (hrun d (by simp)) n2 (by simp at hn ⊢; omega)

theorem take_prefix_len {α : Type} (a b : List α) :
    (a ++ b).take ((a ++ b).length - b.length) = a := by
  have h : (a ++ b).length - b.length = a.length := by
    simp [List.length_append]
  rw [h]
  exact List.take_left a b

/-- A capture group around the symbol pattern records exactly the symbol. -/
theorem grp_symRE_full {ρ : Type} (i : Nat) (s rest : List Char)
    (cp : Caps Char) (pv : Option Char)
    (k : Caps Char → Option Char → List Char → Option ρ) (r : ρ)
    (hs : isAlphas s = true)
    (hstop : match rest with | [] => True | c :: _ => charI .alnum c = false)
    (hk : k ((i, s) :: cp) (lastPv pv s) rest = some r) :
    mre charI (.grp i symRE) cp pv (s ++ rest) k = some r := by
  rw [mre_grp]
  refine symRE_full s rest cp pv _ r hs
    (by cases rest with
      | nil => exact trivial
      | cons c cs => exact hstop) ?_
  show k ((i, (s ++ rest).take ((s ++ rest).length - rest.length)) :: cp)
    (lastPv pv s) rest = some r
  rw [take_prefix_len s rest]
  exact hk

/-- A capture group around one coordinate token of the position pattern on a
tab-separated decimal records exactly `d.e`. -/
theorem grp_coordRE_tab {ρ : Type} (i : Nat) (d e rest2 : List Char)
    (cp : Caps Char) (pv : Option Char)
    (k : Caps Char → Option Char → List Char → Option ρ) (r : ρ)
    (hd : isDigits d = true) (he : isDigits e = true)
    (hstop : match rest2 with
      | [] => True
      | c :: _ => charI .dig c = false ∧ charI .expC c = false)
    (hk : k ((i, d ++ '.' :: e) :: cp) (lastPv (some '.') e) rest2 = some r) :
    mre charI (.grp i coordRE) cp pv (d ++ '.' :: (e ++ rest2)) k = some r := by
  rw [mre_grp]
  refine coordRE_tab d e rest2 cp pv _ r hd he
    (by cases rest2 with
      | nil => exact trivial
      | cons c cs => exact hstop) ?_
  show k ((i, (d ++ '.' :: (e ++ rest2)).take
      ((d ++ '.' :: (e ++ rest2)).length - rest2.length)) :: cp)
    (lastPv (some '.') e) rest2 = some r
  have hsh : d ++ '.' :: (e ++ rest2) = (d ++ '.' :: e) ++ rest2 := by
    simp
  rw [hsh, take_prefix_len (d ++ '.' :: e) rest2]
  exact hk

/-- The one position-line match at the start of a coordinate line of the
family: leading space, captured symbol, and the three tab-separated captured
decimals, consuming everything up to (not including) the newline. -/
theorem posMatch_coord (lead sym d1 e1 d2 e2 d3 e3 tail : List Char)
    (pv : Option Char) (hpv : pv = none ∨ pv = some '\n')
    (hlead : isSpTabs lead = true) (hsym : isAlphas sym = true)
    (h1 : isDigits d1 = true) (h2 : isDigits e1 = true)
    (h3 : isDigits d2 = true) (h4 : isDigits e2 = true)
    (h5 : isDigits d3 = true) (h6 : isDigits e3 = true) :
    tryMatch charI POS_MATCH_REGEX pv
      (lead ++ (coordContent sym d1 e1 d2 e2 d3 e3 ++ '\n' :: tail)) =
      some (coordCaps sym d1 e1 d2 e2 d3 e3, lastPv (some '.') e3,
        '\n' :: tail) := by
  unfold tryMatch POS_MATCH_REGEX
  rw [mre_seq]
  have hbody : mre charI (.seq (.star (.cls .spTab))
      (.seq (.grp 0 symRE) (.seq (plus (.cls .ws))
        (.seq (.grp 1 coordRE) (.seq (plus (.cls .spTab))
          (.seq (.grp 2 coordRE) (.seq (plus (.cls .spTab))
            (.grp 3 coordRE)))))))) [] pv
      (lead ++ (coordContent sym d1 e1 d2 e2 d3 e3 ++ '\n' :: tail))
      (fun cp pv2 l2 => some (cp, pv2, l2)) =
      some (coordCaps sym d1 e1 d2 e2 d3 e3, lastPv (some '.') e3,
        '\n' :: tail) := by
    rw [mre_seq]
    refine star_cls_full charI .spTab [] pv lead
      (coordContent sym d1 e1 d2 e2 d3 e3 ++ '\n' :: tail) _ _
      (by
        simp only [isSpTabs, List.all_eq_true] at hlead
        exact fun x hx => by simpa using hlead x hx)
      (by
        cases sym with
        | nil => simp [isAlphas] at hsym
        | cons sh st =>
          simp only [isAlphas, List.all_cons, Bool.and_eq_true] at hsym
          rw [coordContent_append]
          simp only [List.cons_append]
          exact alpha_not_spTab hsym.2.1) ?_
    rw [coordContent_append]
    rw [mre_seq]
    refine grp_symRE_full 0 sym _ [] (lastPv pv lead) _ _ hsym
      ((by decide : charI CC.alnum '\t' = false)) ?_
    show mre charI (.seq (plus (.cls .ws))
      (.seq (.grp 1 coordRE) (.seq (plus (.cls .spTab))
        (.seq (.grp 2 coordRE) (.seq (plus (.cls .spTab))
          (.grp 3 coordRE)))))) [(0, sym)] (lastPv (lastPv pv lead) sym)
      ('\t' :: (d1 ++ '.' :: (e1 ++ '\t' :: (d2 ++ '.' :: (e2 ++ '\t' ::
        (d3 ++ '.' :: (e3 ++ '\n' :: tail)))))))
      (fun cp pv2 l2 => some (cp, pv2, l2)) = _
    rw [mre_seq]
    rw [plus_cls_one charI .ws [(0, sym)] _ '\t' _ _ (by decide)
      (by
        cases d1 with
        | nil => simp [isDigits] at h1
        | cons c cs =>
          simp only [isDigits, Bool.and_eq_true, List.all_cons] at h1
          simp only [List.cons_append]
          exact d09_not_ws h1.2.1)]
    rw [mre_seq]
    refine grp_coordRE_tab 1 d1 e1 _ [(0, sym)] (some '\t') _ _ h1 h2
      ⟨(by decide : charI CC.dig '\t' = false),
       (by decide : charI CC.expC '\t' = false)⟩ ?_
    show mre charI (.seq (plus (.cls .spTab))
      (.seq (.grp 2 coordRE) (.seq (plus (.cls .spTab)) (.grp 3 coordRE))))
      [(1, d1 ++ '.' :: e1), (0, sym)] (lastPv (some '.') e1)
      ('\t' :: (d2 ++ '.' :: (e2 ++ '\t' :: (d3 ++ '.' ::
        (e3 ++ '\n' :: tail)))))
      (fun cp pv2 l2 => some (cp, pv2, l2)) = _
    rw [mre_seq]
    rw [plus_cls_one charI .spTab _ _ '\t' _ _ (by decide)
      (by
        cases d2 with
        | nil => simp [isDigits] at h3
        | cons c cs =>
          simp only [isDigits, Bool.and_eq_true, List.all_cons] at h3
          simp only [List.cons_append]
          exact d09_not_spTab h3.2.1)]
    rw [mre_seq]
    refine grp_coordRE_tab 2 d2 e2 _ _ (some '\t') _ _ h3 h4
      ⟨(by decide : charI CC.dig '\t' = false),
       (by decide : charI CC.expC '\t' = false)⟩ ?_
    show mre charI (.seq (plus (.cls .spTab)) (.grp 3 coordRE))
      [(2, d2 ++ '.' :: e2), (1, d1 ++ '.' :: e1), (0, sym)]
      (lastPv (some '.') e2)
      ('\t' :: (d3 ++ '.' :: (e3 ++ '\n' :: tail)))
      (fun cp pv2 l2 => some (cp, pv2, l2)) = _
    rw [mre_seq]
    rw [plus_cls_one charI .spTab _ _ '\t' _ _ (by decide)
      (by
        cases d3 with
        | nil => simp [isDigits] at h5
        | cons c cs =>
          simp only [isDigits, Bool.and_eq_true, List.all_cons] at h5
          simp only [List.cons_append]
          exact d09_not_spTab h5.2.1)]
    refine grp_coordRE_tab 3 d3 e3 ('\n' :: tail) _ (some '\t') _ _ h5 h6
      ⟨(by decide : charI CC.dig '\n' = false),
       (by decide : charI CC.expC '\n' = false)⟩ ?_
    rfl
  rcases hpv with h0 | h0
  · subst h0
    rw [mre_bol_start]
    exact hbody
  · subst h0
    rw [mre_bol_nl charI [] '\n' _ _ (by decide)]
    exact hbody

theorem lastPv_snoc {α : Type} (pv : Option α) (a : List α) (c : α) :
    lastPv pv (a ++ [c]) = some c := by
  induction a generalizing pv with
  | nil => rfl
  | cons y ys ih => simp only [List.cons_append, lastPv]; exact ih (some y)

/-- A blank or comment line of the family contributes no position-line match:
the whole line is walked over character by character. -/
theorem fIter_skip_line (x : XLine) (hok : x.ok = true)
    (hnc : x.isCoord = false) (suffix : List Char) (pv : Option Char)
    (hpv : pv = none ∨ pv = some '\n') (n : Nat)
    (hn : (x.render ++ suffix).length < n) :
    fIter charI POS_MATCH_REGEX n pv (x.render ++ suffix) =
      fIter charI POS_MATCH_REGEX (suffix.length + 1) (some '\n') suffix := by
  cases x with
  | coord lead sym d1 e1 d2 e2 d3 e3 => simp [XLine.isCoord] at hnc
  | blank ws =>
    simp only [XLine.ok] at hok
    have hws : ∀ c ∈ ws, charI .spTab c = true := by
      simp only [isSpTabs, List.all_eq_true] at hok
      exact fun c hc => by simpa using hok c hc
    have hshape : XLine.render (.blank ws) ++ suffix = ws ++ '\n' :: suffix := by
      simp [XLine.render]
    rw [hshape] at hn ⊢
    cases n with
    | zero => simp at hn
    | succ n2 =>
      have htm : tryMatch charI POS_MATCH_REGEX pv (ws ++ '\n' :: suffix) =
          none :=
        posMatch_none_linestart ws ('\n' :: suffix) pv hws
          ⟨by decide, by decide⟩
      cases ws with
      | nil =>
        simp only [List.nil_append] at htm ⊢
        simp only [fIter, htm]
        exact fIter_fuel_eq charI POS_MATCH_REGEX suffix.length suffix le_rfl
          n2 (suffix.length + 1) (some '\n') (by simp at hn; omega) (by omega)
      | cons w wt =>
        simp only [List.cons_append] at htm ⊢
        simp only [fIter, htm]
        exact fIter_mid_run wt
          (fun c hc => spTab_not_nlc (hws c (by simp [hc]))) suffix w
          (spTab_not_nlc (hws w (by simp))) n2 (by simp at hn ⊢; omega)
  | hash lead txt =>
    simp only [XLine.ok, Bool.and_eq_true] at hok
    obtain ⟨hlead, htxt⟩ := hok
    have hld : ∀ c ∈ lead, charI .spTab c = true := by
      simp only [isSpTabs, List.all_eq_true] at hlead
      exact fun c hc => by simpa using hlead c hc
    have htx : ∀ c ∈ txt, charI .nlc c = false := by
      simp only [noNl, List.all_eq_true] at htxt
      intro c hc
      simpa using htxt c hc
    have hshape : XLine.render (.hash lead txt) ++ suffix =
        lead ++ '#' :: (txt ++ '\n' :: suffix) := by
      simp [XLine.render]
    rw [hshape] at hn ⊢
    cases n with
    | zero => simp at hn
    | succ n2 =>
      have htm : tryMatch charI POS_MATCH_REGEX pv
          (lead ++ '#' :: (txt ++ '\n' :: suffix)) = none :=
        posMatch_none_linestart lead ('#' :: (txt ++ '\n' :: suffix)) pv hld
          ⟨by decide, by decide⟩
      cases lead with
      | nil =>
        simp only [List.nil_append] at htm ⊢
        simp only [fIter, htm]
        exact fIter_mid_run txt htx suffix '#' (by decide) n2
          (by simp at hn ⊢; omega)
      | cons w wt =>
        simp only [List.cons_append] at htm ⊢
        simp only [fIter, htm]
        have hsh2 : wt ++ '#' :: (txt ++ '\n' :: suffix) =
            (wt ++ '#' :: txt) ++ '\n' :: suffix := by simp
        rw [hsh2]
        refine fIter_mid_run (wt ++ '#' :: txt) ?_ suffix w
          (spTab_not_nlc (hld w (by simp))) n2 ?_
        · intro c hc
          rcases List.mem_append.mp hc with hc | hc
          · exact spTab_not_nlc (hld c (by simp [hc]))
          · rcases List.mem_cons.mp hc with hc | hc
            · subst hc; decide
            · exact htx c hc
        · simp at hn ⊢; omega

/-- A coordinate line of the family contributes exactly one position-line
match, with its captures, and the scan resumes right after its newline. -/
theorem fIter_coord_line (lead sym d1 e1 d2 e2 d3 e3 : List Char)
    (hok : XLine.ok (.coord lead sym d1 e1 d2 e2 d3 e3) = true)
    (suffix : List Char) (pv : Option Char)
    (hpv : pv = none ∨ pv = some '\n') (n : Nat)
    (hn : (XLine.render (.coord lead sym d1 e1 d2 e2 d3 e3) ++
      suffix).length < n) :
    fIter charI POS_MATCH_REGEX n pv
      (XLine.render (.coord lead sym d1 e1 d2 e2 d3 e3) ++ suffix) =
      coordCaps sym d1 e1 d2 e2 d3 e3 ::
        fIter charI POS_MATCH_REGEX (suffix.length + 1) (some '\n')
          suffix := by
  simp only [XLine.ok, Bool.and_eq_true] at hok
  obtain ⟨⟨⟨⟨⟨⟨⟨hlead, hsym⟩, h1⟩, h2⟩, h3⟩, h4⟩, h5⟩, h6⟩ := hok
  have hshape : XLine.render (.coord lead sym d1 e1 d2 e2 d3 e3) ++ suffix =
      lead ++ (coordContent sym d1 e1 d2 e2 d3 e3 ++ '\n' :: suffix) := by
    simp [XLine.render, coordContent]
  rw [hshape] at hn ⊢
  cases n with
  | zero => simp at hn
  | succ n2 =>
    have htm := posMatch_coord lead sym d1 e1 d2 e2 d3 e3 suffix pv hpv hlead
      hsym h1 h2 h3 h4 h5 h6
    have hclen : 0 < (coordContent sym d1 e1 d2 e2 d3 e3).length := by
      simp [coordContent]
    have hlt : ('\n' :: suffix).length <
        (lead ++ (coordContent sym d1 e1 d2 e2 d3 e3 ++
          '\n' :: suffix)).length := by
      simp only [List.length_append, List.length_cons]
      omega
    simp only [fIter, htm]
    rw [if_pos hlt]
    obtain ⟨e0, elast, he3⟩ : ∃ e0 elast, e3 = e0 ++ [elast] := by
      rcases List.eq_nil_or_concat e3 with h | ⟨e0, elast, h⟩
      · rw [h] at h6; simp [isDigits] at h6
      · exact ⟨e0, elast, by simpa [List.concat_eq_append] using h⟩
    have hlast : lastPv (some '.') e3 = some elast := by
      rw [he3]; exact lastPv_snoc _ _ _
    rw [hlast]
    have helast : charI .nlc elast = false := by
      have hmem : elast ∈ e3 := by rw [he3]; simp
      have hd : charI .d09 elast = true := by
        simp only [isDigits, Bool.and_eq_true, List.all_eq_true] at h6
        simpa using h6.2 elast hmem
      exact d09_not_nlc hd
    congr 1
    have := fIter_mid_run [] (by intro c hc; cases hc) suffix elast helast n2
      (by simp only [List.length_append, List.length_cons,
            List.nil_append] at hn ⊢
          omega)
    simpa using this

/-- The full position scan of a rendered block: one capture set per
coordinate line, in order; blank and comment lines contribute nothing. -/
theorem fIter_lines :
    ∀ (ls : List XLine), linesOk ls = true →
    ∀ (pv : Option Char), (pv = none ∨ pv = some '\n') →
    ∀ (n : Nat), (renderLines ls).length < n →
    fIter charI POS_MATCH_REGEX n pv (renderLines ls) = capsOfLines ls := by
  intro ls
  induction ls with
  | nil =>
    intro hok pv hpv n hn
    simp only [renderLines_nil] at hn ⊢
    cases n with
    | zero => simp at hn
    | succ n2 =>
      have htm : tryMatch charI POS_MATCH_REGEX pv [] = none := by
        have := posMatch_none_linestart [] [] pv (by intro y hy; cases hy)
          trivial
        simpa using this
      simp [capsOfLines, fIter, htm]
  | cons x tl ih =>
    intro hok pv hpv n hn
    have hokx : x.ok = true := by
      simp only [linesOk, List.all_cons, Bool.and_eq_true] at hok
      exact hok.1
    have hoktl : linesOk tl = true := by
      simp only [linesOk, List.all_cons, Bool.and_eq_true] at hok
      exact hok.2
    rw [renderLines_cons] at hn ⊢
    cases x with
    | coord lead sym d1 e1 d2 e2 d3 e3 =>
      rw [fIter_coord_line lead sym d1 e1 d2 e2 d3 e3 hokx (renderLines tl)
        pv hpv n hn]
      rw [ih hoktl (some '\n') (Or.inr rfl) ((renderLines tl).length + 1)
        (by omega)]
      rfl
    | blank ws =>
      rw [fIter_skip_line (.blank ws) hokx (by rfl) (renderLines tl) pv hpv n
        hn]
      rw [ih hoktl (some '\n') (Or.inr rfl) ((renderLines tl).length + 1)
        (by omega)]
      rfl
    | hash lead txt =>
      rw [fIter_skip_line (.hash lead txt) hokx (by rfl) (renderLines tl) pv
        hpv n hn]
      rw [ih hoktl (some '\n') (Or.inr rfl) ((renderLines tl).length + 1)
        (by omega)]
      rfl

theorem capsOfLines_toks (ls : List XLine) :
    (capsOfLines ls).map (fun cp =>
      (⟨(capsGet cp 0).getD [], (capsGet cp 1).getD [],
        (capsGet cp 2).getD [], (capsGet cp 3).getD []⟩ : PosTok Char)) =
      toksOfLines ls := by
  induction ls with
  | nil => rfl
  | cons x tl ih =>
    cases x with
    | coord lead sym d1 e1 d2 e2 d3 e3 =>
      have hc : capsOfLines (XLine.coord lead sym d1 e1 d2 e2 d3 e3 :: tl) =
          coordCaps sym d1 e1 d2 e2 d3 e3 :: capsOfLines tl := rfl
      rw [hc, List.map_cons, ih]
      rfl
    | blank ws =>
      have hc : capsOfLines (XLine.blank ws :: tl) = capsOfLines tl := rfl
      rw [hc, ih]
      rfl
    | hash lead txt =>
      have hc : capsOfLines (XLine.hash lead txt :: tl) = capsOfLines tl := rfl
      rw [hc, ih]
      rfl

/-- The position-line matches of a rendered block are exactly its coordinate
lines' tokens, in document order. -/
theorem posToks_lines (ls : List XLine) (hok : linesOk ls = true) :
    posToksOf charI (renderLines ls) = toksOfLines ls := by
  unfold posToksOf findIter
  rw [fIter_lines ls hok none (Or.inl rfl) ((renderLines ls).length + 1)
    (by omega)]
  exact capsOfLines_toks ls

/-- A capture group around the atom-count digits records exactly them. -/
theorem grp_plus_d09 {ρ : Type} (i : Nat) (d rest : List Char)
    (cp : Caps Char) (pv : Option Char)
    (k : Caps Char → Option Char → List Char → Option ρ) (r : ρ)
    (hd : isDigits d = true)
    (hstop : match rest with | [] => True | c :: _ => charI .d09 c = false)
    (hk : k ((i, d) :: cp) (lastPv pv d) rest = some r) :
    mre charI (.grp i (plus (.cls .d09))) cp pv (d ++ rest) k = some r := by
  rw [mre_grp]
  cases d with
  | nil => simp [isDigits] at hd
  | cons dh dt =>
    simp only [isDigits, Bool.and_eq_true, List.all_cons] at hd
    rw [List.cons_append]
    rw [plus_cls_eq charI .d09 _ dh dt rest _ pv hd.2.1
      (fun y hy => (List.all_eq_true.mp hd.2.2) y hy)
      (by cases rest with
        | nil => exact trivial
        | cons c cs => exact hstop)]
    refine tryFwd_full _ _ r dt (some dh) rest ?_
    show k ((i, (dh :: (dt ++ rest)).take
        ((dh :: (dt ++ rest)).length - rest.length)) :: cp)
      (lastPv (some dh) dt) rest = some r
    rw [show dh :: (dt ++ rest) = (dh :: dt) ++ rest from rfl,
      take_prefix_len (dh :: dt) rest]
    simpa [lastPv] using hk

/-- A capture group around the comment pattern `.*` records the whole
newline-free comment. -/
theorem grp_comment {ρ : Type} (i : Nat) (d X : List Char)
    (cp : Caps Char) (pv : Option Char)
    (k : Caps Char → Option Char → List Char → Option ρ) (r : ρ)
    (hd : noNl d = true)
    (hk : k ((i, d) :: cp) (lastPv pv d) ('\n' :: X) = some r) :
    mre charI (.grp i (.star (.cls .dotAny))) cp pv (d ++ '\n' :: X) k =
      some r := by
  rw [mre_grp]
  refine star_cls_full charI .dotAny cp pv d ('\n' :: X) _ r
    (fun c hc => not_nlc_dotAny (by
      simp only [noNl, List.all_eq_true] at hd
      simpa using hd c hc))
    ((by decide : charI CC.dotAny '\n' = false)) ?_
  show k ((i, (d ++ '\n' :: X).take ((d ++ '\n' :: X).length -
      ('\n' :: X).length)) :: cp) (lastPv pv d) ('\n' :: X) = some r
  rw [take_prefix_len d ('\n' :: X)]
  exact hk

/-- A capture group around the block pattern `(…)+` records the whole
rendered block. -/
theorem grp_posBlock {ρ : Type} (i : Nat) (ls : List XLine) (hne : ls ≠ [])
    (hok : linesOk ls = true) (rest : List Char) (hrest : RestBlocked rest)
    (cp : Caps Char) (pv : Option Char)
    (k : Caps Char → Option Char → List Char → Option ρ) (r : ρ)
    (hk : k ((i, renderLines ls) :: cp) (some '\n') rest = some r) :
    mre charI (.grp i (plus posLineRE)) cp pv (renderLines ls ++ rest) k =
      some r := by
  rw [mre_grp]
  refine posBlock_full ls hne hok rest hrest cp pv _ r ?_
  show k ((i, (renderLines ls ++ rest).take
      ((renderLines ls ++ rest).length - rest.length)) :: cp) (some '\n')
    rest = some r
  rw [take_prefix_len (renderLines ls) rest]
  exact hk

/-- One whole-frame match of the family: count line, comment line and a
nonempty rendered positions block, with the three captures, ending right
before `rest`. -/
theorem frameMatch_full (nat com : List Char) (lines : List XLine)
    (rest : List Char) (pv : Option Char) (hpv : pv = none ∨ pv = some '\n')
    (hnat : isDigits nat = true) (hcom : noNl com = true)
    (hlines : linesOk lines = true) (hne : lines ≠ [])
    (hrest : RestBlocked rest) :
    tryMatch charI FRAME_MATCH_REGEX pv
      (nat ++ '\n' :: (com ++ '\n' :: (renderLines lines ++ rest))) =
      some ([(2, renderLines lines), (1, com), (0, nat)], some '\n',
        rest) := by
  unfold tryMatch FRAME_MATCH_REGEX
  rw [mre_seq]
  have hbody : mre charI (.seq (.star (.cls .spTab))
      (.seq (.grp 0 (plus (.cls .d09))) (.seq (.star (.cls .spTab))
        (.seq (.cls .nlc) (.seq (.grp 1 (.star (.cls .dotAny)))
          (.seq (.cls .nlc) (.grp 2 (plus posLineRE)))))))) [] pv
      (nat ++ '\n' :: (com ++ '\n' :: (renderLines lines ++ rest)))
      (fun cp pv2 l2 => some (cp, pv2, l2)) =
      some ([(2, renderLines lines), (1, com), (0, nat)], some '\n',
        rest) := by
    rw [mre_seq]
    rw [star_cls_zero charI .spTab [] pv _ _
      (by cases nat with
        | nil => simp [isDigits] at hnat
        | cons c cs =>
          simp only [isDigits, Bool.and_eq_true, List.all_cons] at hnat
          simp only [List.cons_append]
          exact d09_not_spTab hnat.2.1)]
    rw [mre_seq]
    refine grp_plus_d09 0 nat
      ('\n' :: (com ++ '\n' :: (renderLines lines ++ rest))) [] pv _ _ hnat
      ((by decide : charI CC.d09 '\n' = false)) ?_
    show mre charI (.seq (.star (.cls .spTab))
      (.seq (.cls .nlc) (.seq (.grp 1 (.star (.cls .dotAny)))
        (.seq (.cls .nlc) (.grp 2 (plus posLineRE)))))) [(0, nat)]
      (lastPv pv nat) ('\n' :: (com ++ '\n' :: (renderLines lines ++ rest)))
      (fun cp pv2 l2 => some (cp, pv2, l2)) = _
    rw [mre_seq]
    rw [star_cls_zero charI .spTab _ _ _ _
      ((by decide : charI CC.spTab '\n' = false))]
    show mre charI (.seq (.cls .nlc) (.seq (.grp 1 (.star (.cls .dotAny)))
      (.seq (.cls .nlc) (.grp 2 (plus posLineRE))))) [(0, nat)]
      (lastPv pv nat) ('\n' :: (com ++ '\n' :: (renderLines lines ++ rest)))
      (fun cp pv2 l2 => some (cp, pv2, l2)) = _
    rw [mre_seq]
    rw [mre_cls_cons charI .nlc _ _ '\n' _ _ (by decide)]
    rw [mre_seq]
    refine grp_comment 1 com (renderLines lines ++ rest) [(0, nat)]
      (some '\n') _ _ hcom ?_
    show mre charI (.seq (.cls .nlc) (.grp 2 (plus posLineRE)))
      [(1, com), (0, nat)] (lastPv (some '\n') com)
      ('\n' :: (renderLines lines ++ rest))
      (fun cp pv2 l2 => some (cp, pv2, l2)) = _
    rw [mre_seq]
    rw [mre_cls_cons charI .nlc _ _ '\n' _ _ (by decide)]
    exact grp_posBlock 2 lines hne hlines rest hrest [(1, com), (0, nat)]
      (some '\n') _ _ rfl
  rcases hpv with h0 | h0
  · subst h0
    rw [mre_bol_start]
    exact hbody
  · subst h0
    rw [mre_bol_nl charI [] '\n' _ _ (by decide)]
    exact hbody

theorem spTab_nl_none {ρ : Type} (b : RE) (c : Char) (cs : List Char)
    (hc1 : charI .spTab c = false) (hc2 : charI .nlc c = false)
    (cp : Caps Char) (pv : Option Char)
    (k : Caps Char → Option Char → List Char → Option ρ) :
    mre charI (.seq (.star (.cls .spTab)) (.seq (.cls .nlc) b)) cp pv
      (c :: cs) k = none := by
  rw [mre_seq]
  rw [star_cls_zero charI .spTab cp pv (c :: cs) _ hc1]
  show mre charI (.seq (.cls .nlc) b) cp pv (c :: cs) k = none
  rw [mre_seq]
  exact mre_cls_stop charI .nlc cp pv (c :: cs) _ hc2

/-- The count-line pattern with everything after it fails when the digits are
followed by a character that is not a digit, a space, a tab or a newline. -/
theorem frameCount_none {ρ : Type} (b : RE) (dg : List Char) (th : Char)
    (tt : List Char) (cp : Caps Char) (pv : Option Char)
    (k : Caps Char → Option Char → List Char → Option ρ)
    (hd : isDigits dg = true)
    (h1 : charI .d09 th = false) (h2 : charI .spTab th = false)
    (h3 : charI .nlc th = false) :
    mre charI (.seq (.grp 0 (plus (.cls .d09)))
      (.seq (.star (.cls .spTab)) (.seq (.cls .nlc) b))) cp pv
      (dg ++ th :: tt) k = none := by
  rw [mre_seq, mre_grp]
  cases dg with
  | nil => simp [isDigits] at hd
  | cons dh dt =>
    simp only [isDigits, Bool.and_eq_true, List.all_cons] at hd
    rw [List.cons_append]
    rw [plus_cls_eq charI .d09 _ dh dt (th :: tt) _ pv hd.2.1
      (fun y hy => (List.all_eq_true.mp hd.2.2) y hy) h1]
    refine tryFwd_none_of _ _ dt (some dh) (th :: tt) ?_ ?_
    · cases dt with
      | nil => exact spTab_nl_none b th tt h2 h3 _ _ _
      | cons d2 d3 =>
        have hd2 : charI .d09 d2 = true :=
          (List.all_eq_true.mp hd.2.2) d2 (by simp)
        exact spTab_nl_none b d2 _ (d09_not_spTab hd2) (d09_not_nlc hd2) _ _ _
    · intro x b2 hab
      cases b2 with
      | nil => exact spTab_nl_none b th tt h2 h3 _ _ _
      | cons b2h b2t =>
        obtain ⟨a2, ha2⟩ := hab
        have hb2 : charI .d09 b2h = true :=
          (List.all_eq_true.mp hd.2.2) b2h (by rw [ha2]; simp)
        exact spTab_nl_none b b2h _ (d09_not_spTab hb2) (d09_not_nlc hb2) _ _ _

/-- No frame match can start at the end of the input or at a position whose
first character is neither a digit nor a space or tab. -/
theorem frameMatch_none_start (l : List Char) (pv : Option Char)
    (hstop : match l with
      | [] => True
      | c :: _ => charI .spTab c = false ∧ charI .d09 c = false) :
    tryMatch charI FRAME_MATCH_REGEX pv l = none := by
  unfold tryMatch FRAME_MATCH_REGEX
  rw [mre_seq]
  have hbody : ∀ (pv2 : Option Char),
      mre charI (.seq (.star (.cls .spTab)) (.seq (.grp 0 (plus (.cls .d09)))
        (.seq (.star (.cls .spTab)) (.seq (.cls .nlc)
          (.seq (.grp 1 (.star (.cls .dotAny)))
            (.seq (.cls .nlc) (.grp 2 (plus posLineRE)))))))) [] pv2 l
      (fun cp pv3 l2 => some (cp, pv3, l2)) = none := by
    intro pv2
    rw [mre_seq]
    rw [star_cls_zero charI .spTab [] pv2 l _
      (by cases l with
        | nil => exact trivial
        | cons c cs => exact hstop.1)]
    show mre charI (.seq (.grp 0 (plus (.cls .d09))) _) [] pv2 l _ = none
    rw [mre_seq, mre_grp]
    rw [show plus (.cls .d09) = .seq (.cls .d09) (.star (.cls .d09)) from rfl,
      mre_seq]
    apply mre_cls_stop
    cases l with
    | nil => exact trivial
    | cons c cs => exact hstop.2
  cases pv with
  | none =>
    rw [mre_bol_start]
    exact hbody none
  | some c =>
    cases hc : charI .nlc c with
    | false => exact mre_bol_mid charI [] c _ _ hc
    | true =>
      rw [mre_bol_nl charI [] c _ _ hc]
      exact hbody (some c)

/-- No frame match can start at a line whose digits are directly followed by
letters (such a line matches neither the count-line shape nor anything
later). -/
theorem frameMatch_none_digitsAlpha (dg al rest : List Char)
    (pv : Option Char) (hd : isDigits dg = true) (ha : isAlphas al = true) :
    tryMatch charI FRAME_MATCH_REGEX pv (dg ++ (al ++ rest)) = none := by
  cases al with
  | nil => simp [isAlphas] at ha
  | cons ah atl =>
    simp only [isAlphas, List.all_cons, Bool.and_eq_true] at ha
    cases dg with
    | nil => simp [isDigits] at hd
    | cons dh dt =>
      have hdh : charI .d09 dh = true := by
        simp only [isDigits, Bool.and_eq_true, List.all_cons] at hd
        exact hd.2.1
      unfold tryMatch FRAME_MATCH_REGEX
      rw [mre_seq]
      have hbody : ∀ (pv2 : Option Char),
          mre charI (.seq (.star (.cls .spTab))
            (.seq (.grp 0 (plus (.cls .d09)))
              (.seq (.star (.cls .spTab)) (.seq (.cls .nlc)
                (.seq (.grp 1 (.star (.cls .dotAny)))
                  (.seq (.cls .nlc) (.grp 2 (plus posLineRE)))))))) [] pv2
            ((dh :: dt) ++ (ah :: atl ++ rest))
          (fun cp pv3 l2 => some (cp, pv3, l2)) = none := by
        intro pv2
        rw [mre_seq]
        rw [star_cls_zero charI .spTab [] pv2 _ _
          (by simp only [List.cons_append]; exact d09_not_spTab hdh)]
        exact frameCount_none _ (dh :: dt) ah (atl ++ rest) [] pv2 _ hd
          (alpha_not_d09 ha.2.1) (alpha_not_spTab ha.2.1)
          (alpha_not_nlc ha.2.1)
      cases pv with
      | none =>
        rw [mre_bol_start]
        exact hbody none
      | some c =>
        cases hc : charI .nlc c with
        | false => exact mre_bol_mid charI [] c _ _ hc
        | true =>
          rw [mre_bol_nl charI [] c _ _ hc]
          exact hbody (some c)

theorem frameMatch_none_mid (c : Char) (hc : charI .nlc c = false)
    (l : List Char) :
    tryMatch charI FRAME_MATCH_REGEX (some c) l = none := by
  unfold tryMatch FRAME_MATCH_REGEX
  rw [mre_seq]
  exact mre_bol_mid charI [] c l _ hc

/-- Generic line-interior walk: when no match of `re` can start after a
non-newline character, the scan crosses the line character by character. -/
theorem fIter_mid_run_gen (re : RE)
    (hmid : ∀ (c : Char), charI .nlc c = false → ∀ (l : List Char),
      tryMatch charI re (some c) l = none) :
    ∀ (run : List Char), (∀ c ∈ run, charI .nlc c = false) →
    ∀ (suffix : List Char) (c0 : Char), charI .nlc c0 = false →
    ∀ (n : Nat), (run ++ '\n' :: suffix).length < n →
      fIter charI re n (some c0) (run ++ '\n' :: suffix) =
        fIter charI re (suffix.length + 1) (some '\n') suffix := by
  intro run
  induction run with
  | nil =>
    intro hrun suffix c0 hc0 n hn
    cases n with
    | zero => simp at hn
    | succ n2 =>
      have htm := hmid c0 hc0 ('\n' :: suffix)
      simp only [List.nil_append, fIter, htm]
      exact fIter_fuel_eq charI re suffix.length suffix le_rfl n2
        (suffix.length + 1) (some '\n') (by simp at hn; omega) (by omega)
  | cons d ds ih =>
    intro hrun suffix c0 hc0 n hn
    cases n with
    | zero => simp at hn
    | succ n2 =>
      have htm := hmid c0 hc0 (d :: (ds ++ '\n' :: suffix))
      simp only [List.cons_append, fIter, htm]
      exact ih (fun c hc => hrun c (by simp [hc])) suffix d
        (hrun d (by simp)) n2 (by simp at hn ⊢; omega)

/-- Generic newline-free tail: once past a non-newline character, a scan
over input with no newline at all finds nothing. -/
theorem fIter_mid_all (re : RE)
    (hmid : ∀ (c : Char), charI .nlc c = false → ∀ (l : List Char),
      tryMatch charI re (some c) l = none) :
    ∀ (l : List Char), (∀ c ∈ l, charI .nlc c = false) →
    ∀ (c0 : Char), charI .nlc c0 = false →
    ∀ (n : Nat), l.length < n →
      fIter charI re n (some c0) l = [] := by
  intro l
  induction l with
  | nil =>
    intro _ c0 hc0 n hn
    cases n with
    | zero => simp at hn
    | succ n2 => simp [fIter, hmid c0 hc0 []]
  | cons d ds ih =>
    intro hl c0 hc0 n hn
    cases n with
    | zero => simp at hn
    | succ n2 =>
      have htm := hmid c0 hc0 (d :: ds)
      simp only [fIter, htm]
      exact ih (fun c hc => hl c (by simp [hc])) d (hl d (by simp)) n2
        (by simp at hn ⊢; omega)

theorem fIter_frame_nil (pv : Option Char) (n : Nat) :
    fIter charI FRAME_MATCH_REGEX n pv [] = [] := by
  cases n with
  | zero => rfl
  | succ n2 => simp [fIter, frameMatch_none_start [] pv trivial]

theorem renderItems_nil : renderItems [] = [] := rfl

theorem renderItems_cons (i : XItem) (is : List XItem) :
    renderItems (i :: is) = i.render ++ renderItems is := by
  simp [renderItems]

/-- Whatever follows a positions block at an item boundary (a junk line or a
frame, both digit-led) keeps the block loop stopped. -/
theorem restBlocked_items (is : List XItem) (rest : List Char)
    (hok : itemsOk is = true) (hrest : RestBlocked rest) :
    RestBlocked (renderItems is ++ rest) := by
  cases is with
  | nil => simpa [renderItems_nil] using hrest
  | cons i tl =>
    have hoki : XItem.ok i = true := by
      simp only [itemsOk, List.all_cons, Bool.and_eq_true] at hok
      exact hok.1
    rw [renderItems_cons]
    cases i with
    | junk dg al =>
      simp only [XItem.ok, Bool.and_eq_true] at hoki
      cases hdg : dg with
      | nil => rw [hdg] at hoki; simp [isDigits] at hoki
      | cons dh dt =>
        have hdh : charI .d09 dh = true := by
          rw [hdg] at hoki
          simp only [isDigits, Bool.and_eq_true, List.all_cons] at hoki
          exact hoki.1.2.1
        refine restDigit_restBlocked _ (Or.inr ⟨dh, dt ++ (al ++ ['\n']) ++
          (renderItems tl ++ rest), ?_, hdh⟩)
        simp [XItem.render, hdg, List.append_assoc]
    | frame f =>
      simp only [XItem.ok, XFrame.ok, Bool.and_eq_true] at hoki
      cases hdg : f.nat with
      | nil => rw [hdg] at hoki; simp [isDigits] at hoki
      | cons dh dt =>
        have hdh : charI .d09 dh = true := by
          rw [hdg] at hoki
          simp only [isDigits, Bool.and_eq_true, List.all_cons] at hoki
          exact hoki.1.1.1.2.1
        refine restDigit_restBlocked _ (Or.inr ⟨dh,
          dt ++ '\n' :: (f.com ++ '\n' :: renderLines f.lines) ++
            (renderItems tl ++ rest), ?_, hdh⟩)
        simp [XFrame.render, XItem.render, hdg, List.append_assoc]

/-- The frame scan over rendered items followed by a tail: junk lines are
walked over silently, each frame contributes its captures, and the scan then
continues on the tail. -/
theorem fIter_items_append :
    ∀ (is : List XItem) (rest : List Char) (R : List (Caps Char)),
      itemsOk is = true → RestBlocked rest →
      (∀ (pv2 : Option Char), pv2 = none ∨ pv2 = some '\n' →
        ∀ (m : Nat), rest.length < m →
          fIter charI FRAME_MATCH_REGEX m pv2 rest = R) →
      ∀ (pv : Option Char), (pv = none ∨ pv = some '\n') →
      ∀ (n : Nat), (renderItems is ++ rest).length < n →
      fIter charI FRAME_MATCH_REGEX n pv (renderItems is ++ rest) =
        (itemsFrames is).map XFrame.caps ++ R := by
  intro is
  induction is with
  | nil =>
    intro rest R hok hrb hR pv hpv n hn
    simp only [renderItems_nil, List.nil_append] at hn ⊢
    rw [hR pv hpv n hn]
    rfl
  | cons i tl ih =>
    intro rest R hok hrb hR pv hpv n hn
    have hok2 : XItem.ok i = true ∧ itemsOk tl = true := by
      simp only [itemsOk, List.all_cons, Bool.and_eq_true] at hok
      exact hok
    obtain ⟨hoki, hoktl⟩ := hok2
    rw [renderItems_cons] at hn ⊢
    cases i with
    | junk dg al =>
      simp only [XItem.ok, Bool.and_eq_true] at hoki
      obtain ⟨hdg, hal⟩ := hoki
      have hsh : XItem.render (.junk dg al) ++ renderItems tl ++ rest =
          dg ++ (al ++ '\n' :: (renderItems tl ++ rest)) := by
        simp [XItem.render, List.append_assoc]
      rw [hsh] at hn ⊢
      cases dg with
      | nil => simp [isDigits] at hdg
      | cons dh dt =>
        have hdh : charI .d09 dh = true := by
          simp only [isDigits, Bool.and_eq_true, List.all_cons] at hdg
          exact hdg.2.1
        have hdt : ∀ c ∈ dt, charI .d09 c = true := by
          simp only [isDigits, Bool.and_eq_true, List.all_cons,
            List.all_eq_true] at hdg
          exact fun c hc => hdg.2.2 c hc
        have hala : ∀ c ∈ al, charI .alpha c = true := by
          simp only [isAlphas, Bool.and_eq_true, List.all_eq_true] at hal
          exact fun c hc => by simpa using hal.2 c hc
        cases n with
        | zero => simp at hn
        | succ n2 =>
          have htm : tryMatch charI FRAME_MATCH_REGEX pv
              (dh :: (dt ++ (al ++ '\n' :: (renderItems tl ++ rest)))) =
              none :=
            frameMatch_none_digitsAlpha (dh :: dt) al
              ('\n' :: (renderItems tl ++ rest)) pv hdg hal
          simp only [List.cons_append, fIter, htm]
          have hnonl : ∀ c ∈ dt ++ al, charI .nlc c = false := by
            intro c hc
            rcases List.mem_append.mp hc with hc | hc
            · exact d09_not_nlc (hdt c hc)
            · exact alpha_not_nlc (hala c hc)
          have hlen : ((dt ++ al) ++ '\n' ::
              (renderItems tl ++ rest)).length < n2 := by
            simp only [List.cons_append, List.length_cons, List.length_append]
              at hn ⊢
            omega
          have hstep := fIter_mid_run_gen FRAME_MATCH_REGEX
            frameMatch_none_mid (dt ++ al) hnonl (renderItems tl ++ rest) dh
            (d09_not_nlc hdh) n2 hlen
          rw [show dt ++ (al ++ '\n' :: (renderItems tl ++ rest)) =
            (dt ++ al) ++ '\n' :: (renderItems tl ++ rest) from by
              simp [List.append_assoc]]
          rw [hstep]
          have hif : (itemsFrames (XItem.junk (dh :: dt) al :: tl)).map
              XFrame.caps = (itemsFrames tl).map XFrame.caps := rfl
          rw [hif]
          exact ih rest R hoktl hrb hR (some '\n') (Or.inr rfl)
            ((renderItems tl ++ rest).length + 1) (by omega)
    | frame f =>
      simp only [XItem.ok, XFrame.ok, Bool.and_eq_true] at hoki
      obtain ⟨⟨⟨hnat, hcom⟩, hlns⟩, hne2⟩ := hoki
      have hne : f.lines ≠ [] := by
        cases hl : f.lines with
        | nil => rw [hl] at hne2; simp at hne2
        | cons a b => simp
      have hsh : XItem.render (.frame f) ++ renderItems tl ++ rest =
          f.nat ++ '\n' :: (f.com ++ '\n' ::
            (renderLines f.lines ++ (renderItems tl ++ rest))) := by
        simp [XItem.render, XFrame.render, List.append_assoc]
      rw [hsh] at hn ⊢
      cases n with
      | zero => simp at hn
      | succ n2 =>
        have hrb2 : RestBlocked (renderItems tl ++ rest) :=
          restBlocked_items tl rest hoktl hrb
        have htm := frameMatch_full f.nat f.com f.lines
          (renderItems tl ++ rest) pv hpv hnat hcom hlns hne hrb2
        have hlt : (renderItems tl ++ rest).length <
            (f.nat ++ '\n' :: (f.com ++ '\n' ::
              (renderLines f.lines ++ (renderItems tl ++ rest)))).length := by
          simp only [List.length_append, List.length_cons]
          omega
        simp only [fIter, htm]
        rw [if_pos hlt]
        rw [ih rest R hoktl hrb hR (some '\n') (Or.inr rfl) n2
          (by simp only [List.length_append, List.length_cons] at hn ⊢
              omega)]
        rfl

/-- The frame scan of a rendered item list: exactly the frames' captures, in
document order. -/
theorem fIter_items (is : List XItem) (hok : itemsOk is = true)
    (pv : Option Char) (hpv : pv = none ∨ pv = some '\n')
    (n : Nat) (hn : (renderItems is).length < n) :
    fIter charI FRAME_MATCH_REGEX n pv (renderItems is) =
      (itemsFrames is).map XFrame.caps := by
  have h := fIter_items_append is [] [] hok
    (restDigit_restBlocked [] (Or.inl rfl))
    (fun pv2 _ m _ => fIter_frame_nil pv2 m) pv hpv n (by simpa using hn)
  simpa using h

/-- The frame matches of a rendered item list are exactly its frames, junk
lines contributing nothing. -/
theorem framesOf_items (is : List XItem) (hok : itemsOk is = true) :
    framesOf charI charDval (renderItems is) =
      (itemsFrames is).map XFrame.frameT := by
  unfold framesOf findIter
  rw [fIter_items is hok none (Or.inl rfl) _ (by omega)]
  rw [List.map_map]
  have hco : ((fun cp => (⟨digitsToNat charDval ((capsGet cp 0).getD []),
      (capsGet cp 1).getD [], (capsGet cp 2).getD []⟩ : FrameT Char)) ∘
      XFrame.caps) = XFrame.frameT := by
    funext f
    rfl
  rw [hco]

theorem d09_pyDigit {c : Char} (h : charI .d09 c = true) : pyDigit c = true := h

theorem takeWhile_all_append (p : Char → Bool) (a b : List Char)
    (ha : ∀ c ∈ a, p c = true)
    (hb : match b with | [] => True | c :: _ => p c = false) :
    (a ++ b).takeWhile p = a ∧ (a ++ b).dropWhile p = b := by
  induction a with
  | nil =>
    cases b with
    | nil => exact ⟨rfl, rfl⟩
    | cons c cs =>
      have hb2 : p c = false := hb
      simp only [List.nil_append]
      exact ⟨List.takeWhile_cons_of_neg (by simp [hb2]),
             List.dropWhile_cons_of_neg (by simp [hb2])⟩
  | cons c cs ih =>
    have hc : p c = true := ha c (by simp)
    obtain ⟨h1, h2⟩ := ih (fun y hy => ha y (by simp [hy]))
    exact ⟨by rw [List.cons_append, List.takeWhile_cons_of_pos hc, h1],
           by rw [List.cons_append, List.dropWhile_cons_of_pos hc, h2]⟩

theorem stripWs_no_ws (s : List Char)
    (h : ∀ c ∈ s, charClass .ws c.toNat = false) : stripWs s = s := by
  unfold stripWs
  have h1 : s.dropWhile (fun c => charClass .ws c.toNat) = s := by
    cases s with
    | nil => rfl
    | cons c cs =>
      exact List.dropWhile_cons_of_neg (by simp [h c (by simp)])
  rw [h1]
  have h2 : s.reverse.dropWhile (fun c => charClass .ws c.toNat) =
      s.reverse := by
    cases hs : s.reverse with
    | nil => rfl
    | cons c cs =>
      have hc : c ∈ s := by
        have hm : c ∈ s.reverse := by rw [hs]; simp
        simpa using hm
      exact List.dropWhile_cons_of_neg (by simp [h c hc])
  rw [h2, List.reverse_reverse]

theorem pyFloat_digits_dot (d e : List Char) (hd : isDigits d = true)
    (he : isDigits e = true) :
    pyFloat (d ++ '.' :: e) =
      some ((digitsVal d : ℚ) + (digitsVal e : ℚ) / (10 : ℚ) ^ e.length) := by
  have hdall : ∀ c ∈ d, charI .d09 c = true := by
    simp only [isDigits, Bool.and_eq_true, List.all_eq_true] at hd
    exact fun c hc => by simpa using hd.2 c hc
  have heall : ∀ c ∈ e, charI .d09 c = true := by
    simp only [isDigits, Bool.and_eq_true, List.all_eq_true] at he
    exact fun c hc => by simpa using he.2 c hc
  have hstrip : stripWs (d ++ '.' :: e) = d ++ '.' :: e := by
    refine stripWs_no_ws _ ?_
    intro c hc
    rcases List.mem_append.mp hc with hc | hc
    · exact d09_not_ws (hdall c hc)
    · rcases List.mem_cons.mp hc with hc | hc
      · subst hc; decide
      · exact d09_not_ws (heall c hc)
  have htd := takeWhile_all_append pyDigit d ('.' :: e)
    (fun c hc => d09_pyDigit (hdall c hc)) ((by decide : pyDigit '.' = false))
  have hte := takeWhile_all_append pyDigit e []
    (fun c hc => d09_pyDigit (heall c hc)) trivial
  simp only [List.append_nil] at hte
  cases d with
  | nil => simp [isDigits] at hd
  | cons dh dt =>
    have hdh : charI .d09 dh = true := hdall dh (by simp)
    have hdh1 : dh ≠ '-' := by
      intro hq
      rw [hq] at hdh
      simp [charI, charClass] at hdh
    have hdh2 : dh ≠ '+' := by
      intro hq
      rw [hq] at hdh
      simp [charI, charClass] at hdh
    have ht1 : (match dh :: (dt ++ '.' :: e) with
        | '+' :: r => r | '-' :: r => r | r => r) = dh :: (dt ++ '.' :: e) := by
      split
      · rename_i r heq
        injection heq with hq1 hq2
        exact absurd hq1 hdh2
      · rename_i r heq
        injection heq with hq1 hq2
        exact absurd hq1 hdh1
      · rfl
    have hsg : (match dh :: (dt ++ '.' :: e) with
        | '-' :: _ => (-1 : ℚ) | _ => 1) = 1 := by
      split
      · rename_i tl heq
        injection heq with hq1 hq2
        exact absurd hq1 hdh1
      · rfl
    unfold pyFloat
    rw [hstrip]
    simp only [List.cons_append]
    simp only [List.cons_append] at htd
    rw [ht1, hsg, htd.1, htd.2]
    simp [digitsVal, hte.1, hte.2]

/-- Every coordinate token of a well-formed block is accepted by `float()`. -/
theorem toksOk_ofLines (ls : List XLine) (hok : linesOk ls = true) :
    toksOk pyFloat (toksOfLines ls) = true := by
  simp only [toksOk, List.all_eq_true]
  intro m hm
  simp only [toksOfLines, List.mem_filterMap] at hm
  obtain ⟨x, hx, htok⟩ := hm
  cases x with
  | coord lead sym d1 e1 d2 e2 d3 e3 =>
    simp only [XLine.tok, Option.some.injEq] at htok
    have hxo : XLine.ok (.coord lead sym d1 e1 d2 e2 d3 e3) = true := by
      simp only [linesOk, List.all_eq_true] at hok
      exact hok _ hx
    simp only [XLine.ok, Bool.and_eq_true] at hxo
    obtain ⟨⟨⟨⟨⟨⟨⟨hlead, hsym⟩, h1⟩, h2⟩, h3⟩, h4⟩, h5⟩, h6⟩ := hxo
    subst htok
    simp [pyFloat_digits_dot d1 e1 h1 h2, pyFloat_digits_dot d2 e2 h3 h4,
      pyFloat_digits_dot d3 e3 h5 h6]
  | blank ws => simp [XLine.tok] at htok
  | hash lead txt => simp [XLine.tok] at htok

/-- Fully consuming an iterator whose entry count equals the declared count
and whose tokens all parse yields exactly the atoms, with no error. -/
theorem drainGo_exact {α : Type} (pf : List α → Option ℚ) :
    ∀ (ms : List (PosTok α)) (n c : Nat), toksOk pf ms = true →
    c + ms.length = n →
    drainGo pf ms n c = .ok (ms.map (atomFromTok pf)) := by
  intro ms
  induction ms with
  | nil =>
    intro n c _ hc
    have hcn : c = n := by simpa using hc
    simp [drainGo, hcn]
  | cons m rest ih =>
    intro n c hok hc
    simp only [toksOk, List.all_cons, Bool.and_eq_true] at hok
    obtain ⟨⟨⟨hx, hy⟩, hz⟩, hrest⟩ := hok
    obtain ⟨x, hx⟩ := Option.isSome_iff_exists.mp hx
    obtain ⟨y, hy⟩ := Option.isSome_iff_exists.mp hy
    obtain ⟨z, hz⟩ := Option.isSome_iff_exists.mp hz
    have hnlt : ¬ n < c + 1 := by simp at hc ⊢; omega
    have hrec := ih n (c + 1) hrest (by simp at hc ⊢; omega)
    simp [drainGo, hnlt, hx, hy, hz, hrec, atomFromTok]

theorem parseFrames_family (fs : List XFrame)
    (hok : ∀ f ∈ fs, f.ok = true ∧
      (toksOfLines f.lines).length = digitsToNat charDval f.nat) :
    parseFrames charI (fun l => some l) pyFloat (fs.map XFrame.frameT) =
      .ok (fs.map XFrame.record) := by
  induction fs with
  | nil => rfl
  | cons f tl ih =>
    obtain ⟨hfok, hcnt⟩ := hok f (by simp)
    have htl := fun g hg => hok g (List.mem_cons_of_mem f hg)
    simp only [XFrame.ok, Bool.and_eq_true] at hfok
    obtain ⟨⟨⟨hnat, hcom⟩, hlns⟩, hne⟩ := hfok
    have hdrain : drainGo pyFloat
        (posToksOf charI (renderLines f.lines))
        (digitsToNat charDval f.nat) 0 =
        .ok ((toksOfLines f.lines).map (atomFromTok pyFloat)) := by
      rw [posToks_lines f.lines hlns]
      exact drainGo_exact pyFloat (toksOfLines f.lines) _ 0
        (toksOk_ofLines f.lines hlns) (by omega)
    simp only [List.map_cons, parseFrames, XFrame.frameT]
    rw [hdrain, ih htl]
    rfl

theorem itemsFrames_map_frame (fs : List XFrame) :
    itemsFrames (fs.map XItem.frame) = fs := by
  induction fs with
  | nil => rfl
  | cons f tl ih =>
    simp only [List.map_cons, itemsFrames, List.filterMap_cons] at ih ⊢
    rw [ih]

theorem itemsOk_map_frame (fs : List XFrame)
    (h : ∀ f ∈ fs, XFrame.ok f = true) :
    itemsOk (fs.map XItem.frame) = true := by
  simp only [itemsOk, List.all_eq_true]
  intro i hi
  simp only [List.mem_map] at hi
  obtain ⟨f, hf, rfl⟩ := hi
  exact h f hf

/-- The eager parse of a rendered item document: junk lines and the blank
and comment lines inside the blocks contribute nothing; each frame yields
its record. -/
theorem parse_items (is : List XItem) (hok : itemsOk is = true)
    (hcnt : ∀ f ∈ itemsFrames is,
      (toksOfLines f.lines).length = digitsToNat charDval f.nat) :
    parse ⟨renderItems is⟩ = .ok ((itemsFrames is).map XFrame.record) := by
  show parseFrames charI (fun l => some l) pyFloat
    (framesOf charI charDval (renderItems is)) = _
  rw [framesOf_items is hok]
  refine parseFrames_family (itemsFrames is) ?_
  intro f hf
  refine ⟨?_, hcnt f hf⟩
  simp only [itemsFrames, List.mem_filterMap] at hf
  obtain ⟨i, hi, hfi⟩ := hf
  cases i with
  | junk dg al => simp at hfi
  | frame g =>
    simp only [Option.some.injEq] at hfi
    subst hfi
    simp only [itemsOk, List.all_eq_true] at hok
    exact hok _ hi

/-- C9 counterexample: a frame declaring `natoms = 0` with exactly 0
coordinate lines is sensitive to interleaving.  With no blank or `#` line at
all (`"0\nc\n"`) the frame pattern finds no frame (its positions block needs
at least one line), so the parse yields no record; interleaving one blank
line (`"0\nc\n\n"`) makes it yield one record — the result is not left
unchanged. -/
theorem c9_cex_empty_block :
    parse "0\nc\n" = .ok [] ∧
    parse "0\nc\n\n" = .ok [⟨0, ['c'], []⟩] ∧
    (.ok [] : Except PErr (List (Record Char))) ≠ .ok [⟨0, ['c'], []⟩] := by
  refine ⟨?_, ?_, by simp⟩ <;> with_unfolding_all rfl

/-- C9 (amended): for every sequence of frames whose positions blocks are
nonempty and whose declared count equals the number of coordinate lines, the
eager parse succeeds and each frame yields the record built from its
coordinate lines alone — its atoms list has exactly the declared number of
entries, and the interleaved blank and `#` lines (any number, in any
position, including the case of extra lines when the count is zero)
contribute nothing: the result mentions only the count, the comment and the
coordinate lines. -/
theorem c9_blank_hash_interleaving (fs : List XFrame)
    (hok : ∀ f ∈ fs, f.ok = true ∧
      (toksOfLines f.lines).length = digitsToNat charDval f.nat) :
    parse ⟨renderFrames fs⟩ = .ok (fs.map XFrame.record) ∧
    ∀ f ∈ fs, (XFrame.record f).atoms.length =
      digitsToNat charDval f.nat := by
  constructor
  · have h := parse_items (fs.map XItem.frame)
      (itemsOk_map_frame fs (fun f hf => (hok f hf).1))
      (by rw [itemsFrames_map_frame]; exact fun f hf => (hok f hf).2)
    rw [itemsFrames_map_frame] at h
    exact h
  · intro f hf
    simp [XFrame.record, (hok f hf).2]

/-- C9 witness: the concrete frame `"2\nt\n \nC\t1.5\t2.0\t3.0\n# x\n
H\t1.0\t1.0\t1.0\n\n"` parses to one record with exactly its two coordinate
atoms, through the amended theorem. -/
theorem c9_blank_hash_interleaving_witness :
    (∀ f ∈ c9fs, XFrame.ok f = true ∧
      (toksOfLines f.lines).length = digitsToNat charDval f.nat) ∧
    parse ⟨renderFrames c9fs⟩ = .ok (c9fs.map XFrame.record) ∧
    ∀ f ∈ c9fs, (XFrame.record f).atoms.length =
      digitsToNat charDval f.nat := by
  have hh : ∀ f ∈ c9fs, XFrame.ok f = true ∧
      (toksOfLines f.lines).length = digitsToNat charDval f.nat := by decide
  exact ⟨hh, (c9_blank_hash_interleaving c9fs hh).1,
    (c9_blank_hash_interleaving c9fs hh).2⟩

/-- C7: for every document of junk lines (digits directly followed by
letters, a shape the frame pattern cannot match) interleaved with frames of
the family, the parse raises no error for the junk spans: it yields exactly
the matching frames' records, in document order, the junk spans silently
skipped. -/
theorem c7_junk_spans_skipped (is : List XItem) (hok : itemsOk is = true)
    (hcnt : ∀ f ∈ itemsFrames is,
      (toksOfLines f.lines).length = digitsToNat charDval f.nat) :
    parse ⟨renderItems is⟩ = .ok ((itemsFrames is).map XFrame.record) :=
  parse_items is hok hcnt

/-- C7 witness: the concrete document `"12xy\n1\nc\nC\t1.0\t2.0\t3.0\n3z\n"`
parses, with no error, to exactly the one record of its one matching frame. -/
theorem c7_junk_spans_skipped_witness :
    itemsOk c7is = true ∧
    (∀ f ∈ itemsFrames c7is,
      (toksOfLines f.lines).length = digitsToNat charDval f.nat) ∧
    parse ⟨renderItems c7is⟩ =
      .ok ((itemsFrames c7is).map XFrame.record) ∧
    (itemsFrames c7is).length = 1 := by
  have h1 : itemsOk c7is = true := by decide
  have h2 : ∀ f ∈ itemsFrames c7is,
      (toksOfLines f.lines).length = digitsToNat charDval f.nat := by decide
  exact ⟨h1, h2, c7_junk_spans_skipped c7is h1 h2, by decide⟩

theorem isDigits_mem {d : List Char} (hd : isDigits d = true) {c : Char}
    (hc : c ∈ d) : charI .d09 c = true := by
  simp only [isDigits, Bool.and_eq_true, List.all_eq_true] at hd
  simpa using hd.2 c hc

theorem isAlphas_mem {d : List Char} (hd : isAlphas d = true) {c : Char}
    (hc : c ∈ d) : charI .alpha c = true := by
  simp only [isAlphas, Bool.and_eq_true, List.all_eq_true] at hd
  simpa using hd.2 c hc

theorem coordContent_noNl (sym d1 e1 d2 e2 d3 e3 : List Char)
    (hsym : isAlphas sym = true)
    (h1 : isDigits d1 = true) (h2 : isDigits e1 = true)
    (h3 : isDigits d2 = true) (h4 : isDigits e2 = true)
    (h5 : isDigits d3 = true) (h6 : isDigits e3 = true) :
    ∀ c ∈ coordContent sym d1 e1 d2 e2 d3 e3, charI .nlc c = false := by
  intro c hc
  simp only [coordContent] at hc
  rcases List.mem_append.mp hc with h | h
  · exact alpha_not_nlc (isAlphas_mem hsym h)
  rcases List.mem_cons.mp h with rfl | h
  · decide
  rcases List.mem_append.mp h with h | h
  · exact d09_not_nlc (isDigits_mem h1 h)
  rcases List.mem_cons.mp h with rfl | h
  · decide
  rcases List.mem_append.mp h with h | h
  · exact d09_not_nlc (isDigits_mem h2 h)
  rcases List.mem_cons.mp h with rfl | h
  · decide
  rcases List.mem_append.mp h with h | h
  · exact d09_not_nlc (isDigits_mem h3 h)
  rcases List.mem_cons.mp h with rfl | h
  · decide
  rcases List.mem_append.mp h with h | h
  · exact d09_not_nlc (isDigits_mem h4 h)
  rcases List.mem_cons.mp h with rfl | h
  · decide
  rcases List.mem_append.mp h with h | h
  · exact d09_not_nlc (isDigits_mem h5 h)
  rcases List.mem_cons.mp h with rfl | h
  · decide
  exact d09_not_nlc (isDigits_mem h6 h)

/-- A newline-free suffix lets no further positions-block line start. -/
theorem posLineRE_blocked_noNl (rest : List Char)
    (h : ∀ c ∈ rest, charI .nlc c = false) : PosLineBlocked rest := by
  intro ρ cp pv k
  rw [posLineRE_eq, mre_seq]
  refine mre_none2 charI (fun c => !(charI .nlc c)) _ cp pv rest _ ?_ ?_
  · simp only [List.all_eq_true]
    intro c hc
    simp [h c hc]
  · intro cp2 pv2 l2 hl2
    apply mre_cls_stop
    cases l2 with
    | nil => exact trivial
    | cons c cs =>
      simp only [List.all_cons, Bool.and_eq_true] at hl2
      simpa using hl2.1

theorem posBody_none_noNl {ρ : Type} (l : List Char)
    (hnl : ∀ c ∈ l, charI .nlc c = false) (cp : Caps Char) (pv : Option Char)
    (k : Caps Char → Option Char → List Char → Option ρ) :
    mre charI (.seq (.alt (.seq symRE (rep3 frameFloat)) (.cls .hashC))
      (.star (.cls .dotAny))) cp pv l
      (fun cp2 pv2 l2 => mre charI (.cls .nlc) cp2 pv2 l2 k) = none := by
  refine mre_none2 charI (fun c => !(charI .nlc c)) _ cp pv l _ ?_ ?_
  · simp only [List.all_eq_true]
    intro c hc
    simp [hnl c hc]
  · intro cp2 pv2 l2 hl2
    apply mre_cls_stop
    cases l2 with
    | nil => exact trivial
    | cons c cs =>
      simp only [List.all_cons, Bool.and_eq_true] at hl2
      simpa using hl2.1

/-- A newline-free letter-led suffix (an unterminated coordinate line) keeps
the positions-block loop stopped. -/
theorem restBlocked_noNl_alpha (rh : Char) (rt : List Char)
    (hh : charI .alpha rh = true)
    (hnl : ∀ c ∈ rh :: rt, charI .nlc c = false) :
    RestBlocked (rh :: rt) := by
  refine ⟨posLineRE_blocked_noNl _ hnl, alpha_not_ws hh, ?_⟩
  intro ρ run hrun cp pv k
  unfold posLineA
  rw [mre_seq]
  rw [star_cls_eq charI .ws _ run (rh :: rt) cp pv hrun (alpha_not_ws hh)]
  refine tryFwd_none_of _ cp run pv (rh :: rt) ?_ ?_
  · cases hr : run with
    | nil =>
      simp only [List.nil_append]
      exact posBody_none_noNl (rh :: rt) hnl cp pv k
    | cons r rs =>
      apply posBody_none
      have hw : charI .ws r = true := hrun r (by rw [hr]; simp)
      exact ⟨ws_not_alpha hw, ws_not_hash hw⟩
  · intro x b hab
    cases b with
    | nil => exact posBody_none_noNl (rh :: rt) hnl cp (some x) k
    | cons bh bt =>
      obtain ⟨a, ha⟩ := hab
      apply posBody_none
      have hw : charI .ws bh = true := hrun bh (by rw [ha]; simp)
      exact ⟨ws_not_alpha hw, ws_not_hash hw⟩

/-- The scan of the unterminated tail frame: the frame matches with its
positions block cut at the last terminated line, and nothing matches in the
leftover line. -/
theorem fIter_truncated_tail (nat com : List Char) (lines : List XLine)
    (sym d1 e1 d2 e2 d3 e3 : List Char)
    (hnat : isDigits nat = true) (hcom : noNl com = true)
    (hlines : linesOk lines = true) (hne : lines ≠ [])
    (hsym : isAlphas sym = true)
    (h1 : isDigits d1 = true) (h2 : isDigits e1 = true)
    (h3 : isDigits d2 = true) (h4 : isDigits e2 = true)
    (h5 : isDigits d3 = true) (h6 : isDigits e3 = true) :
    ∀ (pv2 : Option Char), pv2 = none ∨ pv2 = some '\n' →
    ∀ (m : Nat), (nat ++ '\n' :: (com ++ '\n' :: (renderLines lines ++
        coordContent sym d1 e1 d2 e2 d3 e3))).length < m →
    fIter charI FRAME_MATCH_REGEX m pv2
      (nat ++ '\n' :: (com ++ '\n' :: (renderLines lines ++
        coordContent sym d1 e1 d2 e2 d3 e3))) =
      [[(2, renderLines lines), (1, com), (0, nat)]] := by
  intro pv2 hpv2 m hm
  cases sym with
  | nil => simp [isAlphas] at hsym
  | cons sh st =>
    have hsh : charI .alpha sh = true := isAlphas_mem hsym (by simp)
    have hnl := coordContent_noNl (sh :: st) d1 e1 d2 e2 d3 e3 hsym h1 h2 h3
      h4 h5 h6
    have hcc : coordContent (sh :: st) d1 e1 d2 e2 d3 e3 =
        sh :: (st ++ '\t' :: (d1 ++ '.' :: (e1 ++ '\t' :: (d2 ++ '.' ::
          (e2 ++ '\t' :: (d3 ++ '.' :: e3)))))) := by
      simp [coordContent]
    have hrb : RestBlocked (coordContent (sh :: st) d1 e1 d2 e2 d3 e3) := by
      rw [hcc]
      refine restBlocked_noNl_alpha sh _ hsh ?_
      rw [← hcc]
      exact hnl
    cases m with
    | zero => simp at hm
    | succ m2 =>
      have htm := frameMatch_full nat com lines
        (coordContent (sh :: st) d1 e1 d2 e2 d3 e3) pv2 hpv2 hnat hcom
        hlines hne hrb
      have hlt : (coordContent (sh :: st) d1 e1 d2 e2 d3 e3).length <
          (nat ++ '\n' :: (com ++ '\n' :: (renderLines lines ++
            coordContent (sh :: st) d1 e1 d2 e2 d3 e3))).length := by
        simp only [List.length_append, List.length_cons]
        omega
      simp only [fIter, htm]
      rw [if_pos hlt]
      congr 1
      rw [hcc]
      cases m2 with
      | zero =>
        rw [hcc] at hlt
        simp only [List.length_append, List.length_cons] at hm
        omega
      | succ m3 =>
        have htm2 : tryMatch charI FRAME_MATCH_REGEX (some '\n')
            (sh :: (st ++ '\t' :: (d1 ++ '.' :: (e1 ++ '\t' :: (d2 ++ '.' ::
              (e2 ++ '\t' :: (d3 ++ '.' :: e3))))))) = none :=
          frameMatch_none_start _ (some '\n')
            ⟨alpha_not_spTab hsh, alpha_not_d09 hsh⟩
        simp only [fIter, htm2]
        refine fIter_mid_all FRAME_MATCH_REGEX frameMatch_none_mid _ ?_ sh
          (alpha_not_nlc hsh) m3 ?_
        · intro c hc
          refine hnl c ?_
          rw [hcc]
          simp [hc]
        · rw [hcc] at hm
          simp only [List.length_append, List.length_cons] at hm ⊢
          omega

theorem capsExtract_frameT :
    ((fun cp => (⟨digitsToNat charDval ((capsGet cp 0).getD []),
      (capsGet cp 1).getD [], (capsGet cp 2).getD []⟩ : FrameT Char)) ∘
      XFrame.caps) = XFrame.frameT := by
  funext f
  rfl

/-- C10: every line of a frame must be newline-terminated for the frame to
match.  For every document ending in a frame whose last coordinate line
lacks its trailing newline, the unterminated line is excluded from the frame
match: the final frame's positions capture stops at the last terminated
line, the earlier frames are unaffected, and no error is reported (the scan
simply finds nothing in the leftover text).  The witness also shows the
other half: with no terminated block line at all, the unterminated frame is
silently skipped entirely. -/
theorem c10_trailing_newline_truncation (fs : List XFrame)
    (hfs : ∀ f ∈ fs, f.ok = true)
    (nat com : List Char) (lines : List XLine)
    (sym d1 e1 d2 e2 d3 e3 : List Char)
    (hnat : isDigits nat = true) (hcom : noNl com = true)
    (hlines : linesOk lines = true) (hne : lines ≠ [])
    (hsym : isAlphas sym = true)
    (h1 : isDigits d1 = true) (h2 : isDigits e1 = true)
    (h3 : isDigits d2 = true) (h4 : isDigits e2 = true)
    (h5 : isDigits d3 = true) (h6 : isDigits e3 = true) :
    framesOf charI charDval
      (renderFrames fs ++
        (nat ++ '\n' :: (com ++ '\n' :: (renderLines lines ++
          coordContent sym d1 e1 d2 e2 d3 e3)))) =
      fs.map XFrame.frameT ++
        [⟨digitsToNat charDval nat, com, renderLines lines⟩] := by
  have hokit : itemsOk (fs.map XItem.frame) = true := itemsOk_map_frame fs hfs
  have hrbt : RestBlocked (nat ++ '\n' :: (com ++ '\n' ::
      (renderLines lines ++ coordContent sym d1 e1 d2 e2 d3 e3))) := by
    cases nat with
    | nil => simp [isDigits] at hnat
    | cons nh nt =>
      have hnh : charI .d09 nh = true := isDigits_mem hnat (by simp)
      exact restDigit_restBlocked _ (Or.inr ⟨nh, nt ++ '\n' :: (com ++ '\n' ::
        (renderLines lines ++ coordContent sym d1 e1 d2 e2 d3 e3)),
        by simp, hnh⟩)
  unfold framesOf findIter
  rw [show renderFrames fs = renderItems (fs.map XItem.frame) from rfl]
  rw [fIter_items_append (fs.map XItem.frame) _ _ hokit hrbt
    (fIter_truncated_tail nat com lines sym d1 e1 d2 e2 d3 e3 hnat hcom
      hlines hne hsym h1 h2 h3 h4 h5 h6)
    none (Or.inl rfl) _ (by omega)]
  rw [itemsFrames_map_frame, List.map_append, List.map_map, capsExtract_frameT]
  rfl

/-- C10 witness: in `"1\na\nC\t1.0\t2.0\t3.0\n1\nc\nH\t4.0\t5.0\t6.0\nH\t7.0\t8.0\t9.0"`
the unterminated last line `H\t7.0\t8.0\t9.0` is excluded from the second
frame's positions capture, through the theorem; and an unterminated frame
with no terminated coordinate line at all (`"1\nc\nC\t1.0\t2.0\t3.0"`) is
skipped entirely, with no error. -/
theorem c10_trailing_newline_truncation_witness :
    framesOf charI charDval
      (renderFrames c10fs ++
        (['1'] ++ '\n' :: (['c'] ++ '\n' ::
          (renderLines [.coord [] ['H'] ['4'] ['0'] ['5'] ['0'] ['6'] ['0']] ++
          coordContent ['H'] ['7'] ['0'] ['8'] ['0'] ['9'] ['0'])))) =
      c10fs.map XFrame.frameT ++
        [⟨digitsToNat charDval ['1'], ['c'],
          renderLines [.coord [] ['H'] ['4'] ['0'] ['5'] ['0'] ['6'] ['0']]⟩] ∧
    parse "1\nc\nC\t1.0\t2.0\t3.0" = .ok [] := by
  constructor
  · exact c10_trailing_newline_truncation c10fs (by decide) ['1'] ['c']
      [.coord [] ['H'] ['4'] ['0'] ['5'] ['0'] ['6'] ['0']]
      ['H'] ['7'] ['0'] ['8'] ['0'] ['9'] ['0']
      (by decide) (by decide) (by decide) (by simp) (by decide)
      (by decide) (by decide) (by decide) (by decide) (by decide) (by decide)
  · with_unfolding_all rfl
